import Mathlib

/-!
# The crawler of terencechow/crawl: a shallow embedding

The Go program keeps four global stores (the sitemap tree with its parent-of
index, the to-visit set, the visit-state map and the work queue) and mutates
them from worker goroutines.  Here the stores are explicit values, a worker
iteration is a function from stores to stores, and Go maps are association
lists read by first match.

Sections follow the source files: `parser/parser.go`, `crawler/crawler.go`,
`writer/writer.go`.
-/

set_option autoImplicit false

namespace Crawl

/-! ## Go maps with string keys -/

namespace GoMap

variable {β : Type}

/-- Map read `m[k]` with the comma-ok flag: `none` when the key is absent. -/
def get? : List (String × β) → String → Option β
  | [], _ => none
  | (k', v) :: rest, k => if k' = k then some v else get? rest k

/-- Map write `m[k] = v`: overwrite the entry of `k`, or add one. -/
def set : List (String × β) → String → β → List (String × β)
  | [], k, v => [(k, v)]
  | (k', v') :: rest, k, v => if k' = k then (k, v) :: rest else (k', v') :: set rest k v

/-- Builtin `delete(m, k)`. -/
def delete : List (String × β) → String → List (String × β)
  | [], _ => []
  | (k', v') :: rest, k => if k' = k then delete rest k else (k', v') :: delete rest k

/-- The keys of the map, in storage order. -/
def keys (m : List (String × β)) : List String := m.map Prod.fst

/-- Builtin `len(m)`. -/
def len (m : List (String × β)) : Nat := m.length

end GoMap

/-! ## parser/parser.go -/

/-- Function `NormalizeURL` cuts the string at the first `?` or `#` (`strings.IndexAny`
followed by the slice `currentURL[:idx]`); both are one-byte characters, so
the byte prefix is the character prefix. -/
def NormalizeURL (currentURL : String) : String :=
  String.mk (currentURL.data.takeWhile (fun c => !(c == '?' || c == '#')))

/-! ## crawler/crawler.go: data structures -/

/-- Type `VisitStatus`, an `int` in the source. -/
abbrev VisitStatus := Int

/-- Constant `VISITING VisitStatus = 1`. -/
def VISITING : VisitStatus := 1

/-- Constant `VISITED VisitStatus = 2`. -/
def VISITED : VisitStatus := 2

/-- Type `Node struct { URL string; Links map[string]*Node }`.  The program
only ever stores freshly allocated nodes in `Links`, so the pointer graph is
a tree and a node is given with its whole subtree. -/
inductive Node where
  | mk (URL : String) (Links : List (String × Node)) : Node

namespace Node

/-- Field `URL`. -/
def URL : Node → String
  | mk u _ => u

/-- Field `Links`. -/
def Links : Node → List (String × Node)
  | mk _ ls => ls

/-- The node `&Node{URL: link, Links: make(map[string]*Node)}`. -/
def fresh (link : String) : Node := mk link []

/-- The node a pointer path designates: follow `Links[k]` for each key of
the path, starting at the given node. -/
def at? : Node → List String → Option Node
  | n, [] => some n
  | n, k :: ks =>
    match GoMap.get? n.Links k with
    | none => none
    | some c => at? c ks

/-- Change the value stored under the first entry of key `k`. -/
def mapEntry (g : Node → Node) : List (String × Node) → String → List (String × Node)
  | [], _ => []
  | (k', c) :: rest, k => if k' = k then (k', g c) :: rest else (k', c) :: mapEntry g rest k

/-- In-place mutation through a pointer: the node designated by the path gets
its `Links` map replaced by `f Links`; the rest of the tree is untouched. -/
def modifyAt (f : List (String × Node) → List (String × Node)) : List String → Node → Node
  | [], n => mk n.URL (f n.Links)
  | k :: ks, n => mk n.URL (mapEntry (modifyAt f ks) n.Links k)

end Node

/-- Type `Info struct { Sitemap *Node; Parentmap map[string]string }`. -/
structure Info where
  Sitemap : Node
  Parentmap : List (String × String)

/-- Constant `ROOT = "ROOT"`. -/
def ROOT : String := "ROOT"

/-- What can go wrong at run time in the embedded code. -/
inductive Fault where
  | nilDereference
  | walkOutOfFuel
  | retryOutOfFuel
  deriving DecidableEq, Repr

/-- A non-nil `*Node` into the sitemap: where the node sits (the link keys
from the root) and the node found there. -/
structure Ref where
  path : List String
  node : Node

/-- Go map read of the parent-of index: the zero value `""` when absent. -/
def Info.parentOf (self : Info) (u : String) : String :=
  (GoMap.get? self.Parentmap u).getD ""

/-- The first loop of `GetNodeFromSitemap`, which appends `nextURL` to `path` and moves to
`Parentmap[nextURL]` while that entry is neither `""` nor `ROOT`.  One unit of
fuel per evaluation of the loop condition. -/
def parentWalk (self : Info) : Nat → String → List String → Option (List String)
  | 0, _, _ => none
  | fuel + 1, nextURL, path =>
    if self.parentOf nextURL ≠ "" ∧ self.parentOf nextURL ≠ ROOT then
      parentWalk self fuel (self.parentOf nextURL) (path ++ [nextURL])
    else
      some path

/-- Expression `temp.Links[k]` on a `*Node` that may be nil: a nil `temp`
panics, a missing key gives nil. -/
def linksIndex (temp : Option Ref) (k : String) : Except Fault (Option Ref) :=
  match temp with
  | none => .error .nilDereference
  | some r =>
    match GoMap.get? r.node.Links k with
    | none => .ok none
    | some c => .ok (some ⟨r.path ++ [k], c⟩)

/-- The second loop of `GetNodeFromSitemap`:
`for i := len(path) - 1; i > 0; i-- { temp = temp.Links[path[i]] }`,
entered with the loop variable at `i`. -/
def descendLoop (path : List String) : Nat → Option Ref → Except Fault (Option Ref)
  | 0, temp => .ok temp
  | i + 1, temp =>
    match linksIndex temp (path.getD (i + 1) "") with
    | .error e => .error e
    | .ok temp' => descendLoop path i temp'

/-- Method `func (self *Info) GetNodeFromSitemap(currentURL string) *Node`.
The result is `none` for a nil pointer. -/
def Info.GetNodeFromSitemap (self : Info) (fuel : Nat) (currentURL : String) :
    Except Fault (Option Ref) :=
  match parentWalk self fuel currentURL [] with
  | none => .error .walkOutOfFuel
  | some path =>
    if path.length = 0 then
      .ok (some ⟨[], self.Sitemap⟩)
    else
      match descendLoop path (path.length - 1) (some ⟨[], self.Sitemap⟩) with
      | .error e => .error e
      | .ok temp => linksIndex temp currentURL

/-! ## crawler/crawler.go: what the crawler takes from its libraries -/

/-- The fields of Go's `url.URL` that the crawler reads or writes (`Scheme`,
`Host`); everything else of the URL is carried along in `Rest`. -/
structure URL where
  Scheme : String
  Host : String
  Rest : String
  deriving DecidableEq, Repr

/-- The functions of package `net/url` the crawler calls.  They are not part
of this repository, so the embedding takes them as a parameter:
`url.Parse` (`none` for an error), `(*URL).ResolveReference` and
`(*URL).String`. -/
structure UrlPkg where
  Parse : String → Option URL
  ResolveReference : URL → URL → URL
  Str : URL → String

/-- What `html.Tokenizer.Next` yields, as far as `GetDomainLinks` looks at it:
a start tag with its name and attributes, or any other token. -/
inductive Token where
  | StartTag (name : String) (attrs : List (String × String))
  | Other
  deriving DecidableEq, Repr

/-- A response body as the tokenizer presents it: the tokens, then an
`ErrorToken` whose error prints as `err` (`"EOF"` at a regular end). -/
structure Body where
  tokens : List Token
  err : String
  deriving DecidableEq, Repr

/-- The outcome of `client.Get(rawURL)`: whether the request failed, and of
the response the status code, the `location` header and the body. -/
structure Response where
  failed : Bool
  StatusCode : Int
  location : String
  body : Body
  deriving DecidableEq, Repr

/-- The `error` values `crawl` can return. -/
inductive Err where
  | request
  | parse
  | redirect (code : Int)
  | status (code : Int)
  | tokenizer
  deriving DecidableEq, Repr

/-- Arithmetic of Go's 64-bit `int`. -/
def wrapInt (x : Int) : Int := (x + 2 ^ 63) % 2 ^ 64 - 2 ^ 63

/-! ## crawler/crawler.go: global variables -/

/-- The package-level variables `info`, `toVisit`, `visitState`, `queue` and
`quit`.  `queue` lists the URLs some goroutine has sent or is waiting to send
on the channel; `quit` counts the sends `quit <- true`.  `fetched` is not in
the program: it logs, in order, the URLs handed to `crawl` by a worker. -/
structure Stores where
  info : Info
  toVisit : List (String × Bool)
  visitState : List (String × VisitStatus)
  queue : List String
  quit : Nat
  fetched : List String

/-- Expression `len(queue)`: the channel is made by `make(chan string)`, without a
buffer, and the length of an unbuffered channel is always 0. -/
def queueLen (_s : Stores) : Nat := 0

/-- The state `CreateSiteMap(rootURL, _)` sets up before it starts the workers
and sends `rootURL` on the queue. -/
def CreateSiteMap.init (rootURL : String) : Stores :=
  { info := { Sitemap := Node.mk rootURL [], Parentmap := GoMap.set [] rootURL ROOT }
    toVisit := GoMap.set [] rootURL true
    visitState := []
    queue := [rootURL]
    quit := 0
    fetched := [] }

/-! ## crawler/crawler.go: terminateIfComplete -/

/-- The loop `for _, visitState := range visitState.urlmap` of
`terminateIfComplete`, returning `(stillVisiting, numVisited)`; the entries
are visited in storage order. -/
def scanVisitState : List (String × VisitStatus) → Nat → Bool × Nat
  | [], numVisited => (false, numVisited)
  | (_, st) :: rest, numVisited =>
    if st = VISITING then (true, numVisited)
    else if st = VISITED then scanVisitState rest (numVisited + 1)
    else scanVisitState rest numVisited

/-- Whether `terminateIfComplete` reaches `quit <- true` in the given stores. -/
def completionRaised (s : Stores) : Bool :=
  if queueLen s ≠ 0 then false
  else
    let numToVisit := GoMap.len s.toVisit
    let (stillVisiting, numVisited) := scanVisitState s.visitState 0
    !stillVisiting && numToVisit == numVisited

/-- Function `terminateIfComplete()`: raise the completion signal when the
test passes. -/
def terminateIfComplete (s : Stores) : Stores :=
  if completionRaised s then { s with quit := s.quit + 1 } else s

/-! ## crawler/crawler.go: GetDomainLinks -/

/-- Function `resolveIfRelativePath(currentURL, nextURL *url.URL) *url.URL`. -/
def resolveIfRelativePath (L : UrlPkg) (currentURL nextURL : URL) : URL :=
  if nextURL.Host = "" then L.ResolveReference currentURL nextURL else nextURL

/-- The loop `for moreAttr { key, val, moreAttr = tokenizer.TagAttr(); ... }`
over the attributes of one anchor tag; `links` is the map of links found so
far.  A `href` that does not parse ends the extraction with an error. -/
def scanAttrs (L : UrlPkg) (currentURL : URL) :
    List (String × String) → List (String × Bool) → Except Err (List (String × Bool))
  | [], links => .ok links
  | (key, val) :: more, links =>
    if key = "href" then
      match L.Parse val with
      | none => .error .parse
      | some parsed =>
        let nextURL := resolveIfRelativePath L currentURL parsed
        let nextURL : URL :=
          if nextURL.Host = currentURL.Host ∧ nextURL.Scheme = "" then
            { nextURL with Scheme := currentURL.Scheme }
          else nextURL
        let normalizedURL := NormalizeURL (L.Str nextURL)
        if (GoMap.get? links normalizedURL).getD false = false
            ∧ nextURL.Host = currentURL.Host ∧ nextURL.Scheme = currentURL.Scheme then
          scanAttrs L currentURL more (GoMap.set links normalizedURL true)
        else
          scanAttrs L currentURL more links
    else
      scanAttrs L currentURL more links

/-- The token loop of `GetDomainLinks`. -/
def scanTokens (L : UrlPkg) (currentURL : URL) (err : String) :
    List Token → List (String × Bool) → Except Err (List String)
  | [], links => if err ≠ "EOF" then .error .tokenizer else .ok (GoMap.keys links)
  | Token.Other :: rest, links => scanTokens L currentURL err rest links
  | Token.StartTag name attrs :: rest, links =>
    if name = "a" ∧ attrs ≠ [] then
      match scanAttrs L currentURL attrs links with
      | .error e => .error e
      | .ok links' => scanTokens L currentURL err rest links'
    else
      scanTokens L currentURL err rest links

/-- Function `GetDomainLinks(currentURL *url.URL, body io.ReadCloser) ([]string, error)`.
Go hands the keys of the `links` map back in an unspecified order; here they
come in the order of their first occurrence. -/
def GetDomainLinks (L : UrlPkg) (currentURL : URL) (body : Body) : Except Err (List String) :=
  scanTokens L currentURL body.err body.tokens []

/-! ## crawler/crawler.go: crawl -/

/-- What a call of `crawl` leaves behind: the stores, the returned pair
`(links, err)`, and for the record the `time.Sleep` durations in seconds and
the number of requests made. -/
structure CrawlOut where
  stores : Stores
  links : List String
  err : Option Err
  sleeps : List Int
  requests : Nat

/-- The block of `crawl` under `info.Lock()` for an accepted redirect
`rawURL -> nextRawURL`: record the parent of the target, put a fresh node for
it under the parent's node and delete the old link there. -/
def rewriteRedirect (walk : Nat) (rawURL nextRawURL : String) (info : Info) : Except Fault Info :=
  let parentURL := info.parentOf rawURL
  if parentURL ≠ "" ∧ info.parentOf nextRawURL = "" then
    let info1 : Info := { info with Parentmap := GoMap.set info.Parentmap nextRawURL parentURL }
    match info1.GetNodeFromSitemap walk parentURL with
    | .error e => .error e
    | .ok none => .error .nilDereference
    | .ok (some parentNode) =>
      .ok { info1 with
            Sitemap := Node.modifyAt
              (fun ls => GoMap.delete (GoMap.set ls nextRawURL (Node.fresh nextRawURL)) rawURL)
              parentNode.path info1.Sitemap }
  else
    .ok info

/-- Function `crawl(rawURL string, retryDelay int) ([]string, error)`.
`net n` is the response to the `n`-th request of this call chain; the
recursion spends one unit of fuel per request, and `walk` is the fuel of the
parent walks. -/
def crawl (L : UrlPkg) (net : Nat → Response) (walk : Nat) :
    Nat → Nat → String → Int → Stores → List Int → Except Fault CrawlOut
  | 0, _, _, _, _, _ => .error .retryOutOfFuel
  | fuel + 1, n, rawURL, retryDelay, s, sleeps =>
    let resp := net n
    if resp.failed then
      .ok ⟨s, [], some .request, sleeps, n + 1⟩
    else
      match L.Parse rawURL with
      | none => .ok ⟨s, [], some .parse, sleeps, n + 1⟩
      | some currentURL =>
        if resp.StatusCode > 300 ∧ resp.StatusCode < 400 then
          match L.Parse resp.location with
          | none => .ok ⟨s, [], some .parse, sleeps, n + 1⟩
          | some parsed =>
            let nextURL := resolveIfRelativePath L currentURL parsed
            let nextRawURL := NormalizeURL (L.Str nextURL)
            if nextRawURL ≠ rawURL ∧ currentURL.Host = nextURL.Host then
              let s1 : Stores :=
                { s with toVisit := GoMap.set s.toVisit nextRawURL true
                         queue := s.queue ++ [nextRawURL] }
              match rewriteRedirect walk rawURL nextRawURL s1.info with
              | .error e => .error e
              | .ok info' =>
                .ok ⟨{ s1 with info := info' }, [], some (.redirect resp.StatusCode), sleeps, n + 1⟩
            else
              .ok ⟨s, [], some (.redirect resp.StatusCode), sleeps, n + 1⟩
        else if resp.StatusCode < 200 ∨ resp.StatusCode > 400 then
          if resp.StatusCode > 499 ∧ retryDelay ≤ 16 then
            crawl L net walk fuel (n + 1) rawURL (wrapInt (retryDelay * 2)) s (sleeps ++ [retryDelay])
          else
            .ok ⟨s, [], some (.status resp.StatusCode), sleeps, n + 1⟩
        else
          match GetDomainLinks L currentURL resp.body with
          | .error e => .ok ⟨s, [], some e, sleeps, n + 1⟩
          | .ok links => .ok ⟨s, links, none, sleeps, n + 1⟩

/-! ## crawler/crawler.go: processQueue -/

/-- The test `urlInMap && (status == VISITING || status == VISITED)` on
`visitState.urlmap[currentURL]`. -/
def alreadySeen (visitState : List (String × VisitStatus)) (currentURL : String) : Bool :=
  match GoMap.get? visitState currentURL with
  | none => false
  | some status => status = VISITING || status = VISITED

/-- The statement `if temp.Links[link] == nil { temp.Links[link] = &Node{...} }`
as a function of the `Links` map of `*temp`. -/
def addLink (link : String) (ls : List (String × Node)) : List (String × Node) :=
  if (GoMap.get? ls link).isNone then GoMap.set ls link (Node.fresh link) else ls

/-- The loop `for _, link := range links` of `processQueue`, run with the
locks of `info` and `toVisit` held.  `temp` is the pointer
`GetNodeFromSitemap(currentURL)` returned; it is dereferenced only for a link
other than `currentURL`. -/
def insertLinks (currentURL : String) (temp : Option Ref) :
    List String → Info → List (String × Bool) → Except Fault (Info × List (String × Bool))
  | [], info, toVisit => .ok (info, toVisit)
  | link :: rest, info, toVisit =>
    let sitemap : Except Fault Node :=
      if link ≠ currentURL then
        match temp with
        | none => .error .nilDereference
        | some r => .ok (Node.modifyAt (addLink link) r.path info.Sitemap)
      else
        .ok info.Sitemap
    match sitemap with
    | .error e => .error e
    | .ok sitemap' =>
      let parentmap :=
        if info.parentOf link = "" then GoMap.set info.Parentmap link currentURL
        else info.Parentmap
      insertLinks currentURL temp rest ⟨sitemap', parentmap⟩ (GoMap.set toVisit link true)

/-- One iteration of the loop `for currentURL := range queue` of
`processQueue`, from the receipt of `currentURL` to the call of
`terminateIfComplete` that ends the iteration. -/
def processQueue (L : UrlPkg) (walk fuel : Nat) (net : Nat → Response)
    (currentURL : String) (s : Stores) : Except Fault Stores :=
  if alreadySeen s.visitState currentURL then
    .ok (terminateIfComplete s)
  else
    let s1 : Stores :=
      { s with visitState := GoMap.set s.visitState currentURL VISITING
               fetched := s.fetched ++ [currentURL] }
    match crawl L net walk fuel 0 currentURL 1 s1 [] with
    | .error e => .error e
    | .ok out =>
      match out.err with
      | some _ =>
        .ok (terminateIfComplete
          { out.stores with
            visitState := GoMap.set out.stores.visitState currentURL VISITED })
      | none =>
        let s2 := out.stores
        match s2.info.GetNodeFromSitemap walk currentURL with
        | .error e => .error e
        | .ok temp =>
          match insertLinks currentURL temp out.links s2.info s2.toVisit with
          | .error e => .error e
          | .ok (info', toVisit') =>
            .ok (terminateIfComplete
              { s2 with
                info := info'
                toVisit := toVisit'
                queue := s2.queue ++ out.links
                visitState := GoMap.set s2.visitState currentURL VISITED })

/-- A complete worker step: a worker receives the `i`-th pending URL of the
queue and runs one iteration of `processQueue` on it, for some responses of
the network and with enough fuel for the iteration to finish. -/
def Step (L : UrlPkg) (s s' : Stores) : Prop :=
  ∃ (i : Nat) (currentURL : String) (walk fuel : Nat) (net : Nat → Response),
    s.queue[i]? = some currentURL ∧
    processQueue L walk fuel net currentURL { s with queue := s.queue.eraseIdx i } = .ok s'

/-- The stores reachable from `CreateSiteMap(rootURL, _)` by complete worker
steps. -/
inductive Reachable (L : UrlPkg) (rootURL : String) : Stores → Prop where
  | init : Reachable L rootURL (CreateSiteMap.init rootURL)
  | step {s s' : Stores} : Reachable L rootURL s → Step L s s' → Reachable L rootURL s'

/-! ## A one-host site for concrete runs -/

/-- An instance of the URL functions in which every string is the address of
a page on the host `h`, printed as it was parsed. -/
def oneHost : UrlPkg :=
  { Parse := fun s => some ⟨"http", "h", s⟩
    ResolveReference := fun _ ref => ref
    Str := fun u => u.Rest }

/-- A page with status 200 whose anchors are the given addresses. -/
def page (hrefs : List String) : Response :=
  { failed := false
    StatusCode := 200
    location := ""
    body := ⟨hrefs.map (fun h => Token.StartTag "a" [("href", h)]), "EOF"⟩ }

/-- A response with the given status and `location` header and an empty body. -/
def answer (code : Int) (location : String) : Response :=
  { failed := false, StatusCode := code, location := location, body := ⟨[], "EOF"⟩ }

/-! ## Predicates on the sitemap tree -/

mutual
/-- Test `checkAll P n`: the test `P u k c` passes at every link of the tree below
`n`, where `u` is the URL of the node that holds the link, `k` the key of the
link and `c` the URL of the node it leads to. -/
def Node.checkAll (P : String → String → String → Bool) : Node → Bool
  | .mk u ls => Node.checkLinks P u ls
/-- The test `checkAll` on the links of a node with URL `u`. -/
def Node.checkLinks (P : String → String → String → Bool) (u : String) :
    List (String × Node) → Bool
  | [] => true
  | (k, c) :: rest => P u k c.URL && Node.checkAll P c && Node.checkLinks P u rest
end

mutual
/-- The URLs of all nodes of the tree, the root first. -/
def Node.urls : Node → List String
  | .mk u ls => u :: Node.urlsOfLinks ls
/-- The URLs of all nodes below the given links. -/
def Node.urlsOfLinks : List (String × Node) → List String
  | [] => []
  | (_, c) :: rest => Node.urls c ++ Node.urlsOfLinks rest
end

/-- The parent-of index describes the tree: it maps the URL of the root to
`ROOT`, every link is stored under the URL of the node it leads to, and the
index maps that URL to the URL of the node holding the link. -/
def Info.indexesTree (self : Info) : Bool :=
  self.parentOf self.Sitemap.URL == ROOT &&
    self.Sitemap.checkAll (fun u k c => c == k && self.parentOf k == u)

/-- No node that has children is named by the empty string or by `ROOT`, the
two values the parent walk stops at. -/
def Info.parentsNamed (self : Info) : Bool :=
  self.Sitemap.checkAll (fun u _ _ => u != "" && u != ROOT)

/-! ## Deciding equality of stores -/

mutual
/-- Equality of trees is decidable. -/
def Node.decEq : (a b : Node) → Decidable (a = b)
  | .mk u ls, .mk u' ls' =>
    if hu : u = u' then
      match Node.decEqLinks ls ls' with
      | isTrue h => isTrue (by rw [hu, h])
      | isFalse h => isFalse (by intro e; cases e; exact h rfl)
    else isFalse (by intro e; cases e; exact hu rfl)
/-- Equality of link maps is decidable. -/
def Node.decEqLinks : (a b : List (String × Node)) → Decidable (a = b)
  | [], [] => isTrue rfl
  | [], _ :: _ => isFalse (by intro e; cases e)
  | _ :: _, [] => isFalse (by intro e; cases e)
  | (k, c) :: r, (k', c') :: r' =>
    if hk : k = k' then
      match Node.decEq c c' with
      | isFalse h1 => isFalse (by intro e; cases e; exact h1 rfl)
      | isTrue h1 =>
        match Node.decEqLinks r r' with
        | isFalse h2 => isFalse (by intro e; cases e; exact h2 rfl)
        | isTrue h2 => isTrue (by rw [hk, h1, h2])
    else isFalse (by intro e; cases e; exact hk rfl)
end

instance : DecidableEq Node := Node.decEq

deriving instance DecidableEq for Ref
deriving instance DecidableEq for Info
deriving instance DecidableEq for Stores
deriving instance DecidableEq for CrawlOut
deriving instance DecidableEq for Except

/-- A hand-made `Info` in the style of `TestGetNodeFromSitemap`, with a page
named `ROOT` between the root and a leaf. -/
def sentinelInfo : Info :=
  { Sitemap := .mk "r" [("ROOT", .mk "ROOT" [("g", .mk "g" [])])]
    Parentmap := [("r", "ROOT"), ("ROOT", "r"), ("g", "ROOT")] }

/-- The `Info` of `TestGetNodeFromSitemap`. -/
def testInfo : Info :=
  { Sitemap := .mk "root-url"
      [("depth1-a", .mk "depth1-a" [("depth2-a", .mk "depth2-a" []), ("depth2-b", .mk "depth2-b" [])]),
       ("depth1-b", .mk "depth1-b" [])]
    Parentmap := [("root-url", "ROOT"), ("depth1-a", "root-url"), ("depth1-b", "root-url"),
      ("depth2-a", "depth1-a"), ("depth2-b", "depth1-a")] }

/-- Every node of the tree stores each of its children once, under the URL
of the child. -/
inductive Node.Keyed : Node → Prop where
  | mk (u : String) (ls : List (String × Node)) (hk : (GoMap.keys ls).Nodup)
      (hu : ∀ e ∈ ls, e.2.URL = e.1) (hc : ∀ e ∈ ls, Node.Keyed e.2) : Node.Keyed (Node.mk u ls)

/-- Run complete worker steps one after the other: at each index of the
schedule a worker receives the pending URL at that index of the queue, and
`site url` gives the responses to the requests for `url`.  The result is
`none` when an index is out of range or an iteration does not finish. -/
def runSteps (L : UrlPkg) (walk fuel : Nat) (site : String → Nat → Response) :
    List Nat → Stores → Option Stores
  | [], s => some s
  | i :: rest, s =>
    match s.queue[i]? with
    | none => none
    | some currentURL =>
      match processQueue L walk fuel (site currentURL) currentURL
          { s with queue := s.queue.eraseIdx i } with
      | .error _ => none
      | .ok s' => runSteps L walk fuel site rest s'

/-- The site served in `TestSiteMap`: the seed links to `/about` and
`/redirect`, `/redirect` answers 301 to `/after-redirect`, `/about` links to
`/relative`, and `/relative` and `/after-redirect` link to `/about`. -/
def testSite : String → Nat → Response
  | "S", _ => page ["S/about", "S/redirect"]
  | "S/redirect", _ => answer 301 "S/after-redirect"
  | "S/about", _ => page ["S/relative"]
  | "S/relative", _ => page ["S/about"]
  | "S/after-redirect", _ => page ["S/about"]
  | _, _ => answer 404 ""

/-- The tree `TestSiteMap` expects `CreateSiteMap` to return. -/
def testSiteExpected : Node :=
  .mk "S"
    [("S/about", .mk "S/about" [("S/relative", .mk "S/relative" [("S/about", .mk "S/about" [])])]),
     ("S/after-redirect", .mk "S/after-redirect" [("S/about", .mk "S/about" [])])]

/-- What holds of the visit-state map, the to-visit set, the queue and the
log of fetched URLs between complete worker steps. -/
structure Stores.Tidy (s : Stores) : Prop where
  visitKeys : (GoMap.keys s.visitState).Nodup
  toVisitKeys : (GoMap.keys s.toVisit).Nodup
  status : ∀ u st, GoMap.get? s.visitState u = some st → st = VISITED
  visitSub : ∀ u, u ∈ GoMap.keys s.visitState → u ∈ GoMap.keys s.toVisit
  queueSub : ∀ u, u ∈ s.queue → u ∈ GoMap.keys s.toVisit
  fetchedEq : s.fetched = GoMap.keys s.visitState

/-- The stores at the end of the crawl of `testSite` from the seed `S` by one
worker that receives the URLs in the order they were sent. -/
def testSiteDone : Stores :=
  { info :=
      { Sitemap := testSiteExpected
        Parentmap := [("S", "ROOT"), ("S/about", "S"), ("S/redirect", "S"),
          ("S/relative", "S/about"), ("S/after-redirect", "S")] }
    toVisit := [("S", true), ("S/about", true), ("S/redirect", true), ("S/relative", true),
      ("S/after-redirect", true)]
    visitState := [("S", 2), ("S/about", 2), ("S/redirect", 2), ("S/relative", 2),
      ("S/after-redirect", 2)]
    queue := []
    quit := 3
    fetched := ["S", "S/about", "S/redirect", "S/relative", "S/after-redirect"] }

/-- The page `badRequestPage` is a response with status 400 Bad Request whose
body has one anchor, to `S/x`. -/
def badRequestPage : Response :=
  { failed := false
    StatusCode := 400
    location := ""
    body := ⟨[Token.StartTag "a" [("href", "S/x")]], "EOF"⟩ }

/-- The page `multipleChoices` is a response with status 300 Multiple Choices,
a `location` header pointing to `S/y` and a body with one anchor, to `S/x`. -/
def multipleChoices : Response :=
  { failed := false
    StatusCode := 300
    location := "S/y"
    body := ⟨[Token.StartTag "a" [("href", "S/x")]], "EOF"⟩ }

/-- A site on which `S/r`, linked from the seed together with `S/t`, answers
with a redirect to `S/t`. -/
def guardSite : String → Nat → Response
  | "S", _ => page ["S/r", "S/t"]
  | "S/r", _ => answer 301 "S/t"
  | _, _ => page []

/-- A site on which `S/r`, linked from the seed and from `S/a`, answers with
a redirect to `S/t`. -/
def lateSite : String → Nat → Response
  | "S", _ => page ["S/r", "S/a"]
  | "S/r", _ => answer 301 "S/t"
  | "S/a", _ => page ["S/r"]
  | _, _ => page []

/-- The stores after the seed of `lateSite` was fetched. -/
def lateSiteSeeded : Stores :=
  { info :=
      { Sitemap := .mk "S" [("S/r", .mk "S/r" []), ("S/a", .mk "S/a" [])]
        Parentmap := [("S", "ROOT"), ("S/r", "S"), ("S/a", "S")] }
    toVisit := [("S", true), ("S/r", true), ("S/a", true)]
    visitState := [("S", 2)]
    queue := ["S/r", "S/a"]
    quit := 0
    fetched := ["S"] }

/-! ## parser/parser.go, by index -/

/-- Go's `strings.IndexAny(s, chars)` on the characters of `s`: the index of
the first character of `s` that occurs in `chars`, or -1 when there is none. -/
def IndexAny : List Char → List Char → Int
  | [], _ => -1
  | c :: cs, chars =>
    if chars.contains c then 0
    else if IndexAny cs chars = -1 then -1 else IndexAny cs chars + 1

/-- The body of `NormalizeURL` as the source writes it:
`idx := strings.IndexAny(currentURL, "?#")`, and the slice `currentURL[:idx]`
when `idx != -1`. -/
def NormalizeURLByIndex (currentURL : String) : String :=
  let idx := IndexAny currentURL.data ['?', '#']
  if idx ≠ -1 then String.mk (currentURL.data.take idx.toNat) else currentURL

/-! ## writer/writer.go -/

/-- The string `tabs` after the loop `for i := 0; i < depth; i++ { tabs += "\t" }`:
one tab for each `i` with `0 <= i < depth`, none when `depth` is negative. -/
def tabsOf (depth : Int) : String := String.mk (List.replicate depth.toNat '\t')

/-- Function `sort.Strings(keys)`: the keys in ascending order.  Go compares
strings byte by byte; on UTF-8 text that is the order by code points. -/
def sortStrings (keys : List String) : List String := keys.insertionSort (fun a b => a ≤ b)

mutual
/-- Function `PrettifySiteMap(sitemap, depth)`.  The line of the node itself is
written only when `depth == 0`; then, for every key `k` of `sitemap.Links` in
sorted order, the line `"\t" + tabs + k + "\n"` and the output of the call on
`sitemap.Links[k]` with `depth+1`.  The recursive calls are made once per
stored child (`PrettifyLinks`) and read by key in the loop.  The value of
`depth+1` stays far below `2^63`, because the depth is bounded by the number of
nodes in memory. -/
def PrettifySiteMap : Node → Int → String
  | .mk url links, depth =>
    let tabs := tabsOf depth
    let result := if depth = 0 then tabs ++ url ++ "\n" else ""
    let below := PrettifyLinks links (depth + 1)
    (sortStrings (GoMap.keys links)).foldl
      (fun result k => result ++ ("\t" ++ tabs ++ k ++ "\n") ++ (GoMap.get? below k).getD "")
      result
/-- The calls `PrettifySiteMap(v, depth)` for the children `v` of one node,
each stored under the key of the child. -/
def PrettifyLinks : List (String × Node) → Int → List (String × String)
  | [], _ => []
  | (k, v) :: rest, depth => (k, PrettifySiteMap v depth) :: PrettifyLinks rest depth
end

/-- The children of a node in the order in which the loop of `PrettifySiteMap`
visits them: for every key `k` of the sorted keys, `k` with `Links[k]`. -/
def sortedLinks (links : List (String × Node)) : List (String × Node) :=
  (sortStrings (GoMap.keys links)).map (fun k => (k, (GoMap.get? links k).getD (Node.fresh "")))

mutual
/-- Every node of the tree with its depth below the given start depth and its
URL, the node itself first. -/
def Node.levels : Node → Nat → List (Nat × String)
  | .mk u ls, d => (d, u) :: Node.levelsOfLinks ls (d + 1)
/-- The nodes below the given links, the children at the given depth. -/
def Node.levelsOfLinks : List (String × Node) → Nat → List (Nat × String)
  | [], _ => []
  | (_, c) :: rest, d => Node.levels c d ++ Node.levelsOfLinks rest d
end

/-- Two trees that differ at most in the order in which the children of each
node are stored: the same URL, the same keys, and under equal keys children
that again differ at most in that order. -/
inductive Node.Same : Node → Node → Prop where
  | mk (u : String) (ls ls' : List (String × Node))
      (hk : ∀ k, k ∈ GoMap.keys ls ↔ k ∈ GoMap.keys ls')
      (hc : ∀ e ∈ ls, ∀ e' ∈ ls', e.1 = e'.1 → Node.Same e.2 e'.2) :
      Node.Same (Node.mk u ls) (Node.mk u ls')

/-- The tree of `TestPrettifySiteMap`. -/
def writerTestTree : Node :=
  .mk "https://example.com"
    [("https://example.com/another", .mk "https://example.com/another"
        [("https://example.com/something-under-another",
          .mk "https://example.com/something-under-another" [])]),
     ("https://example.com/about", .mk "https://example.com/about"
        [("https://example.com/faq", .mk "https://example.com/faq"
          [("https://example.com/about", .mk "https://example.com/about" [])])])]

/-- The tree of `TestPrettifySiteMap` with the two children of the root stored
in the other order. -/
def writerTestTreeSwapped : Node :=
  .mk "https://example.com"
    [("https://example.com/about", .mk "https://example.com/about"
        [("https://example.com/faq", .mk "https://example.com/faq"
          [("https://example.com/about", .mk "https://example.com/about" [])])]),
     ("https://example.com/another", .mk "https://example.com/another"
        [("https://example.com/something-under-another",
          .mk "https://example.com/something-under-another" [])])]

/-- The output that `TestPrettifySiteMap` expects. -/
def writerTestExpected : String :=
  "https://example.com\n" ++
  "\thttps://example.com/about\n" ++
  "\t\thttps://example.com/faq\n" ++
  "\t\t\thttps://example.com/about\n" ++
  "\thttps://example.com/another\n" ++
  "\t\thttps://example.com/something-under-another\n"

/-! ## The links of a page, as the specification describes them -/

/-- The `href` values of the anchor tags of a body, in the order in which the
token loop of `GetDomainLinks` meets them. -/
def anchorHrefs : List Token → List String
  | [] => []
  | Token.Other :: rest => anchorHrefs rest
  | Token.StartTag name attrs :: rest =>
    if name = "a" then
      ((attrs.filter (fun a => a.1 == "href")).map Prod.snd) ++ anchorHrefs rest
    else anchorHrefs rest

/-- The resolved URL of a parsed `href`: one without host is resolved against
the current page, and one on the host of the current page without a scheme
takes the scheme of the current page. -/
def resolvedHref (L : UrlPkg) (current parsed : URL) : URL :=
  let r := if parsed.Host = "" then L.ResolveReference current parsed else parsed
  if r.Host = current.Host ∧ r.Scheme = "" then { r with Scheme := current.Scheme } else r

/-- The map `links` of `GetDomainLinks` holds each key once, with value `true`. -/
def LinkSet (links : List (String × Bool)) : Prop :=
  (GoMap.keys links).Nodup ∧ ∀ e ∈ links, e.2 = true

/-- A stand-in for package `net/url` on addresses of the three shapes
`scheme://host/path`, `//host/path` and `/path`. -/
def miniParse (s : String) : URL :=
  let cs := s.data
  let cut (r : List Char) : String × String :=
    (String.mk (r.takeWhile (fun c => c != '/')), String.mk (r.dropWhile (fun c => c != '/')))
  if ['/', '/'].isPrefixOf cs then
    ⟨"", (cut (cs.drop 2)).1, (cut (cs.drop 2)).2⟩
  else
    let p := cs.takeWhile (fun c => c != ':')
    let r := cs.dropWhile (fun c => c != ':')
    if p ≠ [] ∧ [':', '/', '/'].isPrefixOf r then
      ⟨String.mk p, (cut (r.drop 3)).1, (cut (r.drop 3)).2⟩
    else ⟨"", "", s⟩

/-- The URL functions built on `miniParse`: a reference without host keeps
its path and takes scheme and host of the base. -/
def miniUrl : UrlPkg :=
  { Parse := fun s => some (miniParse s)
    ResolveReference := fun base ref => ⟨base.Scheme, base.Host, ref.Rest⟩
    Str := fun u => (if u.Scheme = "" then "" else u.Scheme ++ ":") ++
      (if u.Host = "" then "" else "//" ++ u.Host) ++ u.Rest }

/-- A page of `http://h` with links to itself, to a subdomain, to another
scheme and to another host. -/
def mixedHrefs : List String :=
  ["/a", "//h/b", "http://h/a?x=1", "http://sub.h/c", "https://h/d", "/a#top", "http://other/e",
   "//h/b"]

/-! ## crawler/crawler.go: the critical sections of terminateIfComplete -/

/-- The first part of `terminateIfComplete`: the test `len(queue) != 0` and the
statement `numToVisit := len(toVisit.urlmap)` between `toVisit.Lock()` and
`toVisit.Unlock()`; `none` when the function returns at the test. -/
def terminateIfComplete.readToVisit (s : Stores) : Option Nat :=
  if queueLen s ≠ 0 then none else some (GoMap.len s.toVisit)

/-- The second part of `terminateIfComplete`, which runs after the first has
released the lock of `toVisit`: the loop over `visitState.urlmap` between
`visitState.Lock()` and `visitState.Unlock()`, then the test
`!stillVisiting && numToVisit == numVisited` and the send `quit <- true`. -/
def terminateIfComplete.scanAndRaise (numToVisit : Nat) (s : Stores) : Stores :=
  let (stillVisiting, numVisited) := scanVisitState s.visitState 0
  if !stillVisiting && numToVisit == numVisited then { s with quit := s.quit + 1 } else s

/-- One iteration of the loop of `processQueue` up to, and without, the call of
`terminateIfComplete` that ends it. -/
def processQueue.work (L : UrlPkg) (walk fuel : Nat) (net : Nat → Response)
    (currentURL : String) (s : Stores) : Except Fault Stores :=
  if alreadySeen s.visitState currentURL then
    .ok s
  else
    let s1 : Stores :=
      { s with visitState := GoMap.set s.visitState currentURL VISITING
               fetched := s.fetched ++ [currentURL] }
    match crawl L net walk fuel 0 currentURL 1 s1 [] with
    | .error e => .error e
    | .ok out =>
      match out.err with
      | some _ =>
        .ok { out.stores with
              visitState := GoMap.set out.stores.visitState currentURL VISITED }
      | none =>
        let s2 := out.stores
        match s2.info.GetNodeFromSitemap walk currentURL with
        | .error e => .error e
        | .ok temp =>
          match insertLinks currentURL temp out.links s2.info s2.toVisit with
          | .error e => .error e
          | .ok (info', toVisit') =>
            .ok { s2 with
                  info := info'
                  toVisit := toVisit'
                  queue := s2.queue ++ out.links
                  visitState := GoMap.set s2.visitState currentURL VISITED }

/-- A site on which the seed links to `A` and `A` links to `B`. -/
def chainSite : String → Nat → Response
  | "S", _ => page ["A"]
  | "A", _ => page ["B"]
  | _, _ => page []

/-- Two workers on `chainSite`.  The first receives `S` and works through its
iteration up to the call of `terminateIfComplete`, where it reads
`numToVisit`; the second then receives `A` and runs a whole iteration; then
the first runs the rest of `terminateIfComplete`.  The result lists the
number the first worker read and the number of completion signals before and
after its test, then the to-visit set and the visit-state map at the test. -/
def detectorRace : Option (List Nat × List String × List (String × Int)) :=
  match processQueue.work oneHost 10 6 (chainSite "S") "S"
      { CreateSiteMap.init "S" with queue := [] } with
  | .error _ => none
  | .ok s1 =>
    match terminateIfComplete.readToVisit s1 with
    | none => none
    | some numToVisit =>
      match processQueue oneHost 10 6 (chainSite "A") "A"
          { s1 with queue := s1.queue.eraseIdx 0 } with
      | .error _ => none
      | .ok s2 =>
        some ([numToVisit, s2.quit, (terminateIfComplete.scanAndRaise numToVisit s2).quit],
          GoMap.keys s2.toVisit, s2.visitState)

/-! ## A site on which the order of processing shows in the tree -/

/-- A site on which the seed links to `A` and `B`, both of which link to `C`
(`A` also to `E`), and `C` links to `D`. -/
def forkSite : String → Nat → Response
  | "S", _ => page ["A", "B"]
  | "A", _ => page ["C", "E"]
  | "B", _ => page ["C"]
  | "C", _ => page ["D"]
  | _, _ => page []

/-- The tree of `forkSite` when `A` is received before `B`. -/
def forkTreeA : Node :=
  .mk "S" [("A", .mk "A" [("C", .mk "C" [("D", .mk "D" [])]), ("E", .mk "E" [])]),
           ("B", .mk "B" [("C", .mk "C" [])])]

/-- The tree of `forkSite` when `B` is received before `A`. -/
def forkTreeB : Node :=
  .mk "S" [("A", .mk "A" [("C", .mk "C" []), ("E", .mk "E" [])]),
           ("B", .mk "B" [("C", .mk "C" [("D", .mk "D" [])])])]

/-! ## The parent-of index and the tree, between worker steps -/

/-- The URL reached from `u` by following the parent-of index `k` times. -/
def Info.climb (info : Info) : Nat → String → String
  | 0, u => u
  | k + 1, u => Info.climb info k (info.parentOf u)

/-- The chain of recorded parents of `u`: `u`, its parent, the parent of that,
and so on up to, and without, the first URL whose entry is `ROOT`.  This is
the `path` the first loop of `GetNodeFromSitemap` builds. -/
inductive Info.Chain (info : Info) : String → List String → Prop where
  | root (u : String) : info.parentOf u = ROOT → Info.Chain info u []
  | step (u : String) (ks : List String) : info.parentOf u ≠ "" → info.parentOf u ≠ ROOT →
      Info.Chain info (info.parentOf u) ks → Info.Chain info u (u :: ks)

/-- No discovered URL is the empty string or the string `ROOT`, the two
values at which the parent walk stops. -/
def Named (tv : List (String × Bool)) : Prop :=
  ∀ u, u ∈ GoMap.keys tv → u ≠ "" ∧ u ≠ ROOT

/-- How the parent-of index, the tree, the to-visit set and the log of fetched
URLs hang together between worker steps. -/
structure Linked (rootURL : String) (info : Info) (tv : List (String × Bool))
    (fetched : List String) : Prop where
  seed : info.parentOf rootURL = ROOT
  chain : ∀ u, u ∈ GoMap.keys tv → ∃ ks, info.Chain u ks ∧
    (u ∉ fetched → (info.Sitemap.at? ks.reverse).isSome = true)
  entry : ∀ u, info.parentOf u ≠ "" → u ∈ GoMap.keys tv
  parents : ∀ u, info.parentOf u ≠ "" → info.parentOf u ≠ ROOT → info.parentOf u ∈ fetched
  sub : ∀ u, u ∈ fetched → u ∈ GoMap.keys tv
  keysIn : ∀ q m k, info.Sitemap.at? q = some m → k ∈ GoMap.keys m.Links → k ∈ GoMap.keys tv
  rootKey : rootURL ∈ GoMap.keys info.Sitemap.Links → ∃ t, t ≠ rootURL ∧ info.parentOf t = ROOT

/-! ## Self-links and the children of the root -/

/-- No node below the root has a link stored under the key the node itself is
stored under. -/
def NoSelfLink (root : Node) : Prop :=
  ∀ q m k, root.at? q = some m → q.getLast? = some k → k ∉ GoMap.keys m.Links

/-- The children of the root stored under a key that satisfies `S` have no
links of their own. -/
def LeafUnder (S : String → Prop) (root : Node) : Prop :=
  ∀ t n, S t → GoMap.get? root.Links t = some n → n.Links = []

/-- A site whose seed answers with a redirect to `T`, and `T` links to the
seed and to `U`. -/
def seedRedirectSite : String → Nat → Response
  | "S", _ => answer 301 "T"
  | "T", _ => page ["S", "U"]
  | _, _ => page []

/-- The stores after the seed of `seedRedirectSite` was processed. -/
def seedRedirected : Stores :=
  { info := { Sitemap := .mk "S" [("T", .mk "T" [])], Parentmap := [("S", "ROOT"), ("T", "ROOT")] }
    toVisit := [("S", true), ("T", true)]
    visitState := [("S", 2)]
    queue := ["T"]
    quit := 0
    fetched := ["S"] }

/-- The stores at the end of the crawl of `seedRedirectSite`. -/
def seedRedirectDone : Stores :=
  { info :=
      { Sitemap := .mk "S" [("T", .mk "T" []), ("S", .mk "S" []), ("U", .mk "U" [])]
        Parentmap := [("S", "ROOT"), ("T", "ROOT"), ("U", "T")] }
    toVisit := [("S", true), ("T", true), ("U", true)]
    visitState := [("S", 2), ("T", 2), ("U", 2)]
    queue := []
    quit := 1
    fetched := ["S", "T", "U"] }

/-- A site whose seed links only to itself. -/
def selfSite : String → Nat → Response
  | _, _ => page ["S"]

/-! ## A redirect below the target of a redirect of the seed -/

/-- A site whose seed answers with a redirect to `T`; `T` links to `C`, and `C`
answers with a redirect to `D`. -/
def chainRedirectSite : String → Nat → Response
  | "S", _ => answer 301 "T"
  | "T", _ => page ["C"]
  | "C", _ => answer 301 "D"
  | _, _ => page []

/-! ## crawler/crawler.go: the loop of processQueue, worker by worker -/

/-- Where a worker stands in the loop of `processQueue`: blocked on the
receive from `queue`; past the first critical section with `currentURL`
claimed, before `crawl` has returned; with the result of `crawl` in hand;
past the loop over the links, before the write of VISITED; at the call of
`terminateIfComplete`; inside `terminateIfComplete` with `numToVisit` read. -/
inductive Worker where
  | receiving
  | crawling (currentURL : String)
  | crawled (currentURL : String) (links : List String) (err : Option Err)
  | marking (currentURL : String)
  | terminating
  | scanning (numToVisit : Nat)

/-- The URL a worker has claimed and not yet marked VISITED. -/
def Worker.current : Worker → Option String
  | .crawling currentURL => some currentURL
  | .crawled currentURL _ _ => some currentURL
  | .marking currentURL => some currentURL
  | _ => none

/-- The stores together with the place of every worker in its loop. -/
structure Config where
  stores : Stores
  workers : Nat → Worker

/-- The state in which `CreateSiteMap(rootURL, _)` leaves the workers it has
started: all of them wait for a URL. -/
def CreateSiteMap.start (rootURL : String) : Config :=
  ⟨CreateSiteMap.init rootURL, fun _ => .receiving⟩

/-- The network of a deterministic site: the requests for `u` get the
responses `site u`. -/
def servedBy (site : String → Nat → Response) (u : String) (net : Nat → Response) : Prop :=
  net = site u

/-- A network that may answer anything. -/
def anyAnswer (_u : String) (_net : Nat → Response) : Prop := True

/-- One move of one worker `w`, the others standing still; `answers u net`
says that the network may answer the requests for `u` with `net`.  A move is a
stretch of `processQueue` or `terminateIfComplete` that holds a lock from
beginning to end or touches no store at all:
the receive of `currentURL` with the critical section on `visitState` that
follows it, which either claims the URL (`claim`) or finds it claimed
(`skip`); the call of `crawl` (`fetch`); the write of VISITED after an error
(`giveUp`); the lookup and the loop over the links under the locks of `info`
and `toVisit`, with the sends of the links (`insert`); the write of VISITED
after it (`mark`); and the two critical sections of `terminateIfComplete`
(`read`, `scan`). -/
inductive Move (L : UrlPkg) (answers : String → (Nat → Response) → Prop) :
    Config → Config → Prop where
  | claim (c : Config) (w i : Nat) (currentURL : String) :
      c.workers w = .receiving → c.stores.queue[i]? = some currentURL →
      alreadySeen c.stores.visitState currentURL = false →
      Move L answers c
        ⟨{ c.stores with
            queue := c.stores.queue.eraseIdx i
            visitState := GoMap.set c.stores.visitState currentURL VISITING
            fetched := c.stores.fetched ++ [currentURL] },
          Function.update c.workers w (.crawling currentURL)⟩
  | skip (c : Config) (w i : Nat) (currentURL : String) :
      c.workers w = .receiving → c.stores.queue[i]? = some currentURL →
      alreadySeen c.stores.visitState currentURL = true →
      Move L answers c
        ⟨{ c.stores with queue := c.stores.queue.eraseIdx i },
          Function.update c.workers w .terminating⟩
  | fetch (c : Config) (w : Nat) (currentURL : String) (walk fuel : Nat) (net : Nat → Response)
      (out : CrawlOut) :
      c.workers w = .crawling currentURL → answers currentURL net →
      crawl L net walk fuel 0 currentURL 1 c.stores [] = .ok out →
      Move L answers c ⟨out.stores, Function.update c.workers w (.crawled currentURL out.links out.err)⟩
  | giveUp (c : Config) (w : Nat) (currentURL : String) (links : List String) (e : Err) :
      c.workers w = .crawled currentURL links (some e) →
      Move L answers c
        ⟨{ c.stores with visitState := GoMap.set c.stores.visitState currentURL VISITED },
          Function.update c.workers w .terminating⟩
  | insert (c : Config) (w : Nat) (currentURL : String) (links : List String) (walk : Nat)
      (temp : Option Ref) (info' : Info) (toVisit' : List (String × Bool)) :
      c.workers w = .crawled currentURL links none →
      c.stores.info.GetNodeFromSitemap walk currentURL = .ok temp →
      insertLinks currentURL temp links c.stores.info c.stores.toVisit = .ok (info', toVisit') →
      Move L answers c
        ⟨{ c.stores with
            info := info'
            toVisit := toVisit'
            queue := c.stores.queue ++ links },
          Function.update c.workers w (.marking currentURL)⟩
  | mark (c : Config) (w : Nat) (currentURL : String) :
      c.workers w = .marking currentURL →
      Move L answers c
        ⟨{ c.stores with visitState := GoMap.set c.stores.visitState currentURL VISITED },
          Function.update c.workers w .terminating⟩
  | read (c : Config) (w : Nat) :
      c.workers w = .terminating →
      Move L answers c
        ⟨c.stores,
          Function.update c.workers w
            (match terminateIfComplete.readToVisit c.stores with
             | none => .receiving
             | some numToVisit => .scanning numToVisit)⟩
  | scan (c : Config) (w : Nat) (numToVisit : Nat) :
      c.workers w = .scanning numToVisit →
      Move L answers c
        ⟨terminateIfComplete.scanAndRaise numToVisit c.stores,
          Function.update c.workers w .receiving⟩

/-- The configurations the workers can reach from `CreateSiteMap(rootURL, _)`,
moving in any order. -/
inductive Interleaved (L : UrlPkg) (answers : String → (Nat → Response) → Prop)
    (rootURL : String) : Config → Prop where
  | start : Interleaved L answers rootURL (CreateSiteMap.start rootURL)
  | move {c c' : Config} : Interleaved L answers rootURL c → Move L answers c c' →
      Interleaved L answers rootURL c'

/-- What holds of the visit-state map, the log of fetched URLs and the workers
between any two moves. -/
structure Config.Sound (c : Config) : Prop where
  fetchedEq : c.stores.fetched = GoMap.keys c.stores.visitState
  visitKeys : (GoMap.keys c.stores.visitState).Nodup
  status : ∀ u st, GoMap.get? c.stores.visitState u = some st → st = VISITING ∨ st = VISITED
  held : ∀ w u, (c.workers w).current = some u →
    GoMap.get? c.stores.visitState u = some VISITING
  alone : ∀ w w' u, (c.workers w).current = some u → (c.workers w').current = some u → w = w'

/-- A site whose seed links only to itself, after one worker has claimed the
seed, fetched it and inserted its links: the seed is in the queue again while
the worker still holds it. -/
def selfSiteHeld : Config :=
  ⟨{ info := { Sitemap := .mk "S" [], Parentmap := [("S", "ROOT")] }
     toVisit := [("S", true)]
     visitState := [("S", 1)]
     queue := ["S"]
     quit := 0
     fetched := ["S"] },
   Function.update (Function.update (Function.update (fun _ => Worker.receiving)
     0 (.crawling "S")) 0 (.crawled "S" ["S"] none)) 0 (.marking "S")⟩

/-! ## The lookup returns a node -/

/-- The call `GetNodeFromSitemap(u)` returns a node of the tree, whatever fuel
the walk is given from some bound on. -/
def Info.Finds (info : Info) (u : String) : Prop :=
  ∃ r w0, info.Sitemap.at? r.path = some r.node ∧
    ∀ walk, w0 ≤ walk → info.GetNodeFromSitemap walk u = .ok (some r)

/-- The stores after `S/r` was processed on `lateSite`, right after the seed:
the redirect to `S/t` was rewritten. -/
def lateSiteRewritten : Stores :=
  { info :=
      { Sitemap := .mk "S" [("S/a", .mk "S/a" []), ("S/t", .mk "S/t" [])]
        Parentmap := [("S", "ROOT"), ("S/r", "S"), ("S/a", "S"), ("S/t", "S")] }
    toVisit := [("S", true), ("S/r", true), ("S/a", true), ("S/t", true)]
    visitState := [("S", 2), ("S/r", 2)]
    queue := ["S/a", "S/t"]
    quit := 0
    fetched := ["S", "S/r"] }

/-! ## What a crawl discovers -/

/-- Stores with nothing in them. -/
def blankStores : Stores :=
  { info := { Sitemap := Node.mk "" [], Parentmap := [] }
    toVisit := []
    visitState := []
    queue := []
    quit := 0
    fetched := [] }

/-- The URLs the call `crawl(u, 1)` sends on the queue or returns for sending
when the site answers with `site u`: the target of an accepted redirect, or
the links of the page.  They are read off a call on blank stores; `none` when
the retries outlast the fuel. -/
def discovers (L : UrlPkg) (site : String → Nat → Response) (fuel : Nat) (u : String) :
    Option (List String) :=
  match crawl L (site u) 0 fuel 0 u 1 blankStores [] with
  | .ok out => some (out.links ++ out.stores.queue)
  | .error _ => none

/-- The URL `v` is among those the fetch of `u` discovers. -/
def Yields (L : UrlPkg) (site : String → Nat → Response) (u v : String) : Prop :=
  ∃ fuel ds, discovers L site fuel u = some ds ∧ v ∈ ds

/-- The URLs that can be reached from the seed by fetches. -/
inductive Closure (L : UrlPkg) (site : String → Nat → Response) (rootURL : String) :
    String → Prop where
  | seed : Closure L site rootURL rootURL
  | step {u v : String} : Closure L site rootURL u → Yields L site u v →
      Closure L site rootURL v

/-- The crawl has come to rest: nothing is left to receive and every worker
waits at the receive. -/
def Config.atRest (c : Config) : Prop :=
  c.stores.queue = [] ∧ ∀ w, c.workers w = .receiving

/-- How the to-visit set, the queue, the visit-state map and the workers hang
together on a deterministic site, between any two moves. -/
structure Config.Explored (L : UrlPkg) (site : String → Nat → Response) (rootURL : String)
    (c : Config) : Prop where
  seedIn : rootURL ∈ GoMap.keys c.stores.toVisit
  reached : ∀ u, u ∈ GoMap.keys c.stores.toVisit → Closure L site rootURL u
  queueSub : ∀ u, u ∈ c.stores.queue → u ∈ GoMap.keys c.stores.toVisit
  visitSub : ∀ u, u ∈ GoMap.keys c.stores.visitState → u ∈ GoMap.keys c.stores.toVisit
  pending : ∀ u, u ∈ GoMap.keys c.stores.toVisit →
    u ∈ c.stores.queue ∨ u ∈ GoMap.keys c.stores.visitState
  done : ∀ u, u ∈ GoMap.keys c.stores.visitState →
    (∃ w, (c.workers w).current = some u) ∨
      ∀ v, Yields L site u v → v ∈ GoMap.keys c.stores.toVisit
  crawling : ∀ w u, c.workers w = .crawling u → u ∈ GoMap.keys c.stores.toVisit
  crawled : ∀ w u links err, c.workers w = .crawled u links err →
    u ∈ GoMap.keys c.stores.toVisit ∧ (err ≠ none → links = []) ∧
    (∀ l, l ∈ links → Yields L site u l) ∧
    ∀ v, Yields L site u v → v ∈ links ∨ v ∈ GoMap.keys c.stores.toVisit
  marking : ∀ w u, c.workers w = .marking u →
    ∀ v, Yields L site u v → v ∈ GoMap.keys c.stores.toVisit

/-! # Properties -/

/-! ## Go maps -/

namespace GoMap

variable {β : Type}

theorem get?_set (m : List (String × β)) (k : String) (v : β) (k' : String) :
    get? (set m k v) k' = if k = k' then some v else get? m k' := by
  induction m with
  | nil => simp [set, get?]
  | cons e rest ih =>
    obtain ⟨k0, v0⟩ := e
    by_cases h : k0 = k
    · subst h
      simp [set, get?]
      by_cases h2 : k0 = k' <;> simp [h2]
    · simp only [set, h, if_false, get?]
      rw [ih]
      by_cases h2 : k0 = k'
      · subst h2
        have : ¬ k = k0 := fun e => h e.symm
        simp [this]
      · simp [h2]

theorem get?_set_self (m : List (String × β)) (k : String) (v : β) :
    get? (set m k v) k = some v := by
  rw [get?_set]; simp

theorem get?_set_ne (m : List (String × β)) (k : String) (v : β) (k' : String) (h : k ≠ k') :
    get? (set m k v) k' = get? m k' := by
  rw [get?_set]; simp [h]

theorem get?_delete (m : List (String × β)) (k k' : String) :
    get? (delete m k) k' = if k = k' then none else get? m k' := by
  induction m with
  | nil => simp [delete, get?]
  | cons e rest ih =>
    obtain ⟨k0, v0⟩ := e
    by_cases h : k0 = k
    · subst h
      simp only [delete, if_true, get?]
      rw [ih]
      by_cases h2 : k0 = k' <;> simp [h2]
    · simp only [delete, h, if_false, get?]
      rw [ih]
      by_cases h2 : k0 = k'
      · subst h2
        have : ¬ k = k0 := fun e => h e.symm
        simp [this]
      · simp [h2]

theorem get?_eq_none_iff (m : List (String × β)) (k : String) :
    get? m k = none ↔ k ∉ keys m := by
  induction m with
  | nil => simp [get?, keys]
  | cons e rest ih =>
    obtain ⟨k0, v0⟩ := e
    by_cases h : k0 = k
    · simp [get?, keys, h]
    · have h' : ¬ k = k0 := fun e => h e.symm
      simp only [get?, h, if_false, ih, keys, List.map_cons, List.mem_cons, h', false_or]

theorem mem_of_get? (m : List (String × β)) (k : String) (v : β) (h : get? m k = some v) :
    (k, v) ∈ m := by
  induction m with
  | nil => simp [get?] at h
  | cons e rest ih =>
    obtain ⟨k0, v0⟩ := e
    by_cases h0 : k0 = k
    · simp [get?, h0] at h
      simp [h0, h]
    · simp only [get?, h0, if_false] at h
      exact List.mem_cons_of_mem _ (ih h)

theorem mem_keys_of_get? (m : List (String × β)) (k : String) (v : β) (h : get? m k = some v) :
    k ∈ keys m := by
  by_contra hn
  rw [← get?_eq_none_iff] at hn
  rw [hn] at h
  cases h

theorem keys_set (m : List (String × β)) (k : String) (v : β) :
    keys (set m k v) = if k ∈ keys m then keys m else keys m ++ [k] := by
  induction m with
  | nil => simp [set, keys]
  | cons e rest ih =>
    obtain ⟨k0, v0⟩ := e
    by_cases h : k0 = k
    · subst h
      simp [set, keys]
    · have h' : ¬ k = k0 := fun e => h e.symm
      simp only [set, h, if_false]
      simp only [keys, List.map_cons, List.mem_cons, h', false_or] at ih ⊢
      rw [ih]
      by_cases hm : k ∈ List.map Prod.fst rest <;> simp [hm]

theorem mem_keys_set (m : List (String × β)) (k : String) (v : β) (k' : String) :
    k' ∈ keys (set m k v) ↔ k' = k ∨ k' ∈ keys m := by
  rw [keys_set]
  by_cases hm : k ∈ keys m
  · simp only [hm, if_true]
    constructor
    · exact Or.inr
    · rintro (h | h)
      · rw [h]; exact hm
      · exact h
  · simp only [hm, if_false, List.mem_append, List.mem_singleton]
    tauto

theorem nodup_keys_set (m : List (String × β)) (k : String) (v : β) (h : (keys m).Nodup) :
    (keys (set m k v)).Nodup := by
  rw [keys_set]
  by_cases hm : k ∈ keys m
  · simpa [hm] using h
  · simp only [hm, if_false]
    rw [List.nodup_append]
    refine ⟨h, List.nodup_singleton k, ?_⟩
    intro a ha hb
    rw [List.mem_singleton] at hb
    exact hm (hb ▸ ha)

theorem keys_delete_sublist (m : List (String × β)) (k : String) :
    (keys (delete m k)).Sublist (keys m) := by
  induction m with
  | nil => simp [delete, keys]
  | cons e rest ih =>
    obtain ⟨k0, v0⟩ := e
    by_cases h : k0 = k
    · simp only [delete, h, if_true, keys, List.map_cons]
      exact List.Sublist.cons _ ih
    · simp only [delete, h, if_false, keys, List.map_cons]
      exact List.Sublist.cons₂ _ ih

theorem nodup_keys_delete (m : List (String × β)) (k : String) (h : (keys m).Nodup) :
    (keys (delete m k)).Nodup :=
  List.Nodup.sublist (keys_delete_sublist m k) h

theorem mem_delete (m : List (String × β)) (k : String) (e : String × β) (h : e ∈ delete m k) :
    e ∈ m := by
  induction m with
  | nil => simp [delete] at h
  | cons e0 rest ih =>
    obtain ⟨k0, v0⟩ := e0
    by_cases h0 : k0 = k
    · simp only [delete, h0, if_true] at h
      exact List.mem_cons_of_mem _ (ih h)
    · simp only [delete, h0, if_false, List.mem_cons] at h
      rcases h with h | h
      · rw [h]; exact List.mem_cons_self _ _
      · exact List.mem_cons_of_mem _ (ih h)

theorem mem_set (m : List (String × β)) (k : String) (v : β) (e : String × β)
    (h : e ∈ set m k v) : e = (k, v) ∨ e ∈ m := by
  induction m with
  | nil => simp [set] at h; exact Or.inl h
  | cons e0 rest ih =>
    obtain ⟨k0, v0⟩ := e0
    by_cases h0 : k0 = k
    · simp only [set, h0, if_true, List.mem_cons] at h
      rcases h with h | h
      · exact Or.inl h
      · exact Or.inr (List.mem_cons_of_mem _ h)
    · simp only [set, h0, if_false, List.mem_cons] at h
      rcases h with h | h
      · rw [h]; exact Or.inr (List.mem_cons_self _ _)
      · rcases ih h with h' | h'
        · exact Or.inl h'
        · exact Or.inr (List.mem_cons_of_mem _ h')

end GoMap

/-! ## Paths in the sitemap tree -/

namespace Node

theorem at?_append (n : Node) (p q : List String) :
    at? n (p ++ q) = (at? n p).bind (fun m => at? m q) := by
  induction p generalizing n with
  | nil => simp [at?]
  | cons k ks ih =>
    simp only [List.cons_append, at?]
    cases h : GoMap.get? n.Links k with
    | none => simp
    | some c => simp [ih]

theorem at?_snoc (n : Node) (p : List String) (k : String) (c : Node)
    (h : at? n (p ++ [k]) = some c) :
    ∃ m, at? n p = some m ∧ GoMap.get? m.Links k = some c := by
  rw [at?_append] at h
  cases hp : at? n p with
  | none => simp [hp] at h
  | some m =>
    refine ⟨m, rfl, ?_⟩
    simp only [hp, Option.some_bind, at?] at h
    cases hk : GoMap.get? m.Links k with
    | none => simp [hk] at h
    | some c' => simp [hk] at h; rw [h]

theorem at?_snoc_of (n : Node) (p : List String) (k : String) (m c : Node)
    (hp : at? n p = some m) (hk : GoMap.get? m.Links k = some c) :
    at? n (p ++ [k]) = some c := by
  rw [at?_append, hp]
  simp [at?, hk]

theorem checkAll_eq (P : String → String → String → Bool) (n : Node) :
    checkAll P n = checkLinks P n.URL n.Links := by
  cases n with
  | mk u ls => simp [checkAll, URL, Links]

theorem checkLinks_get? (P : String → String → String → Bool) (u : String)
    (ls : List (String × Node)) (k : String) (c : Node)
    (h : checkLinks P u ls = true) (hk : GoMap.get? ls k = some c) :
    P u k c.URL = true ∧ checkAll P c = true := by
  induction ls with
  | nil => simp [GoMap.get?] at hk
  | cons e rest ih =>
    obtain ⟨k0, c0⟩ := e
    simp only [checkLinks, Bool.and_eq_true] at h
    by_cases h0 : k0 = k
    · simp only [GoMap.get?, h0, if_true, Option.some.injEq] at hk
      subst hk
      subst h0
      exact ⟨h.1.1, h.1.2⟩
    · simp only [GoMap.get?, h0, if_false] at hk
      exact ih h.2 hk

theorem checkAll_at? (P : String → String → String → Bool) (n : Node) (p : List String)
    (m : Node) (h : checkAll P n = true) (hp : at? n p = some m) : checkAll P m = true := by
  induction p generalizing n with
  | nil =>
    simp only [at?, Option.some.injEq] at hp
    rw [← hp]; exact h
  | cons k ks ih =>
    simp only [at?] at hp
    cases hk : GoMap.get? n.Links k with
    | none => simp [hk] at hp
    | some c =>
      simp only [hk] at hp
      rw [checkAll_eq] at h
      exact ih c (checkLinks_get? P n.URL n.Links k c h hk).2 hp

theorem checkAll_link (P : String → String → String → Bool) (n : Node) (p : List String)
    (m : Node) (k : String) (c : Node) (h : checkAll P n = true) (hp : at? n p = some m)
    (hk : GoMap.get? m.Links k = some c) : P m.URL k c.URL = true := by
  have hm := checkAll_at? P n p m h hp
  rw [checkAll_eq] at hm
  exact (checkLinks_get? P m.URL m.Links k c hm hk).1

end Node

/-! ## GetNodeFromSitemap -/

theorem parentWalk_chain (info : Info) (hI : info.indexesTree = true)
    (hN : info.parentsNamed = true) (p : List String) :
    ∀ (n : Node) (acc : List String) (fuel : Nat), info.Sitemap.at? p = some n →
      p.length < fuel → parentWalk info fuel n.URL acc = some (acc ++ p.reverse) := by
  simp only [Info.indexesTree, Bool.and_eq_true, beq_iff_eq] at hI
  induction p using List.reverseRecOn with
  | nil =>
    intro n acc fuel hp hf
    simp only [Node.at?, Option.some.injEq] at hp
    subst hp
    cases fuel with
    | zero => simp at hf
    | succ f => simp [parentWalk, hI.1]
  | append_singleton q k ih =>
    intro n acc fuel hp hf
    obtain ⟨m, hm, hk⟩ := Node.at?_snoc _ q k n hp
    have h1 := Node.checkAll_link _ _ q m k n hI.2 hm hk
    have h2 := Node.checkAll_link _ _ q m k n hN hm hk
    simp only [Bool.and_eq_true, beq_iff_eq, bne_iff_ne, ne_eq] at h1 h2
    cases fuel with
    | zero => simp at hf
    | succ f =>
      have hf' : q.length < f := by simp at hf; omega
      have hcond : info.parentOf n.URL ≠ "" ∧ info.parentOf n.URL ≠ ROOT := by
        rw [h1.1, h1.2]; exact h2
      rw [parentWalk, if_pos hcond, h1.1, h1.2, ih m (acc ++ [k]) f hm hf']
      simp

theorem descendLoop_take (path : List String) :
    ∀ (j : Nat) (q : List String) (m m' : Node), j < path.length →
      m.at? ((path.drop 1).take j).reverse = some m' →
      descendLoop path j (some ⟨q, m⟩) = .ok (some ⟨q ++ ((path.drop 1).take j).reverse, m'⟩) := by
  intro j
  induction j with
  | zero =>
    intro q m m' _ h
    simp only [List.take_zero, List.reverse_nil, Node.at?, Option.some.injEq] at h
    subst h
    simp [descendLoop]
  | succ i ih =>
    intro q m m' hj h
    obtain ⟨key, hk1⟩ : ∃ key, path[i + 1]? = some key := ⟨_, List.getElem?_eq_getElem hj⟩
    have hkey1 : path.getD (i + 1) "" = key := by
      rw [List.getD_eq_getElem?_getD, hk1]; rfl
    have hkey2 : (path.drop 1)[i]? = some key := by
      rw [List.getElem?_drop, Nat.add_comm, hk1]
    have htake : ((path.drop 1).take (i + 1)).reverse
        = key :: ((path.drop 1).take i).reverse := by
      rw [List.take_succ, hkey2]
      simp
    rw [htake] at h ⊢
    rw [Node.at?] at h
    rw [descendLoop, hkey1]
    cases hk : GoMap.get? m.Links key with
    | none => rw [hk] at h; cases h
    | some c =>
      rw [hk] at h
      simp only [linksIndex, hk]
      rw [ih (q ++ [key]) c m' (by omega) h]
      simp

theorem getNode_of_path (info : Info) (hI : info.indexesTree = true)
    (hN : info.parentsNamed = true) (p : List String) (n : Node)
    (hp : info.Sitemap.at? p = some n) (fuel : Nat) (hf : p.length < fuel) :
    info.GetNodeFromSitemap fuel n.URL = .ok (some ⟨p, n⟩) := by
  have hw := parentWalk_chain info hI hN p n [] fuel hp hf
  simp only [List.nil_append] at hw
  unfold Info.GetNodeFromSitemap
  rw [hw]
  rcases List.eq_nil_or_concat p with hnil | ⟨q, k, hq⟩
  · subst hnil
    simp only [Node.at?, Option.some.injEq] at hp
    subst hp
    simp
  · rw [List.concat_eq_append] at hq
    subst hq
    obtain ⟨m, hm, hk⟩ := Node.at?_snoc _ q k n hp
    have hkey : n.URL = k := by
      simp only [Info.indexesTree, Bool.and_eq_true, beq_iff_eq] at hI
      have h1 := Node.checkAll_link _ _ q m k n hI.2 hm hk
      simp only [Bool.and_eq_true, beq_iff_eq] at h1
      exact h1.1
    have hrev : (q ++ [k]).reverse = k :: q.reverse := by simp
    have hd : (((q ++ [k]).reverse.drop 1).take ((q ++ [k]).reverse.length - 1)).reverse = q := by
      rw [hrev]
      have : List.take q.length q.reverse = q.reverse := by
        rw [List.take_of_length_le]; simp
      simp [this]
    have hloop := descendLoop_take (q ++ [k]).reverse ((q ++ [k]).reverse.length - 1) []
      info.Sitemap m (by simp) (by rw [hd]; exact hm)
    rw [hd] at hloop
    simp only [List.nil_append] at hloop
    have hne : ¬ (q ++ [k]).reverse.length = 0 := by simp
    simp only [if_neg hne, hloop]
    simp only [linksIndex, hkey, hk]

/-! ## C2: what GetNodeFromSitemap returns -/

/-- C2, as stated, fails: in `sentinelInfo` the parent-of index maps the root
URL to `ROOT` and every other node's URL to the URL of its parent, the node
`g` sits at `root.Links["ROOT"].Links["g"]`, and `GetNodeFromSitemap("g")`
returns the tree root, because the parent of `g` is named `ROOT`. -/
theorem getNode_sentinel_counterexample :
    sentinelInfo.indexesTree = true ∧
    sentinelInfo.Sitemap.at? ["ROOT", "g"] = some (Node.mk "g" []) ∧
    (∀ fuel : Nat, sentinelInfo.GetNodeFromSitemap (fuel + 1) "g"
        = .ok (some ⟨[], sentinelInfo.Sitemap⟩)) :=
  ⟨by decide, rfl, fun _ => rfl⟩

/-- C2 (amended): when the parent-of index maps the root URL to `ROOT` and
every other node's URL to the URL of its parent, and no node with children is
named `""` or `ROOT`, then with fuel for the walk `GetNodeFromSitemap` returns
the tree root for the root URL, and for the URL of the node at any pointer path
`p` it returns exactly that node, reached through the keys of `p` in order
(the root's child first, the URL itself last). -/
theorem GetNodeFromSitemap_descends (info : Info) (hI : info.indexesTree = true)
    (hN : info.parentsNamed = true) (p : List String) (n : Node)
    (hp : info.Sitemap.at? p = some n) (fuel : Nat) (hf : p.length < fuel) :
    info.GetNodeFromSitemap fuel info.Sitemap.URL = .ok (some ⟨[], info.Sitemap⟩) ∧
    info.GetNodeFromSitemap fuel n.URL = .ok (some ⟨p, n⟩) ∧
    (p ≠ [] → p.getLast? = some n.URL) := by
  refine ⟨?_, getNode_of_path info hI hN p n hp fuel hf, ?_⟩
  · exact getNode_of_path info hI hN [] info.Sitemap rfl fuel (by simp at hf ⊢; omega)
  · intro hne
    rcases List.eq_nil_or_concat p with hnil | ⟨q, k, hq⟩
    · exact absurd hnil hne
    · rw [List.concat_eq_append] at hq
      subst hq
      obtain ⟨m, hm, hk⟩ := Node.at?_snoc _ q k n hp
      simp only [Info.indexesTree, Bool.and_eq_true, beq_iff_eq] at hI
      have h1 := Node.checkAll_link _ _ q m k n hI.2 hm hk
      simp only [Bool.and_eq_true, beq_iff_eq] at h1
      simp [h1.1]

/-- C2 (amended), on the `Info` of `TestGetNodeFromSitemap`:
`GetNodeFromSitemap("depth2-b")` is `sitemap.Links["depth1-a"].Links["depth2-b"]`. -/
theorem GetNodeFromSitemap_descends_witness :
    testInfo.GetNodeFromSitemap 3 "root-url" = .ok (some ⟨[], testInfo.Sitemap⟩) ∧
    testInfo.GetNodeFromSitemap 3 "depth2-b"
      = .ok (some ⟨["depth1-a", "depth2-b"], Node.mk "depth2-b" []⟩) ∧
    (["depth1-a", "depth2-b"] ≠ [] → ["depth1-a", "depth2-b"].getLast? = some "depth2-b") :=
  GetNodeFromSitemap_descends testInfo (by decide) (by decide) ["depth1-a", "depth2-b"]
    (Node.mk "depth2-b" []) rfl 3 (by decide)

/-! ## The shape of a worker step -/

@[simp] theorem terminateIfComplete_info (s : Stores) : (terminateIfComplete s).info = s.info := by
  unfold terminateIfComplete; split <;> rfl

@[simp] theorem terminateIfComplete_toVisit (s : Stores) :
    (terminateIfComplete s).toVisit = s.toVisit := by
  unfold terminateIfComplete; split <;> rfl

@[simp] theorem terminateIfComplete_visitState (s : Stores) :
    (terminateIfComplete s).visitState = s.visitState := by
  unfold terminateIfComplete; split <;> rfl

@[simp] theorem terminateIfComplete_queue (s : Stores) :
    (terminateIfComplete s).queue = s.queue := by
  unfold terminateIfComplete; split <;> rfl

@[simp] theorem terminateIfComplete_fetched (s : Stores) :
    (terminateIfComplete s).fetched = s.fetched := by
  unfold terminateIfComplete; split <;> rfl

theorem terminateIfComplete_quit (s : Stores) :
    (terminateIfComplete s).quit = if completionRaised s then s.quit + 1 else s.quit := by
  unfold terminateIfComplete; split <;> rfl

/-- What `crawl` does to the stores: nothing, or, for an accepted redirect,
the target goes to the to-visit set and the queue and the sitemap is
rewritten; only a call that leaves the stores alone returns links. -/
theorem crawl_ok_cases (L : UrlPkg) (net : Nat → Response) (walk : Nat) :
    ∀ (fuel n : Nat) (rawURL : String) (d : Int) (s : Stores) (sl : List Int) (out : CrawlOut),
      crawl L net walk fuel n rawURL d s sl = .ok out →
      out.stores = s ∨
      (out.links = [] ∧ out.err ≠ none ∧ ∃ (next : String) (info' : Info),
        rewriteRedirect walk rawURL next s.info = .ok info' ∧
        out.stores = { s with toVisit := GoMap.set s.toVisit next true
                              queue := s.queue ++ [next]
                              info := info' }) := by
  intro fuel
  induction fuel with
  | zero => intro n rawURL d s sl out h; simp [crawl] at h
  | succ f ih =>
    intro n rawURL d s sl out h
    rw [crawl] at h
    simp only at h
    split at h
    · cases h; exact Or.inl rfl
    · split at h
      · cases h; exact Or.inl rfl
      · split at h
        · split at h
          · cases h; exact Or.inl rfl
          · split at h
            · split at h
              · cases h
              · rename_i info' hrw
                cases h
                exact Or.inr ⟨rfl, by simp, _, info', hrw, rfl⟩
            · cases h; exact Or.inl rfl
        · split at h
          · split at h
            · exact ih _ _ _ _ _ _ h
            · cases h; exact Or.inl rfl
          · split at h
            · cases h; exact Or.inl rfl
            · cases h; exact Or.inl rfl

/-- The shape of one iteration of `processQueue`: the URL is skipped, or it
is claimed and then ends as an error without rewrite, as an accepted
redirect, or as a page whose links are inserted. -/
theorem processQueue_cases (L : UrlPkg) (walk fuel : Nat) (net : Nat → Response)
    (url : String) (s s' : Stores) (h : processQueue L walk fuel net url s = .ok s') :
    (alreadySeen s.visitState url = true ∧ s' = terminateIfComplete s) ∨
    (alreadySeen s.visitState url = false ∧ ∃ mid : Stores, s' = terminateIfComplete mid ∧
      mid.visitState = GoMap.set (GoMap.set s.visitState url VISITING) url VISITED ∧
      mid.fetched = s.fetched ++ [url] ∧ mid.quit = s.quit ∧
      ((mid.info = s.info ∧ mid.toVisit = s.toVisit ∧ mid.queue = s.queue) ∨
       (∃ (next : String) (info' : Info),
          rewriteRedirect walk url next s.info = .ok info' ∧ mid.info = info' ∧
          mid.toVisit = GoMap.set s.toVisit next true ∧ mid.queue = s.queue ++ [next]) ∨
       (∃ (links : List String) (temp : Option Ref) (info' : Info) (tv' : List (String × Bool)),
          s.info.GetNodeFromSitemap walk url = .ok temp ∧
          insertLinks url temp links s.info s.toVisit = .ok (info', tv') ∧
          mid.info = info' ∧ mid.toVisit = tv' ∧ mid.queue = s.queue ++ links))) := by
  unfold processQueue at h
  split at h
  · rename_i hseen
    cases h
    exact Or.inl ⟨hseen, rfl⟩
  · rename_i hseen
    simp only [Bool.not_eq_true] at hseen
    refine Or.inr ⟨hseen, ?_⟩
    simp only at h
    split at h
    · cases h
    · rename_i out hc
      have hcases := crawl_ok_cases L net walk fuel 0 url 1 _ [] out hc
      split at h
      · rename_i e he
        cases h
        refine ⟨_, rfl, ?_⟩
        rcases hcases with hs | ⟨_, _, next, info', hrw, hs⟩
        · rw [hs]
          exact ⟨rfl, rfl, rfl, Or.inl ⟨rfl, rfl, rfl⟩⟩
        · rw [hs]
          exact ⟨rfl, rfl, rfl, Or.inr (Or.inl ⟨next, info', hrw, rfl, rfl, rfl⟩)⟩
      · rename_i he
        have hs : out.stores = { s with visitState := GoMap.set s.visitState url VISITING
                                        fetched := s.fetched ++ [url] } := by
          rcases hcases with hs | ⟨_, hne, _⟩
          · exact hs
          · exact absurd he hne
        split at h
        · cases h
        · rename_i temp hg
          split at h
          · cases h
          · rename_i info' tv' hi
            cases h
            refine ⟨_, rfl, ?_⟩
            rw [hs] at hg hi ⊢
            exact ⟨rfl, rfl, rfl, Or.inr (Or.inr ⟨out.links, temp, info', tv', hg, hi, rfl, rfl, rfl⟩)⟩

/-! ## The loop over the links of a page -/

theorem insertLinks_toVisit (url : String) (temp : Option Ref) (links : List String) :
    ∀ (info : Info) (tv : List (String × Bool)) (info' : Info) (tv' : List (String × Bool)),
      insertLinks url temp links info tv = .ok (info', tv') →
      ((GoMap.keys tv).Nodup → (GoMap.keys tv').Nodup) ∧
      (∀ u, u ∈ GoMap.keys tv' ↔ u ∈ GoMap.keys tv ∨ u ∈ links) := by
  induction links with
  | nil =>
    intro info tv info' tv' h
    simp only [insertLinks, Except.ok.injEq, Prod.mk.injEq] at h
    obtain ⟨_, rfl⟩ := h
    simp
  | cons link rest ih =>
    intro info tv info' tv' h
    simp only [insertLinks] at h
    split at h
    · cases h
    · have := ih _ _ _ _ h
      refine ⟨fun hn => this.1 (GoMap.nodup_keys_set tv link true hn), fun u => ?_⟩
      rw [this.2 u, GoMap.mem_keys_set, List.mem_cons]
      tauto

theorem parentOf_set (info : Info) (k v u : String) :
    Info.parentOf { info with Parentmap := GoMap.set info.Parentmap k v } u
      = if k = u then v else info.parentOf u := by
  simp only [Info.parentOf, GoMap.get?_set]
  split <;> rfl

theorem insertLinks_parentOf (url : String) (temp : Option Ref) (links : List String) :
    ∀ (info : Info) (tv : List (String × Bool)) (info' : Info) (tv' : List (String × Bool)),
      insertLinks url temp links info tv = .ok (info', tv') →
      ∀ u, (info.parentOf u ≠ "" → info'.parentOf u = info.parentOf u) ∧
        (u ∈ links → info.parentOf u = "" → info'.parentOf u = url) ∧
        (u ∉ links → info'.parentOf u = info.parentOf u) := by
  induction links with
  | nil =>
    intro info tv info' tv' h
    simp only [insertLinks, Except.ok.injEq, Prod.mk.injEq] at h
    obtain ⟨rfl, _⟩ := h
    simp
  | cons link rest ih =>
    intro info tv info' tv' h u
    simp only [insertLinks] at h
    split at h
    · cases h
    · rename_i sm _
      have hrec := ih _ _ _ _ h u
      have hstep : Info.parentOf ⟨sm, if info.parentOf link = "" then
          GoMap.set info.Parentmap link url else info.Parentmap⟩ u
          = if link = u ∧ info.parentOf link = "" then url else info.parentOf u := by
        by_cases hl : info.parentOf link = ""
        · rw [if_pos hl]
          have := parentOf_set ⟨sm, info.Parentmap⟩ link url u
          simp only [hl, and_true]
          simpa [Info.parentOf] using this
        · rw [if_neg hl]
          have hno : ¬ (link = u ∧ info.parentOf link = "") := fun h => hl h.2
          rw [if_neg hno]
          rfl
      rw [hstep] at hrec
      refine ⟨fun hu => ?_, fun hmem hu => ?_, fun hmem => ?_⟩
      · have hno : ¬ (link = u ∧ info.parentOf link = "") := fun ⟨e, h0⟩ => hu (e ▸ h0)
        rw [if_neg hno] at hrec
        exact hrec.1 hu
      · by_cases hlu : link = u
        · have hyes : link = u ∧ info.parentOf link = "" := ⟨hlu, hlu ▸ hu⟩
          rw [if_pos hyes] at hrec
          by_cases hurl : url = ""
          · by_cases hr : u ∈ rest
            · exact hrec.2.1 hr hurl
            · rw [hrec.2.2 hr]
          · exact hrec.1 hurl
        · have hno : ¬ (link = u ∧ info.parentOf link = "") := fun ⟨e, _⟩ => hlu e
          rw [if_neg hno] at hrec
          have hr : u ∈ rest := by
            rcases List.mem_cons.mp hmem with e | e
            · exact absurd e.symm hlu
            · exact e
          exact hrec.2.1 hr hu
      · have hlu : ¬ link = u := fun e => hmem (e ▸ List.mem_cons_self _ _)
        have hr : u ∉ rest := fun e => hmem (List.mem_cons_of_mem _ e)
        have hno : ¬ (link = u ∧ info.parentOf link = "") := fun ⟨e, _⟩ => hlu e
        rw [if_neg hno] at hrec
        exact hrec.2.2 hr

theorem rewriteRedirect_parentOf (walk : Nat) (raw next : String) (info info' : Info)
    (h : rewriteRedirect walk raw next info = .ok info') (u : String)
    (hu : info.parentOf u ≠ "") : info'.parentOf u = info.parentOf u := by
  unfold rewriteRedirect at h
  simp only at h
  split at h
  · rename_i hc
    split at h
    · cases h
    · cases h
    · cases h
      have := parentOf_set info next (info.parentOf raw) u
      simp only [Info.parentOf] at this ⊢
      rw [this]
      have hne : ¬ next = u := fun e => hu (e ▸ hc.2)
      simp [hne]
  · cases h; rfl

/-! ## The visit-state map, the to-visit set and the queue -/

theorem scanVisitState_all_visited (vs : List (String × VisitStatus)) (n : Nat)
    (h : ∀ e ∈ vs, e.2 = VISITED) : scanVisitState vs n = (false, n + vs.length) := by
  induction vs generalizing n with
  | nil => simp [scanVisitState]
  | cons e rest ih =>
    obtain ⟨k, st⟩ := e
    have hst : st = VISITED := h (k, st) (List.mem_cons_self _ _)
    subst hst
    have hne : ¬ (VISITED = VISITING) := by decide
    rw [scanVisitState, if_neg hne, if_pos rfl, ih (n + 1) (fun e he => h e (List.mem_cons_of_mem _ he))]
    simp; omega

theorem alreadySeen_iff (s : Stores) (hs : s.Tidy) (url : String) :
    alreadySeen s.visitState url = false ↔ GoMap.get? s.visitState url = none := by
  unfold alreadySeen
  cases hg : GoMap.get? s.visitState url with
  | none => simp
  | some st =>
    have := hs.status url st hg
    subst this
    simp

theorem Tidy_init (rootURL : String) : (CreateSiteMap.init rootURL).Tidy where
  visitKeys := by simp [CreateSiteMap.init, GoMap.keys]
  toVisitKeys := by simp [CreateSiteMap.init, GoMap.keys, GoMap.set]
  status := by intro u st h; simp [CreateSiteMap.init, GoMap.get?] at h
  visitSub := by intro u h; simp [CreateSiteMap.init, GoMap.keys] at h
  queueSub := by
    intro u h
    simp only [CreateSiteMap.init, List.mem_singleton] at h
    simp [CreateSiteMap.init, GoMap.keys, GoMap.set, h]
  fetchedEq := by simp [CreateSiteMap.init, GoMap.keys]

/-- What a claim and the following mark do to the visit-state map when the
URL was absent. -/
theorem keys_claim_mark (vs : List (String × VisitStatus)) (url : String)
    (h : GoMap.get? vs url = none) :
    GoMap.keys (GoMap.set (GoMap.set vs url VISITING) url VISITED) = GoMap.keys vs ++ [url] := by
  rw [GoMap.get?_eq_none_iff] at h
  rw [GoMap.keys_set, GoMap.keys_set]
  simp [h]

theorem Tidy_processQueue (L : UrlPkg) (walk fuel : Nat) (net : Nat → Response)
    (url : String) (s s' : Stores) (hs : s.Tidy) (hurl : url ∈ GoMap.keys s.toVisit)
    (h : processQueue L walk fuel net url s = .ok s') : s'.Tidy := by
  rcases processQueue_cases L walk fuel net url s s' h with ⟨_, rfl⟩ | ⟨hseen, mid, rfl, hvs, hf, _, hcase⟩
  · exact ⟨by simpa using hs.visitKeys, by simpa using hs.toVisitKeys, by simpa using hs.status,
      by simpa using hs.visitSub, by simpa using hs.queueSub, by simpa using hs.fetchedEq⟩
  · have habs := (alreadySeen_iff s hs url).mp hseen
    have hkeys := keys_claim_mark s.visitState url habs
    have hmono : (GoMap.keys mid.toVisit).Nodup ∧
        (∀ u, u ∈ GoMap.keys s.toVisit → u ∈ GoMap.keys mid.toVisit) ∧
        (∀ u, u ∈ mid.queue → u ∈ GoMap.keys mid.toVisit) := by
      rcases hcase with ⟨_, htv, hq⟩ | ⟨next, info', _, _, htv, hq⟩ | ⟨links, temp, info', tv', _, hi, _, htv, hq⟩
      · rw [htv, hq]
        exact ⟨hs.toVisitKeys, fun u hu => hu, hs.queueSub⟩
      · rw [htv, hq]
        refine ⟨GoMap.nodup_keys_set _ _ _ hs.toVisitKeys, fun u hu => ?_, fun u hu => ?_⟩
        · rw [GoMap.mem_keys_set]; exact Or.inr hu
        · rw [GoMap.mem_keys_set]
          rcases List.mem_append.mp hu with hu | hu
          · exact Or.inr (hs.queueSub u hu)
          · exact Or.inl (List.mem_singleton.mp hu)
      · have := insertLinks_toVisit url temp links _ _ _ _ hi
        rw [htv, hq]
        refine ⟨this.1 hs.toVisitKeys, fun u hu => (this.2 u).mpr (Or.inl hu), fun u hu => ?_⟩
        rcases List.mem_append.mp hu with hu | hu
        · exact (this.2 u).mpr (Or.inl (hs.queueSub u hu))
        · exact (this.2 u).mpr (Or.inr hu)
    refine ⟨?_, ?_, ?_, ?_, ?_, ?_⟩
    · simp only [terminateIfComplete_visitState, hvs]
      exact GoMap.nodup_keys_set _ _ _ (GoMap.nodup_keys_set _ _ _ hs.visitKeys)
    · simpa using hmono.1
    · intro u st hg
      simp only [terminateIfComplete_visitState, hvs, GoMap.get?_set] at hg
      by_cases hu : url = u
      · simp [hu] at hg; exact hg.symm
      · simp only [hu, if_false] at hg
        exact hs.status u st hg
    · intro u hu
      simp only [terminateIfComplete_visitState, hvs, hkeys, List.mem_append,
        List.mem_singleton] at hu
      simp only [terminateIfComplete_toVisit]
      rcases hu with hu | hu
      · exact hmono.2.1 u (hs.visitSub u hu)
      · exact hmono.2.1 u (hu ▸ hurl)
    · simpa using hmono.2.2
    · simp only [terminateIfComplete_fetched, terminateIfComplete_visitState, hvs, hkeys, hf,
        hs.fetchedEq]

theorem Tidy_step (L : UrlPkg) (s s' : Stores) (hs : s.Tidy) (h : Step L s s') : s'.Tidy := by
  obtain ⟨i, url, walk, fuel, net, hq, hp⟩ := h
  have hmem : url ∈ s.queue := List.getElem?_mem hq
  have hs' : Stores.Tidy { s with queue := s.queue.eraseIdx i } :=
    ⟨hs.visitKeys, hs.toVisitKeys, hs.status, hs.visitSub,
      fun u hu => hs.queueSub u ((List.eraseIdx_sublist _ _).subset hu), hs.fetchedEq⟩
  exact Tidy_processQueue L walk fuel net url _ s' hs' (hs.queueSub url hmem) hp

theorem Tidy_reachable (L : UrlPkg) (rootURL : String) (s : Stores)
    (h : Reachable L rootURL s) : s.Tidy := by
  induction h with
  | init => exact Tidy_init rootURL
  | step _ hstep ih => exact Tidy_step L _ _ ih hstep

/-! ## Concrete runs are reachable -/

theorem reachable_runSteps (L : UrlPkg) (rootURL : String) (walk fuel : Nat)
    (site : String → Nat → Response) (sched : List Nat) :
    ∀ (s s' : Stores), Reachable L rootURL s → runSteps L walk fuel site sched s = some s' →
      Reachable L rootURL s' := by
  induction sched with
  | nil =>
    intro s s' hs h
    simp only [runSteps, Option.some.injEq] at h
    exact h ▸ hs
  | cons i rest ih =>
    intro s s' hs h
    simp only [runSteps] at h
    split at h
    · cases h
    · rename_i url hq
      split at h
      · cases h
      · rename_i t hp
        exact ih t s' (Reachable.step hs ⟨i, url, walk, fuel, site url, hq, hp⟩) h

theorem testSiteDone_reachable : Reachable oneHost "S" testSiteDone :=
  reachable_runSteps oneHost "S" 10 6 testSite [0, 0, 0, 0, 0, 0, 0] _ _ Reachable.init
    (by decide!)

/-! ## The visit-state map across a whole iteration -/

theorem visitState_processQueue (L : UrlPkg) (walk fuel : Nat) (net : Nat → Response)
    (url : String) (s s' : Stores) (hs : s.Tidy)
    (h : processQueue L walk fuel net url s = .ok s') :
    ((GoMap.get? s.visitState url = none ∧ s'.fetched = s.fetched ++ [url]) ∨
      (GoMap.get? s.visitState url ≠ none ∧ s'.fetched = s.fetched)) ∧
    (∀ u, GoMap.get? s.visitState u = some VISITED →
      GoMap.get? s'.visitState u = some VISITED) ∧
    (∀ u, GoMap.get? s.visitState u ≠ none → GoMap.get? s'.visitState u ≠ none) := by
  rcases processQueue_cases L walk fuel net url s s' h with
    ⟨hseen, rfl⟩ | ⟨hseen, mid, rfl, hvs, hf, _, _⟩
  · refine ⟨Or.inr ⟨?_, by simp⟩, fun u hu => by simpa using hu, fun u hu => by simpa using hu⟩
    intro hn
    rw [← alreadySeen_iff s hs url] at hn
    rw [hn] at hseen
    cases hseen
  · have habs := (alreadySeen_iff s hs url).mp hseen
    refine ⟨Or.inl ⟨habs, by simp [hf]⟩, fun u hu => ?_, fun u hu => ?_⟩
    · simp only [terminateIfComplete_visitState, hvs, GoMap.get?_set]
      by_cases hu' : url = u
      · simp [hu']
      · simp [hu', hu]
    · simp only [terminateIfComplete_visitState, hvs, GoMap.get?_set]
      by_cases hu' : url = u
      · simp [hu']
      · simpa [hu'] using hu

/-! ## C4: the completion signal -/

theorem completionRaised_congr (s t : Stores) (h1 : s.toVisit = t.toVisit)
    (h2 : s.visitState = t.visitState) : completionRaised s = completionRaised t := by
  simp [completionRaised, queueLen, h1, h2]

theorem all_visited_of_raised (s : Stores) (hs : s.Tidy) (h : completionRaised s = true) :
    ∀ u, u ∈ GoMap.keys s.toVisit → GoMap.get? s.visitState u = some VISITED := by
  have hall : ∀ e ∈ s.visitState, e.2 = VISITED := by
    intro e he
    have hk : e.1 ∈ GoMap.keys s.visitState := List.mem_map_of_mem Prod.fst he
    cases hg : GoMap.get? s.visitState e.1 with
    | none => exact absurd hk ((GoMap.get?_eq_none_iff _ _).mp hg)
    | some st =>
      have h1 := hs.status e.1 st hg
      have h2 := GoMap.mem_of_get? _ _ _ hg
      -- two entries with the same key in a map without repeated keys are one entry
      have hinj : ∀ (m : List (String × VisitStatus)), (GoMap.keys m).Nodup →
          ∀ k a b, (k, a) ∈ m → (k, b) ∈ m → a = b := by
        intro m
        induction m with
        | nil => intro _ k a b ha; cases ha
        | cons e0 rest ih =>
          intro hn k a b ha hb
          simp only [GoMap.keys, List.map_cons, List.nodup_cons] at hn
          rcases List.mem_cons.mp ha with ha | ha <;> rcases List.mem_cons.mp hb with hb | hb
          · rw [← ha] at hb; exact (Prod.mk.inj hb).2.symm
          · exact absurd (List.mem_map_of_mem Prod.fst hb) (by rw [← ha] at hn; exact hn.1)
          · exact absurd (List.mem_map_of_mem Prod.fst ha) (by rw [← hb] at hn; exact hn.1)
          · exact ih hn.2 k a b ha hb
      have := hinj s.visitState hs.visitKeys e.1 e.2 st he h2
      rw [this, h1]
  have hscan := scanVisitState_all_visited s.visitState 0 hall
  have hlen : (GoMap.keys s.toVisit).length = (GoMap.keys s.visitState).length := by
    simp only [completionRaised, queueLen, hscan] at h
    simpa [GoMap.len, GoMap.keys] using h
  have hsub : GoMap.keys s.visitState ⊆ GoMap.keys s.toVisit := fun u hu => hs.visitSub u hu
  have hperm := (List.subperm_of_subset hs.visitKeys hsub).perm_of_length_le (le_of_eq hlen)
  intro u hu
  have hu' : u ∈ GoMap.keys s.visitState := hperm.mem_iff.mpr hu
  cases hg : GoMap.get? s.visitState u with
  | none => exact absurd hu' ((GoMap.get?_eq_none_iff _ _).mp hg)
  | some st => rw [hs.status u st hg]

theorem all_visited_of_quit (L : UrlPkg) (rootURL : String) (s : Stores)
    (h : Reachable L rootURL s) (hq : 0 < s.quit) :
    ∀ u, u ∈ GoMap.keys s.toVisit → GoMap.get? s.visitState u = some VISITED := by
  induction h with
  | init => simp [CreateSiteMap.init] at hq
  | @step s s' hr hstep ih =>
    have hs := Tidy_reachable L rootURL s hr
    have hs' := Tidy_step L s s' hs hstep
    obtain ⟨i, url, walk, fuel, net, hget, hp⟩ := hstep
    by_cases hraised : completionRaised s' = true
    · exact all_visited_of_raised s' hs' hraised
    · have hurl : url ∈ GoMap.keys s.toVisit := hs.queueSub url (List.getElem?_mem hget)
      rcases processQueue_cases L walk fuel net url _ s' hp with
        ⟨_, rfl⟩ | ⟨hseen, mid, rfl, _, _, hquit, _⟩
      · have hraised' : ¬ completionRaised { s with queue := s.queue.eraseIdx i } = true := by
          rw [completionRaised_congr _ (terminateIfComplete { s with queue := s.queue.eraseIdx i })
            (by simp) (by simp)]
          exact hraised
        rw [terminateIfComplete_quit, if_neg hraised'] at hq
        simpa using ih hq
      · have hraised' : ¬ completionRaised mid = true := by
          rw [completionRaised_congr _ (terminateIfComplete mid) (by simp) (by simp)]
          exact hraised
        rw [terminateIfComplete_quit, if_neg hraised', hquit] at hq
        have hv := ih hq url hurl
        simp [alreadySeen, hv] at hseen

/-- C4: in every state reachable by complete worker steps the URLs of the
visit-state map lie in the to-visit set; when the test of
`terminateIfComplete` passes (no URL VISITING, as many VISITED as there are
URLs to visit) every URL of the to-visit set is VISITED; and so is it in every
state in which the completion signal has been raised. -/
theorem completion_means_all_visited (L : UrlPkg) (rootURL : String) (s : Stores)
    (h : Reachable L rootURL s) :
    (∀ u, u ∈ GoMap.keys s.visitState → u ∈ GoMap.keys s.toVisit) ∧
    (completionRaised s = true →
      ∀ u, u ∈ GoMap.keys s.toVisit → GoMap.get? s.visitState u = some VISITED) ∧
    (0 < s.quit →
      ∀ u, u ∈ GoMap.keys s.toVisit → GoMap.get? s.visitState u = some VISITED) :=
  ⟨(Tidy_reachable L rootURL s h).visitSub,
    all_visited_of_raised s (Tidy_reachable L rootURL s h),
    all_visited_of_quit L rootURL s h⟩

/-- C4 on the crawl of `TestSiteMap`: the signal was raised, and the page
discovered last is VISITED. -/
theorem completion_means_all_visited_witness :
    completionRaised testSiteDone = true ∧
    GoMap.get? testSiteDone.visitState "S/after-redirect" = some VISITED :=
  ⟨by decide,
    (completion_means_all_visited oneHost "S" testSiteDone testSiteDone_reachable).2.1
      (by decide) "S/after-redirect" (by decide)⟩

/-! ## C5: the parent of a URL is written once -/

theorem parentOf_processQueue (L : UrlPkg) (walk fuel : Nat) (net : Nat → Response)
    (url : String) (s s' : Stores) (h : processQueue L walk fuel net url s = .ok s')
    (u : String) (hu : s.info.parentOf u ≠ "") : s'.info.parentOf u = s.info.parentOf u := by
  rcases processQueue_cases L walk fuel net url s s' h with
    ⟨_, rfl⟩ | ⟨_, mid, rfl, _, _, _, hcase⟩
  · simp
  · rw [terminateIfComplete_info]
    rcases hcase with ⟨hi, _, _⟩ | ⟨next, info', hrw, hi, _, _⟩ |
      ⟨links, temp, _, _, _, hins, hi, _, _⟩
    · rw [hi]
    · rw [hi]; exact rewriteRedirect_parentOf walk url next s.info info' hrw u hu
    · rw [hi]; exact ((insertLinks_parentOf url temp links _ _ _ _ hins) u).1 hu

theorem parentOf_step (L : UrlPkg) (s s' : Stores) (h : Step L s s') (u : String)
    (hu : s.info.parentOf u ≠ "") : s'.info.parentOf u = s.info.parentOf u := by
  obtain ⟨i, url, walk, fuel, net, _, hp⟩ := h
  exact parentOf_processQueue L walk fuel net url { s with queue := s.queue.eraseIdx i } s' hp u hu

theorem parentOf_seed (L : UrlPkg) (rootURL : String) (s : Stores)
    (h : Reachable L rootURL s) : s.info.parentOf rootURL = ROOT := by
  induction h with
  | init => simp [CreateSiteMap.init, Info.parentOf, GoMap.set, GoMap.get?]
  | step _ hstep ih =>
    rw [parentOf_step L _ _ hstep rootURL (by rw [ih]; decide), ih]

/-- C5: first-writer-wins parentage.  In every reachable state the entry of
the seed is `ROOT`; a worker step leaves every parent-of entry that is set
(not `""`) as it was, whether the step inserts the links of a page or rewrites
a redirect; and the loop over the links of a page gives each link that had no
entry the URL of that page as its parent. -/
theorem parent_first_writer_wins (L : UrlPkg) (rootURL : String) (s : Stores)
    (h : Reachable L rootURL s) :
    s.info.parentOf rootURL = ROOT ∧
    (∀ s', Step L s s' → ∀ u, s.info.parentOf u ≠ "" →
      s'.info.parentOf u = s.info.parentOf u) ∧
    (∀ (currentURL : String) (temp : Option Ref) (links : List String) (info' : Info)
      (tv' : List (String × Bool)),
      insertLinks currentURL temp links s.info s.toVisit = .ok (info', tv') →
      ∀ link, link ∈ links → s.info.parentOf link = "" → info'.parentOf link = currentURL) :=
  ⟨parentOf_seed L rootURL s h, fun s' hstep u hu => parentOf_step L s s' hstep u hu,
    fun currentURL temp links _ _ hins link hl h0 =>
      ((insertLinks_parentOf currentURL temp links _ _ _ _ hins) link).2.1 hl h0⟩

/-- C5 on the crawl of `TestSiteMap`: the seed keeps `ROOT`, and `S/about`,
linked first from the seed and later from two other pages, keeps the seed as
its parent. -/
theorem parent_first_writer_wins_witness :
    testSiteDone.info.parentOf "S" = ROOT ∧ testSiteDone.info.parentOf "S/about" = "S" :=
  ⟨(parent_first_writer_wins oneHost "S" testSiteDone testSiteDone_reachable).1, by decide⟩

/-! ## C8: the retries of `crawl` -/

theorem wrapInt_double (d : Int) (h1 : 1 ≤ d) (h2 : d ≤ 16) : wrapInt (d * 2) = d * 2 := by
  unfold wrapInt
  norm_num
  omega

theorem crawl_retry (L : UrlPkg) (net : Nat → Response) (walk fuel n : Nat) (raw : String)
    (d : Int) (s : Stores) (sl : List Int) (cur : URL) (hp : L.Parse raw = some cur)
    (hf : (net n).failed = false) (hc : 500 ≤ (net n).StatusCode) (hd : d ≤ 16) :
    crawl L net walk (fuel + 1) n raw d s sl
      = crawl L net walk fuel (n + 1) raw (wrapInt (d * 2)) s (sl ++ [d]) := by
  have h1 : ¬ ((net n).StatusCode > 300 ∧ (net n).StatusCode < 400) := by omega
  have h2 : (net n).StatusCode < 200 ∨ (net n).StatusCode > 400 := by omega
  have h3 : (net n).StatusCode > 499 ∧ d ≤ 16 := by omega
  rw [crawl]
  simp only [hf, hp, if_neg h1, if_pos h2, if_pos h3, Bool.false_eq_true, if_false]

theorem crawl_giveup (L : UrlPkg) (net : Nat → Response) (walk fuel n : Nat) (raw : String)
    (d : Int) (s : Stores) (sl : List Int) (cur : URL) (hp : L.Parse raw = some cur)
    (hf : (net n).failed = false) (hc : 500 ≤ (net n).StatusCode) (hd : 16 < d) :
    crawl L net walk (fuel + 1) n raw d s sl
      = .ok ⟨s, [], some (.status (net n).StatusCode), sl, n + 1⟩ := by
  have h1 : ¬ ((net n).StatusCode > 300 ∧ (net n).StatusCode < 400) := by omega
  have h2 : (net n).StatusCode < 200 ∨ (net n).StatusCode > 400 := by omega
  have h3 : ¬ ((net n).StatusCode > 499 ∧ d ≤ 16) := by omega
  rw [crawl]
  simp only [hf, hp, if_neg h1, if_pos h2, if_neg h3, Bool.false_eq_true, if_false]

theorem linksIndex_fault (temp : Option Ref) (k : String) (e : Fault)
    (h : linksIndex temp k = .error e) : e = .nilDereference := by
  unfold linksIndex at h
  split at h
  · cases h; rfl
  · split at h <;> cases h

theorem descendLoop_fault (path : List String) (i : Nat) (temp : Option Ref) (e : Fault)
    (h : descendLoop path i temp = .error e) : e = .nilDereference := by
  induction i generalizing temp with
  | zero => simp [descendLoop] at h
  | succ j ih =>
    simp only [descendLoop] at h
    split at h
    · rename_i e' he
      cases h
      exact linksIndex_fault _ _ _ he
    · exact ih _ h

theorem getNode_fault (info : Info) (fuel : Nat) (url : String) (e : Fault)
    (h : info.GetNodeFromSitemap fuel url = .error e) : e ≠ .retryOutOfFuel := by
  unfold Info.GetNodeFromSitemap at h
  split at h
  · cases h; decide
  · split at h
    · cases h
    · split at h
      · rename_i e' he
        cases h
        rw [descendLoop_fault _ _ _ _ he]; decide
      · rw [linksIndex_fault _ _ _ h]; decide

theorem rewriteRedirect_fault (walk : Nat) (raw next : String) (info : Info) (e : Fault)
    (h : rewriteRedirect walk raw next info = .error e) : e ≠ .retryOutOfFuel := by
  unfold rewriteRedirect at h
  simp only at h
  split at h
  · split at h
    · rename_i e' he
      cases h
      exact getNode_fault _ _ _ _ he
    · cases h; decide
    · cases h
  · cases h

/-- With `k + 1` units of fuel the retries of `crawl` do not run out of fuel
when the delay is at least 1 and doubling it `k` times takes it over 16. -/
theorem crawl_retry_fuel (L : UrlPkg) (net : Nat → Response) (walk : Nat) (raw : String)
    (s : Stores) (k : Nat) :
    ∀ (fuel n : Nat) (d : Int) (sl : List Int), 1 ≤ d → 16 < d * 2 ^ k → k < fuel →
      crawl L net walk fuel n raw d s sl ≠ .error .retryOutOfFuel := by
  induction k with
  | zero =>
    intro fuel n d sl h1 h2 hf
    obtain ⟨f, rfl⟩ : ∃ f, fuel = f + 1 := ⟨fuel - 1, by omega⟩
    have hd : ¬ (d ≤ 16) := by simp at h2; omega
    rw [crawl]
    simp only
    split
    · simp
    · split
      · simp
      · split
        · split
          · simp
          · split
            · split
              · rename_i e he
                intro h
                cases h
                exact rewriteRedirect_fault _ _ _ _ _ he rfl
              · simp
            · simp
        · split
          · split
            · rename_i hc
              exact absurd hc.2 hd
            · simp
          · split <;> simp
  | succ k ih =>
    intro fuel n d sl h1 h2 hf
    obtain ⟨f, rfl⟩ : ∃ f, fuel = f + 1 := ⟨fuel - 1, by omega⟩
    rw [crawl]
    simp only
    split
    · simp
    · split
      · simp
      · split
        · split
          · simp
          · split
            · split
              · rename_i e he
                intro h
                cases h
                exact rewriteRedirect_fault _ _ _ _ _ he rfl
              · simp
            · simp
        · split
          · split
            · rename_i hc
              have hw := wrapInt_double d h1 hc.2
              rw [hw]
              refine ih f (n + 1) (d * 2) (sl ++ [d]) (by omega) ?_ (by omega)
              rw [pow_succ] at h2
              linarith
            · simp
          · split <;> simp

/-- C8: when every response to the requests for a URL has a status from 500
to 599, `crawl(url, 1)`, given fuel for six requests, sleeps 1, 2, 4, 8 and 16
seconds in this order, makes exactly six requests and returns an error and no
links, leaving the stores as they were; and whatever the responses, a call
with a delay of at least 1 never runs out of that fuel: the retry recursion
ends within six requests. -/
theorem crawl_backoff (L : UrlPkg) (net : Nat → Response) (walk : Nat) (raw : String)
    (cur : URL) (s : Stores) (fuel : Nat) (hparse : L.Parse raw = some cur)
    (h5 : ∀ n, (net n).failed = false ∧ 500 ≤ (net n).StatusCode ∧ (net n).StatusCode ≤ 599)
    (hfuel : 6 ≤ fuel) :
    crawl L net walk fuel 0 raw 1 s []
      = .ok ⟨s, [], some (.status (net 5).StatusCode), [1, 2, 4, 8, 16], 6⟩ ∧
    (∀ (anyNet : Nat → Response) (n : Nat) (d : Int) (sl : List Int), 1 ≤ d →
      crawl L anyNet walk fuel n raw d s sl ≠ .error .retryOutOfFuel) := by
  constructor
  · obtain ⟨f, rfl⟩ : ∃ f, fuel = f + 6 := ⟨fuel - 6, by omega⟩
    rw [crawl_retry L net walk (f + 5) 0 raw 1 s [] cur hparse (h5 0).1 (h5 0).2.1 (by decide)]
    rw [wrapInt_double 1 (by decide) (by decide)]
    rw [crawl_retry L net walk (f + 4) 1 raw (1 * 2) s _ cur hparse (h5 1).1 (h5 1).2.1
      (by decide)]
    rw [wrapInt_double (1 * 2) (by decide) (by decide)]
    rw [crawl_retry L net walk (f + 3) 2 raw (1 * 2 * 2) s _ cur hparse (h5 2).1 (h5 2).2.1
      (by decide)]
    rw [wrapInt_double (1 * 2 * 2) (by decide) (by decide)]
    rw [crawl_retry L net walk (f + 2) 3 raw (1 * 2 * 2 * 2) s _ cur hparse (h5 3).1 (h5 3).2.1
      (by decide)]
    rw [wrapInt_double (1 * 2 * 2 * 2) (by decide) (by decide)]
    rw [crawl_retry L net walk (f + 1) 4 raw (1 * 2 * 2 * 2 * 2) s _ cur hparse (h5 4).1
      (h5 4).2.1 (by decide)]
    rw [wrapInt_double (1 * 2 * 2 * 2 * 2) (by decide) (by decide)]
    rw [crawl_giveup L net walk f 5 raw (1 * 2 * 2 * 2 * 2 * 2) s _ cur hparse (h5 5).1
      (h5 5).2.1 (by decide)]
    rfl
  · intro anyNet n d sl hd
    exact crawl_retry_fuel L anyNet walk raw s 5 fuel n d sl hd (by norm_num; omega) (by omega)

/-- C8 on a server that always answers 503. -/
theorem crawl_backoff_witness :
    crawl oneHost (fun _ => answer 503 "") 10 6 0 "S" 1 (CreateSiteMap.init "S") []
      = .ok ⟨CreateSiteMap.init "S", [], some (.status 503), [1, 2, 4, 8, 16], 6⟩ ∧
    crawl oneHost (fun _ => answer 302 "S/next") 10 6 0 "S" 1 (CreateSiteMap.init "S") []
      ≠ .error .retryOutOfFuel :=
  ⟨(crawl_backoff oneHost (fun _ => answer 503 "") 10 "S" ⟨"http", "h", "S"⟩
      (CreateSiteMap.init "S") 6 rfl (fun _ => ⟨rfl, by simp [answer], by simp [answer]⟩) (by decide)).1,
    (crawl_backoff oneHost (fun _ => answer 503 "") 10 "S" ⟨"http", "h", "S"⟩
      (CreateSiteMap.init "S") 6 rfl (fun _ => ⟨rfl, by simp [answer], by simp [answer]⟩) (by decide)).2
      (fun _ => answer 302 "S/next") 0 1 [] (by decide)⟩

/-! ## C6 and C7: how `crawl` classifies a status code -/

theorem crawl_client_error (L : UrlPkg) (net : Nat → Response) (walk fuel n : Nat)
    (raw : String) (d : Int) (s : Stores) (sl : List Int) (cur : URL)
    (hp : L.Parse raw = some cur) (hf : (net n).failed = false)
    (h1 : 400 < (net n).StatusCode) (h2 : (net n).StatusCode ≤ 499) :
    crawl L net walk (fuel + 1) n raw d s sl
      = .ok ⟨s, [], some (.status (net n).StatusCode), sl, n + 1⟩ := by
  have c1 : ¬ ((net n).StatusCode > 300 ∧ (net n).StatusCode < 400) := by omega
  have c2 : (net n).StatusCode < 200 ∨ (net n).StatusCode > 400 := by omega
  have c3 : ¬ ((net n).StatusCode > 499 ∧ d ≤ 16) := by omega
  rw [crawl]
  simp only [hf, hp, if_neg c1, if_pos c2, if_neg c3, Bool.false_eq_true, if_false]

/-- C6, the code at the failing input: for a response with status 400 whose
body links to `S/x`, `crawl` returns that link and no error, and the worker
that fetched the seed `S` gives it the child `S/x`; for every status from 401
to 499 `crawl` returns an error and no links after one request and no sleep. -/
theorem crawl_status_400_returns_links :
    crawl oneHost (fun _ => badRequestPage) 10 6 0 "S" 1 (CreateSiteMap.init "S") []
      = .ok ⟨CreateSiteMap.init "S", ["S/x"], none, [], 1⟩ ∧
    (processQueue oneHost 10 6 (fun _ => badRequestPage) "S"
        { CreateSiteMap.init "S" with queue := [] }).toOption.map (fun s => s.info.Sitemap)
      = some (Node.mk "S" [("S/x", Node.mk "S/x" [])]) ∧
    (∀ code : Int, 400 < code → code ≤ 499 →
      crawl oneHost (fun _ => answer code "") 10 6 0 "S" 1 (CreateSiteMap.init "S") []
        = .ok ⟨CreateSiteMap.init "S", [], some (.status code), [], 1⟩) :=
  ⟨by decide!, by decide!, fun code h1 h2 =>
    crawl_client_error oneHost (fun _ => answer code "") 10 5 0 "S" 1 (CreateSiteMap.init "S") []
      ⟨"http", "h", "S"⟩ rfl rfl h1 h2⟩

/-- C7, the code at the failing inputs: a response with status 300 is not
handled as a redirect (its `location` header is ignored, nothing is queued)
but has its body parsed for links, and so has a response with status 400; a
response with status 301 is handled as a redirect. -/
theorem crawl_status_300_extracts_links :
    crawl oneHost (fun _ => multipleChoices) 10 6 0 "S" 1 (CreateSiteMap.init "S") []
      = .ok ⟨CreateSiteMap.init "S", ["S/x"], none, [], 1⟩ ∧
    crawl oneHost (fun _ => badRequestPage) 10 6 0 "S" 1 (CreateSiteMap.init "S") []
      = .ok ⟨CreateSiteMap.init "S", ["S/x"], none, [], 1⟩ ∧
    (crawl oneHost (fun _ => { multipleChoices with StatusCode := 301 }) 10 6 0 "S" 1
        (CreateSiteMap.init "S") []).toOption.map (fun out => (out.links, out.err, out.stores.queue))
      = some ([], some (.redirect 301), ["S", "S/y"]) :=
  ⟨by decide!, by decide!, by decide!⟩

/-! ## Mutation through a pointer -/

namespace Node

@[simp] theorem URL_mk (u : String) (ls : List (String × Node)) : (mk u ls).URL = u := rfl

@[simp] theorem Links_mk (u : String) (ls : List (String × Node)) : (mk u ls).Links = ls := rfl

theorem modifyAt_URL (f : List (String × Node) → List (String × Node)) (p : List String)
    (n : Node) : (modifyAt f p n).URL = n.URL := by
  cases p <;> rfl

theorem get?_mapEntry (g : Node → Node) (ls : List (String × Node)) (k k' : String) :
    GoMap.get? (mapEntry g ls k) k'
      = if k = k' then (GoMap.get? ls k).map g else GoMap.get? ls k' := by
  induction ls with
  | nil => simp [mapEntry, GoMap.get?]
  | cons e rest ih =>
    obtain ⟨k0, c0⟩ := e
    by_cases h0 : k0 = k
    · subst h0
      simp only [mapEntry, if_true, GoMap.get?]
      by_cases h1 : k0 = k' <;> simp [h1]
    · simp only [mapEntry, h0, if_false, GoMap.get?]
      rw [ih]
      by_cases h1 : k0 = k'
      · subst h1
        have : ¬ k = k0 := fun e => h0 e.symm
        simp [this]
      · simp [h1]

theorem keys_mapEntry (g : Node → Node) (ls : List (String × Node)) (k : String) :
    GoMap.keys (mapEntry g ls k) = GoMap.keys ls := by
  induction ls with
  | nil => rfl
  | cons e rest ih =>
    obtain ⟨k0, c0⟩ := e
    by_cases h0 : k0 = k
    · simp [mapEntry, h0, GoMap.keys]
    · simp only [mapEntry, h0, if_false, GoMap.keys, List.map_cons] at ih ⊢
      rw [ih]

theorem mem_mapEntry (g : Node → Node) (ls : List (String × Node)) (k : String)
    (e : String × Node) (h : e ∈ mapEntry g ls k) :
    e ∈ ls ∨ ∃ c, (e.1, c) ∈ ls ∧ e.2 = g c := by
  induction ls with
  | nil => simp [mapEntry] at h
  | cons e0 rest ih =>
    obtain ⟨k0, c0⟩ := e0
    by_cases h0 : k0 = k
    · simp only [mapEntry, h0, if_true, List.mem_cons] at h
      rcases h with h | h
      · refine Or.inr ⟨c0, ?_, ?_⟩
        · rw [h, h0]; exact List.mem_cons_self _ _
        · rw [h]
      · exact Or.inl (List.mem_cons_of_mem _ h)
    · simp only [mapEntry, h0, if_false, List.mem_cons] at h
      rcases h with h | h
      · rw [h]; exact Or.inl (List.mem_cons_self _ _)
      · rcases ih h with h' | ⟨c, hc, he⟩
        · exact Or.inl (List.mem_cons_of_mem _ h')
        · exact Or.inr ⟨c, List.mem_cons_of_mem _ hc, he⟩

theorem at?_modifyAt_self (f : List (String × Node) → List (String × Node)) (p : List String) :
    ∀ (n m : Node), at? n p = some m →
      at? (modifyAt f p n) p = some (mk m.URL (f m.Links)) := by
  induction p with
  | nil =>
    intro n m h
    simp only [at?, Option.some.injEq] at h
    subst h
    rfl
  | cons k ks ih =>
    intro n m h
    simp only [at?] at h
    cases hk : GoMap.get? n.Links k with
    | none => simp [hk] at h
    | some c =>
      simp only [hk] at h
      simp only [modifyAt, at?, Links_mk, get?_mapEntry, if_true, hk, Option.map_some']
      exact ih c m h

theorem at?_modifyAt_off (f : List (String × Node) → List (String × Node)) (p : List String) :
    ∀ (n : Node) (q : List String), ¬ p <+: q →
      (at? (modifyAt f p n) q).map (fun m => (m.URL, GoMap.keys m.Links))
        = (at? n q).map (fun m => (m.URL, GoMap.keys m.Links)) := by
  induction p with
  | nil => intro n q h; exact absurd ( List.nil_prefix) h
  | cons k ks ih =>
    intro n q h
    cases q with
    | nil => simp [at?, modifyAt, keys_mapEntry]
    | cons k' q' =>
      simp only [modifyAt, at?, Links_mk, get?_mapEntry]
      by_cases hk : k = k'
      · subst hk
        simp only [if_true]
        cases hg : GoMap.get? n.Links k with
        | none => simp
        | some c =>
          simp only [Option.map_some']
          refine ih c q' (fun hp => h ?_)
          exact ( List.prefix_cons_inj k).mpr hp
      · simp only [hk, if_false]

theorem at?_modifyAt_below (f : List (String × Node) → List (String × Node)) (p : List String)
    (n m : Node) (k : String) (q : List String) (hp : at? n p = some m)
    (hk : GoMap.get? (f m.Links) k = GoMap.get? m.Links k) :
    at? (modifyAt f p n) (p ++ k :: q) = at? n (p ++ k :: q) := by
  rw [at?_append, at?_append, at?_modifyAt_self f p n m hp, hp]
  simp only [Option.some_bind, at?, Links_mk, hk]

/-! ## Children stored once, under their URL -/

theorem keyed_links {n : Node} (h : Keyed n) :
    (GoMap.keys n.Links).Nodup ∧ (∀ e ∈ n.Links, e.2.URL = e.1) ∧ (∀ e ∈ n.Links, Keyed e.2) := by
  cases h with
  | mk u ls hk hu hc => exact ⟨hk, hu, hc⟩

theorem keyed_fresh (k : String) : Keyed (Node.fresh k) :=
  Keyed.mk k [] (by simp [GoMap.keys]) (by simp) (by simp)

theorem keyed_at? {n : Node} (h : Keyed n) (p : List String) (m : Node)
    (hp : Node.at? n p = some m) : Keyed m := by
  induction p generalizing n with
  | nil =>
    simp only [Node.at?, Option.some.injEq] at hp
    exact hp ▸ h
  | cons k ks ih =>
    simp only [Node.at?] at hp
    cases hk : GoMap.get? n.Links k with
    | none => simp [hk] at hp
    | some c =>
      simp only [hk] at hp
      exact ih ((keyed_links h).2.2 (k, c) (GoMap.mem_of_get? _ _ _ hk)) hp

theorem keyed_modifyAt (f : List (String × Node) → List (String × Node))
    (hf : ∀ u ls, Keyed (Node.mk u ls) → Keyed (Node.mk u (f ls))) (p : List String) :
    ∀ (n : Node), Keyed n → Keyed (Node.modifyAt f p n) := by
  induction p with
  | nil =>
    intro n h
    cases n with
    | mk u ls => exact hf u ls h
  | cons k ks ih =>
    intro n h
    cases n with
    | mk u ls =>
      obtain ⟨hk, hu, hc⟩ := (keyed_links h)
      simp only [Links_mk] at hk hu hc
      refine Keyed.mk u _ (by rw [keys_mapEntry]; exact hk) ?_ ?_
      · intro e he
        rcases mem_mapEntry _ _ _ _ he with h1 | ⟨c, hc1, he1⟩
        · exact hu e h1
        · rw [he1, modifyAt_URL]; exact hu (e.1, c) hc1
      · intro e he
        rcases mem_mapEntry _ _ _ _ he with h1 | ⟨c, hc1, he1⟩
        · exact hc e h1
        · rw [he1]; exact ih c (hc (e.1, c) hc1)

theorem keyed_set (u : String) (ls : List (String × Node)) (k : String)
    (h : Keyed (Node.mk u ls)) : Keyed (Node.mk u (GoMap.set ls k (Node.fresh k))) := by
  obtain ⟨hk, hu, hc⟩ := (keyed_links h)
  simp only [Links_mk] at hk hu hc
  refine Keyed.mk u _ (GoMap.nodup_keys_set _ _ _ hk) ?_ ?_
  · intro e he
    rcases GoMap.mem_set _ _ _ _ he with h1 | h1
    · rw [h1]; rfl
    · exact hu e h1
  · intro e he
    rcases GoMap.mem_set _ _ _ _ he with h1 | h1
    · rw [h1]; exact keyed_fresh k
    · exact hc e h1

theorem keyed_delete (u : String) (ls : List (String × Node)) (k : String)
    (h : Keyed (Node.mk u ls)) : Keyed (Node.mk u (GoMap.delete ls k)) := by
  obtain ⟨hk, hu, hc⟩ := (keyed_links h)
  simp only [Links_mk] at hk hu hc
  exact Keyed.mk u _ (GoMap.nodup_keys_delete _ _ hk)
    (fun e he => hu e (GoMap.mem_delete _ _ _ he)) (fun e he => hc e (GoMap.mem_delete _ _ _ he))

theorem keyed_addLink (u : String) (ls : List (String × Node)) (k : String)
    (h : Keyed (Node.mk u ls)) : Keyed (Node.mk u (Crawl.addLink k ls)) := by
  unfold Crawl.addLink
  split
  · exact keyed_set u ls k h
  · exact h

theorem keyed_children_distinct {n : Node} (h : Keyed n) :
    (n.Links.map (fun e => e.2.URL)).Nodup := by
  obtain ⟨hk, hu, _⟩ := (keyed_links h)
  have : n.Links.map (fun e => e.2.URL) = GoMap.keys n.Links := by
    apply List.map_congr_left
    intro e he
    exact hu e he
  rw [this]; exact hk

end Node

theorem insertLinks_keyed (url : String) (temp : Option Ref) (links : List String) :
    ∀ (info : Info) (tv : List (String × Bool)) (info' : Info) (tv' : List (String × Bool)),
      insertLinks url temp links info tv = .ok (info', tv') →
      info.Sitemap.Keyed → info'.Sitemap.Keyed := by
  induction links with
  | nil =>
    intro info tv info' tv' h hk
    simp only [insertLinks, Except.ok.injEq, Prod.mk.injEq] at h
    exact h.1 ▸ hk
  | cons link rest ih =>
    intro info tv info' tv' h hk
    simp only [insertLinks] at h
    split at h
    · cases h
    · rename_i sm hsm
      refine ih _ _ _ _ h ?_
      simp only
      split at hsm
      · split at hsm
        · cases hsm
        · cases hsm
          exact Node.keyed_modifyAt _ (fun u ls hu => Node.keyed_addLink u ls link hu) _ _ hk
      · cases hsm
        exact hk

theorem rewriteRedirect_keyed (walk : Nat) (raw next : String) (info info' : Info)
    (h : rewriteRedirect walk raw next info = .ok info') (hk : info.Sitemap.Keyed) :
    info'.Sitemap.Keyed := by
  unfold rewriteRedirect at h
  simp only at h
  split at h
  · split at h
    · cases h
    · cases h
    · cases h
      exact Node.keyed_modifyAt _
        (fun u ls hu => Node.keyed_delete u _ raw (Node.keyed_set u ls next hu)) _ _ hk
  · cases h; exact hk

theorem keyed_reachable (L : UrlPkg) (rootURL : String) (s : Stores)
    (h : Reachable L rootURL s) : s.info.Sitemap.Keyed := by
  induction h with
  | init => exact Node.Keyed.mk rootURL [] (by simp [GoMap.keys]) (by simp) (by simp)
  | step _ hstep ih =>
    obtain ⟨i, url, walk, fuel, net, _, hp⟩ := hstep
    rcases processQueue_cases L walk fuel net url _ _ hp with
      ⟨_, rfl⟩ | ⟨_, mid, rfl, _, _, _, hcase⟩
    · simpa using ih
    · rw [terminateIfComplete_info]
      rcases hcase with ⟨hi, _, _⟩ | ⟨next, info', hrw, hi, _, _⟩ |
        ⟨links, temp, _, _, _, hins, hi, _, _⟩
      · rw [hi]; exact ih
      · rw [hi]; exact rewriteRedirect_keyed walk url next _ info' hrw ih
      · rw [hi]; exact insertLinks_keyed url temp links _ _ _ _ hins ih

/-! ## C1: how often a URL appears in the tree -/

/-- C1, counterexample: the crawl of `TestSiteMap` ends, as the test expects,
with a tree in which `S/about` has three nodes: one under the seed that
discovered it first, one under `S/relative` and one under `S/after-redirect`,
the two pages that linked to it later. -/
theorem url_with_three_nodes_counterexample :
    Reachable oneHost "S" testSiteDone ∧
    testSiteDone.info.Sitemap = testSiteExpected ∧
    testSiteDone.info.Sitemap.urls.count "S/about" = 3 :=
  ⟨testSiteDone_reachable, by decide, by decide⟩

/-! ## C9: the rewrite of a redirect -/

theorem linksIndex_valid (root : Node) (temp : Option Ref) (k : String) (temp' : Option Ref)
    (hv : ∀ r, temp = some r → root.at? r.path = some r.node)
    (h : linksIndex temp k = .ok temp') :
    ∀ r, temp' = some r → root.at? r.path = some r.node := by
  unfold linksIndex at h
  split at h
  · cases h
  · rename_i r0
    split at h
    · cases h; intro r hr; cases hr
    · rename_i c hc
      cases h
      intro r hr
      cases hr
      exact Node.at?_snoc_of root r0.path k r0.node c (hv r0 rfl) hc

theorem descendLoop_valid (root : Node) (path : List String) (i : Nat) :
    ∀ (temp temp' : Option Ref), (∀ r, temp = some r → root.at? r.path = some r.node) →
      descendLoop path i temp = .ok temp' →
      ∀ r, temp' = some r → root.at? r.path = some r.node := by
  induction i with
  | zero =>
    intro temp temp' hv h
    simp only [descendLoop, Except.ok.injEq] at h
    exact h ▸ hv
  | succ j ih =>
    intro temp temp' hv h
    simp only [descendLoop] at h
    split at h
    · cases h
    · rename_i t ht
      exact ih t temp' (linksIndex_valid root temp _ t hv ht) h

/-- The pointer `GetNodeFromSitemap` returns designates the node it returns. -/
theorem getNode_valid (info : Info) (fuel : Nat) (url : String) (r : Ref)
    (h : info.GetNodeFromSitemap fuel url = .ok (some r)) :
    info.Sitemap.at? r.path = some r.node := by
  have h0 : ∀ r0 : Ref, some (⟨[], info.Sitemap⟩ : Ref) = some r0 →
      info.Sitemap.at? r0.path = some r0.node := by
    intro r0 hr0
    cases hr0
    rfl
  unfold Info.GetNodeFromSitemap at h
  split at h
  · cases h
  · split at h
    · cases h; rfl
    · split at h
      · cases h
      · rename_i t ht
        exact linksIndex_valid info.Sitemap t url (some r)
          (descendLoop_valid info.Sitemap _ _ _ t h0 ht) h r rfl

/-- Recording the parent of a URL that is nobody's recorded parent does not
change the parent walk from any other URL. -/
theorem parentWalk_after_record (info : Info) (nextRawURL parentURL : String)
    (hnew : ∀ x, info.parentOf x ≠ nextRawURL) (fuel : Nat) :
    ∀ (start : String) (acc : List String), start ≠ nextRawURL →
      parentWalk ⟨info.Sitemap, GoMap.set info.Parentmap nextRawURL parentURL⟩ fuel start acc
        = parentWalk info fuel start acc := by
  induction fuel with
  | zero => intro start acc _; rfl
  | succ f ih =>
    intro start acc hs
    have hsame : Info.parentOf ⟨info.Sitemap, GoMap.set info.Parentmap nextRawURL parentURL⟩ start
        = info.parentOf start := by
      have hne : ¬ nextRawURL = start := fun e => hs e.symm
      simp only [Info.parentOf, GoMap.get?_set, hne, if_false]
    simp only [parentWalk, hsame]
    split
    · exact ih (info.parentOf start) (acc ++ [start]) (hnew start)
    · rfl

/-- The lookup the rewrite makes after it has recorded the parent of the
target finds what a lookup before the rewrite finds, when the target is
nobody's recorded parent. -/
theorem getNode_after_record (info : Info) (nextRawURL parentURL : String) (walk : Nat)
    (hnew : ∀ x, info.parentOf x ≠ nextRawURL) (hne : parentURL ≠ nextRawURL) :
    Info.GetNodeFromSitemap ⟨info.Sitemap, GoMap.set info.Parentmap nextRawURL parentURL⟩ walk
        parentURL
      = info.GetNodeFromSitemap walk parentURL := by
  unfold Info.GetNodeFromSitemap
  rw [parentWalk_after_record info nextRawURL parentURL hnew walk parentURL [] hne]

theorem rewriteRedirect_spec (walk : Nat) (rawURL nextRawURL : String) (info : Info) (r : Ref)
    (hP : info.parentOf rawURL ≠ "") (hto : info.parentOf nextRawURL = "")
    (hnode : Info.GetNodeFromSitemap
      ⟨info.Sitemap, GoMap.set info.Parentmap nextRawURL (info.parentOf rawURL)⟩ walk
      (info.parentOf rawURL) = .ok (some r)) :
    rewriteRedirect walk rawURL nextRawURL info
      = .ok ⟨Node.modifyAt
          (fun ls => GoMap.delete (GoMap.set ls nextRawURL (Node.fresh nextRawURL)) rawURL)
          r.path info.Sitemap,
        GoMap.set info.Parentmap nextRawURL (info.parentOf rawURL)⟩ ∧
    info.Sitemap.at? r.path = some r.node := by
  refine ⟨?_, getNode_valid
    ⟨info.Sitemap, GoMap.set info.Parentmap nextRawURL (info.parentOf rawURL)⟩ walk _ r hnode⟩
  unfold rewriteRedirect
  simp only [hP, hto, ne_eq, not_false_eq_true, and_self, if_true, hnode]

/-- The node at the pointer after the rewrite: the links of the parent have a
fresh node for the target and none for the source, and are otherwise as
before. -/
theorem rewritten_parent (rawURL nextRawURL : String) (hne : rawURL ≠ nextRawURL)
    (root : Node) (p : List String) (m : Node) (hp : root.at? p = some m) :
    ∃ m', (Node.modifyAt
        (fun ls => GoMap.delete (GoMap.set ls nextRawURL (Node.fresh nextRawURL)) rawURL)
        p root).at? p = some m' ∧ m'.URL = m.URL ∧
      GoMap.get? m'.Links nextRawURL = some (Node.fresh nextRawURL) ∧
      GoMap.get? m'.Links rawURL = none ∧
      (∀ k, k ≠ nextRawURL → k ≠ rawURL → GoMap.get? m'.Links k = GoMap.get? m.Links k) := by
  refine ⟨_, Node.at?_modifyAt_self _ p root m hp, rfl, ?_, ?_, ?_⟩
  · simp only [Node.Links_mk, GoMap.get?_delete, GoMap.get?_set, hne, if_false, if_true]
  · simp only [Node.Links_mk, GoMap.get?_delete, if_true]
  · intro k h1 h2
    have h1' : ¬ nextRawURL = k := fun e => h1 e.symm
    have h2' : ¬ rawURL = k := fun e => h2 e.symm
    simp only [Node.Links_mk, GoMap.get?_delete, GoMap.get?_set, h1', h2', if_false]

/-- The rewrite of an accepted redirect `rawURL -> nextRawURL`, where
`rawURL` has the recorded parent P, `nextRawURL` has no parent-of entry and
the lookup of P made by the rewrite finds the node `r`.  The rewrite ends;
afterwards the parent of `nextRawURL` is P and every other parent-of entry is
as before; the node of P keeps its URL, has a fresh node with no links under
`nextRawURL`, no entry under `rawURL`, and its other links as before; and
every other node, except the one removed and the one added, is where it was
with its URL and the keys of its links as before. -/
theorem rewriteRedirect_frame (walk : Nat) (rawURL nextRawURL : String) (info : Info) (r : Ref)
    (hP : info.parentOf rawURL ≠ "") (hto : info.parentOf nextRawURL = "")
    (hnode : Info.GetNodeFromSitemap
      ⟨info.Sitemap, GoMap.set info.Parentmap nextRawURL (info.parentOf rawURL)⟩ walk
      (info.parentOf rawURL) = .ok (some r)) :
    ∃ info', rewriteRedirect walk rawURL nextRawURL info = .ok info' ∧
      info'.parentOf nextRawURL = info.parentOf rawURL ∧
      (∀ u, u ≠ nextRawURL → GoMap.get? info'.Parentmap u = GoMap.get? info.Parentmap u) ∧
      (∃ m', info'.Sitemap.at? r.path = some m' ∧ m'.URL = r.node.URL ∧
        GoMap.get? m'.Links nextRawURL = some (Node.fresh nextRawURL) ∧
        GoMap.get? m'.Links rawURL = none ∧
        (∀ k, k ≠ nextRawURL → k ≠ rawURL →
          GoMap.get? m'.Links k = GoMap.get? r.node.Links k)) ∧
      (∀ q, q ≠ r.path → ¬ (r.path ++ [nextRawURL]) <+: q → ¬ (r.path ++ [rawURL]) <+: q →
        (info'.Sitemap.at? q).map (fun m => (m.URL, GoMap.keys m.Links))
          = (info.Sitemap.at? q).map (fun m => (m.URL, GoMap.keys m.Links))) := by
  obtain ⟨hrw, hvalid⟩ := rewriteRedirect_spec walk rawURL nextRawURL info r hP hto hnode
  have hne : rawURL ≠ nextRawURL := fun e => hP (e ▸ hto)
  refine ⟨_, hrw, ?_, ?_, rewritten_parent rawURL nextRawURL hne info.Sitemap r.path r.node hvalid,
    ?_⟩
  · simp [Info.parentOf, GoMap.get?_set]
  · intro u hu
    have : ¬ nextRawURL = u := fun e => hu e.symm
    simp only [GoMap.get?_set, this, if_false]
  · intro q hq h1 h2
    by_cases hpre : r.path <+: q
    · obtain ⟨rest, hrest⟩ := hpre
      cases rest with
      | nil => exact absurd (by simpa using hrest.symm) hq
      | cons k q' =>
        have hk1 : k ≠ nextRawURL := by
          intro e
          apply h1
          rw [← hrest, e]
          exact ⟨q', by simp⟩
        have hk2 : k ≠ rawURL := by
          intro e
          apply h2
          rw [← hrest, e]
          exact ⟨q', by simp⟩
        have hk1' : ¬ nextRawURL = k := fun e => hk1 e.symm
        have hk2' : ¬ rawURL = k := fun e => hk2 e.symm
        rw [← hrest]
        simp only
        rw [Node.at?_modifyAt_below _ r.path info.Sitemap r.node k q' hvalid
          (by simp only [GoMap.get?_delete, GoMap.get?_set, hk1', hk2', if_false])]
    · exact Node.at?_modifyAt_off _ r.path info.Sitemap q hpre

/-- On the crawl of `TestSiteMap`, at the moment `S/redirect` answers with
the redirect to `S/after-redirect`: the rewrite puts `S/after-redirect` under
the seed, whose node is the root, in place of `S/redirect`. -/
theorem rewriteRedirect_frame_witness :
    ∃ info', rewriteRedirect 10 "S/redirect" "S/after-redirect"
        ⟨.mk "S" [("S/about", .mk "S/about" []), ("S/redirect", .mk "S/redirect" [])],
          [("S", "ROOT"), ("S/about", "S"), ("S/redirect", "S")]⟩ = .ok info' ∧
      info'.parentOf "S/after-redirect" = "S" ∧
      info'.Sitemap = .mk "S" [("S/about", .mk "S/about" []),
        ("S/after-redirect", .mk "S/after-redirect" [])] := by
  obtain ⟨info', h1, h2, _, _, _⟩ := rewriteRedirect_frame 10 "S/redirect" "S/after-redirect"
    ⟨.mk "S" [("S/about", .mk "S/about" []), ("S/redirect", .mk "S/redirect" [])],
      [("S", "ROOT"), ("S/about", "S"), ("S/redirect", "S")]⟩
    ⟨[], .mk "S" [("S/about", .mk "S/about" []), ("S/redirect", .mk "S/redirect" [])]⟩
    (by decide) (by decide) (by decide!)
  refine ⟨info', h1, h2, ?_⟩
  have h3 : rewriteRedirect 10 "S/redirect" "S/after-redirect"
      ⟨.mk "S" [("S/about", .mk "S/about" []), ("S/redirect", .mk "S/redirect" [])],
        [("S", "ROOT"), ("S/about", "S"), ("S/redirect", "S")]⟩
      = .ok ⟨.mk "S" [("S/about", .mk "S/about" []),
          ("S/after-redirect", .mk "S/after-redirect" [])],
        [("S", "ROOT"), ("S/about", "S"), ("S/redirect", "S"), ("S/after-redirect", "S")]⟩ := by
    decide!
  rw [h3] at h1
  cases h1
  rfl

/-! ## C10: the node of a redirected URL -/

/-- C10 fails as stated.  On `guardSite` the seed links to `S/r` and `S/t`
and `S/r` redirects to `S/t`: the redirect is accepted (`S/t` is queued once
more), but `S/t` already has a parent, nothing is rewritten, and `S/r` keeps
its node under the seed.  On `lateSite` the node of `S/r` under the seed is
replaced by `S/t`, and the page `S/a`, fetched afterwards, links to `S/r` and
gets a node for it. -/
theorem redirect_source_in_tree_counterexample :
    (runSteps oneHost 10 6 guardSite [0, 0] (CreateSiteMap.init "S")).map
        (fun s => (s.fetched, s.queue, s.info.Sitemap))
      = some (["S", "S/r"], ["S/t", "S/t"],
          Node.mk "S" [("S/r", Node.mk "S/r" []), ("S/t", Node.mk "S/t" [])]) ∧
    (runSteps oneHost 10 6 lateSite [0, 0] (CreateSiteMap.init "S")).map
        (fun s => (s.fetched, s.queue, s.info.Sitemap))
      = some (["S", "S/r"], ["S/a", "S/t"],
          Node.mk "S" [("S/a", Node.mk "S/a" []), ("S/t", Node.mk "S/t" [])]) ∧
    (runSteps oneHost 10 6 lateSite [0, 0, 0] (CreateSiteMap.init "S")).map
        (fun s => (s.fetched, s.queue, s.info.Sitemap))
      = some (["S", "S/r", "S/a"], ["S/t", "S/r"],
          Node.mk "S" [("S/a", Node.mk "S/a" [("S/r", Node.mk "S/r" [])]),
            ("S/t", Node.mk "S/t" [])]) :=
  ⟨by decide!, by decide!, by decide!⟩

/-- C10 (amended): when `crawl` gets for `rawURL` a response with a status
between 301 and 399 whose location, resolved and normalized to `next`, is on
the same host and differs from `rawURL`, and `rawURL` has a recorded parent,
`next` has no parent-of entry and the lookup of the parent made by the rewrite
finds the node `r`, then `crawl` returns an error and no links, and in the
stores it leaves the node of the parent has no link to `rawURL` and a fresh
node for `next`. -/
theorem crawl_redirect_unlinks_source (L : UrlPkg) (net : Nat → Response) (walk fuel n : Nat)
    (rawURL next : String) (d : Int) (s : Stores) (sl : List Int) (cur parsed : URL) (r : Ref)
    (hf : (net n).failed = false) (hp : L.Parse rawURL = some cur)
    (hcode : (net n).StatusCode > 300 ∧ (net n).StatusCode < 400)
    (hloc : L.Parse (net n).location = some parsed)
    (hnext : next = NormalizeURL (L.Str (resolveIfRelativePath L cur parsed)))
    (hacc : next ≠ rawURL ∧ cur.Host = (resolveIfRelativePath L cur parsed).Host)
    (hP : s.info.parentOf rawURL ≠ "") (hto : s.info.parentOf next = "")
    (hnode : Info.GetNodeFromSitemap
      ⟨s.info.Sitemap, GoMap.set s.info.Parentmap next (s.info.parentOf rawURL)⟩ walk
      (s.info.parentOf rawURL) = .ok (some r)) :
    ∃ out, crawl L net walk (fuel + 1) n rawURL d s sl = .ok out ∧
      out.links = [] ∧ out.err = some (.redirect (net n).StatusCode) ∧
      ∃ m', out.stores.info.Sitemap.at? r.path = some m' ∧
        GoMap.get? m'.Links rawURL = none ∧
        GoMap.get? m'.Links next = some (Node.fresh next) := by
  obtain ⟨hrw, hvalid⟩ := rewriteRedirect_spec walk rawURL next s.info r hP hto hnode
  obtain ⟨m', hm1, _, hm3, hm4, _⟩ :=
    rewritten_parent rawURL next (fun e => hacc.1 e.symm) s.info.Sitemap r.path r.node hvalid
  subst hnext
  have hcr : crawl L net walk (fuel + 1) n rawURL d s sl
      = .ok ⟨{ s with
              toVisit := GoMap.set s.toVisit
                (NormalizeURL (L.Str (resolveIfRelativePath L cur parsed))) true
              queue := s.queue ++ [NormalizeURL (L.Str (resolveIfRelativePath L cur parsed))]
              info := ⟨Node.modifyAt
                  (fun ls => GoMap.delete
                    (GoMap.set ls (NormalizeURL (L.Str (resolveIfRelativePath L cur parsed)))
                      (Node.fresh (NormalizeURL (L.Str (resolveIfRelativePath L cur parsed)))))
                    rawURL)
                  r.path s.info.Sitemap,
                GoMap.set s.info.Parentmap
                  (NormalizeURL (L.Str (resolveIfRelativePath L cur parsed)))
                  (s.info.parentOf rawURL)⟩ },
          [], some (.redirect (net n).StatusCode), sl, n + 1⟩ := by
    rw [crawl]
    simp only [hf, hp, hcode, hloc, hacc, hrw, Bool.false_eq_true, if_false, if_true, and_self,
      ne_eq, not_false_eq_true]
  exact ⟨_, hcr, rfl, rfl, m', hm1, hm4, hm3⟩

/-- C10 (amended) on `lateSite`, when `S/r`, a child of the seed, answers
with the redirect to `S/t`. -/
theorem crawl_redirect_unlinks_source_witness :
    ∃ out, crawl oneHost (fun _ => answer 301 "S/t") 10 6 0 "S/r" 1 lateSiteSeeded [] = .ok out ∧
      out.links = [] ∧ out.err = some (.redirect 301) ∧
      ∃ m', out.stores.info.Sitemap.at? [] = some m' ∧
        GoMap.get? m'.Links "S/r" = none ∧
        GoMap.get? m'.Links "S/t" = some (Node.fresh "S/t") :=
  crawl_redirect_unlinks_source oneHost (fun _ => answer 301 "S/t") 10 5 0 "S/r" "S/t" 1
    lateSiteSeeded [] ⟨"http", "h", "S/r"⟩ ⟨"http", "h", "S/t"⟩ ⟨[], lateSiteSeeded.info.Sitemap⟩
    rfl rfl (by decide) rfl (by decide) (by decide) (by decide) (by decide) (by decide!)

/-! ## C15 and C16: NormalizeURL -/

theorem IndexAny_nonneg (cs chars : List Char) : IndexAny cs chars = -1 ∨ 0 ≤ IndexAny cs chars := by
  induction cs with
  | nil => exact Or.inl rfl
  | cons c rest ih =>
    simp only [IndexAny]
    split
    · exact Or.inr (le_refl 0)
    · split
      · exact Or.inl rfl
      · rcases ih with h | h
        · contradiction
        · exact Or.inr (by omega)

theorem IndexAny_cons_pos (c : Char) (cs chars : List Char) (h : chars.contains c = true) :
    IndexAny (c :: cs) chars = 0 := by
  rw [IndexAny, if_pos h]

theorem IndexAny_cons_neg (c : Char) (cs chars : List Char) (h : chars.contains c = false) :
    IndexAny (c :: cs) chars
      = if IndexAny cs chars = -1 then -1 else IndexAny cs chars + 1 := by
  rw [IndexAny, if_neg (by rw [h]; exact Bool.false_ne_true)]

theorem contains_query_or_fragment (c : Char) :
    ['?', '#'].contains c = (c == '?' || c == '#') := by
  by_cases h1 : c = '?'
  · subst h1; rfl
  · by_cases h2 : c = '#'
    · subst h2; rfl
    · have e1 : (c == '?') = false := by simpa using h1
      have e2 : (c == '#') = false := by simpa using h2
      rw [e1, e2]
      simp only [List.contains, List.elem, e1, e2]
      rfl

theorem take_IndexAny (cs : List Char) :
    (if IndexAny cs ['?', '#'] ≠ -1 then cs.take (IndexAny cs ['?', '#']).toNat else cs)
      = cs.takeWhile (fun c => !(c == '?' || c == '#')) := by
  induction cs with
  | nil => rfl
  | cons c rest ih =>
    by_cases hc : (c == '?' || c == '#') = true
    · have hcont : ['?', '#'].contains c = true := by rw [contains_query_or_fragment, hc]
      rw [IndexAny_cons_pos c rest _ hcont, if_pos (by decide)]
      simp only [List.takeWhile, hc, Bool.not_true]
      rfl
    · have hc2 : (c == '?' || c == '#') = false := by simpa using hc
      have hcont : ['?', '#'].contains c = false := by rw [contains_query_or_fragment, hc2]
      rw [IndexAny_cons_neg c rest _ hcont]
      simp only [List.takeWhile, hc2, Bool.not_false]
      by_cases hi : IndexAny rest ['?', '#'] = -1
      · rw [if_pos hi, if_neg (by simp)]
        rw [if_neg (by simpa using hi)] at ih
        rw [← ih]
      · have hpos : 0 ≤ IndexAny rest ['?', '#'] := by
          rcases IndexAny_nonneg rest ['?', '#'] with h | h
          · exact absurd h hi
          · exact h
        have hne : IndexAny rest ['?', '#'] + 1 ≠ -1 := by omega
        rw [if_neg hi, if_pos hne]
        rw [if_pos hi] at ih
        have e : (IndexAny rest ['?', '#'] + 1).toNat = (IndexAny rest ['?', '#']).toNat + 1 := by
          omega
        rw [e, List.take_succ_cons, ih]

theorem NormalizeURL_data (s : String) :
    (NormalizeURL s).data = s.data.takeWhile (fun c => !(c == '?' || c == '#')) := rfl

/-- C15: for every string `s`, `NormalizeURL(s)` is what the source computes
with `strings.IndexAny` and a slice; it is a prefix of `s`, what follows it in
`s` is empty or starts with `?` or `#`, it contains neither `?` nor `#`, and it
is `s` itself when `s` contains neither. -/
theorem NormalizeURL_prefix_before_query_or_fragment (s : String) :
    NormalizeURL s = NormalizeURLByIndex s ∧
    (∃ rest : List Char, s.data = (NormalizeURL s).data ++ rest ∧
      ∀ c, rest.head? = some c → c = '?' ∨ c = '#') ∧
    (∀ c, c ∈ (NormalizeURL s).data → c ≠ '?' ∧ c ≠ '#') ∧
    ((∀ c, c ∈ s.data → c ≠ '?' ∧ c ≠ '#') → NormalizeURL s = s) := by
  refine ⟨?_, ⟨s.data.dropWhile (fun c => !(c == '?' || c == '#')), ?_, ?_⟩, ?_, ?_⟩
  · have h := take_IndexAny s.data
    unfold NormalizeURLByIndex NormalizeURL
    simp only
    split
    · rename_i hi
      rw [if_pos hi] at h
      rw [h]
    · rename_i hi
      rw [if_neg hi] at h
      rw [← h]
  · rw [NormalizeURL_data, List.takeWhile_append_dropWhile]
  · intro c hc
    have hmem : c ∈ s.data.dropWhile (fun c => !(c == '?' || c == '#')) :=
      List.mem_of_mem_head? hc
    have := List.head?_dropWhile_not (fun c => !(c == '?' || c == '#')) s.data
    rw [hc] at this
    have h2 : ¬ c = '?' → c = '#' := by simpa using this
    by_cases h1 : c = '?'
    · exact Or.inl h1
    · exact Or.inr (h2 h1)
  · intro c hc
    rw [NormalizeURL_data] at hc
    have := List.mem_takeWhile_imp hc
    simp only [Bool.not_eq_true', Bool.or_eq_false_iff, beq_eq_false_iff_ne, ne_eq] at this
    exact this
  · intro h
    have hall : s.data.takeWhile (fun c => !(c == '?' || c == '#')) = s.data := by
      rw [List.takeWhile_eq_self_iff]
      intro c hc
      have := h c hc
      simp [this.1, this.2]
    show String.mk _ = s
    rw [hall]

theorem takeWhile_takeWhile_self {α : Type} (p : α → Bool) (l : List α) :
    (l.takeWhile p).takeWhile p = l.takeWhile p := by
  induction l with
  | nil => rfl
  | cons a rest ih =>
    by_cases h : p a = true
    · simp only [List.takeWhile, h, ih]
    · have h2 : p a = false := by simpa using h
      simp only [List.takeWhile, h2]

/-- C16: `NormalizeURL` is idempotent: for every string `s`,
`NormalizeURL(NormalizeURL(s)) = NormalizeURL(s)`. -/
theorem NormalizeURL_idempotent (s : String) : NormalizeURL (NormalizeURL s) = NormalizeURL s := by
  show String.mk (( String.mk (s.data.takeWhile _)).data.takeWhile _) = String.mk (s.data.takeWhile _)
  rw [takeWhile_takeWhile_self]

/-! ## C13 and C14: the writer -/

theorem foldl_append_init (l : List String) (init : String) :
    l.foldl (fun r s => r ++ s) init = init ++ l.foldl (fun r s => r ++ s) "" := by
  induction l generalizing init with
  | nil => simp
  | cons a l ih =>
    rw [List.foldl_cons, List.foldl_cons, ih (init ++ a), ih ("" ++ a), String.empty_append,
      String.append_assoc]

theorem join_cons (a : String) (l : List String) : String.join (a :: l) = a ++ String.join l := by
  unfold String.join
  rw [List.foldl_cons, foldl_append_init, String.empty_append]

theorem join_append (l₁ l₂ : List String) :
    String.join (l₁ ++ l₂) = String.join l₁ ++ String.join l₂ := by
  induction l₁ with
  | nil => simp [String.join]
  | cons a l ih => rw [List.cons_append, join_cons, join_cons, ih, String.append_assoc]

theorem foldl_append_join (f g : String → String) (l : List String) (init : String) :
    l.foldl (fun r k => r ++ f k ++ g k) init = init ++ String.join (l.map (fun k => f k ++ g k)) := by
  induction l generalizing init with
  | nil => simp [String.join]
  | cons a l ih =>
    rw [List.foldl_cons, ih, List.map_cons, join_cons]
    simp only [String.append_assoc]

theorem get?_PrettifyLinks (ls : List (String × Node)) (d : Int) (k : String) :
    GoMap.get? (PrettifyLinks ls d) k = (GoMap.get? ls k).map (fun v => PrettifySiteMap v d) := by
  induction ls with
  | nil => simp [PrettifyLinks, GoMap.get?]
  | cons e rest ih =>
    obtain ⟨k', v⟩ := e
    simp only [PrettifyLinks, GoMap.get?]
    split
    · rfl
    · exact ih

theorem mem_sortStrings (keys : List String) (k : String) : k ∈ sortStrings keys ↔ k ∈ keys :=
  (List.perm_insertionSort _ keys).mem_iff

/-- The shape of the output: the line of the node when `depth == 0`, then for
each child in sorted order its line followed by the output for the child. -/
theorem PrettifySiteMap_eq (u : String) (ls : List (String × Node)) (d : Int) :
    PrettifySiteMap (Node.mk u ls) d
      = (if d = 0 then tabsOf d ++ u ++ "\n" else "") ++
        String.join ((sortedLinks ls).map
          (fun e => ("\t" ++ tabsOf d ++ e.1 ++ "\n") ++ PrettifySiteMap e.2 (d + 1))) := by
  rw [PrettifySiteMap]
  rw [foldl_append_join (fun k => "\t" ++ tabsOf d ++ k ++ "\n")
    (fun k => (GoMap.get? (PrettifyLinks ls (d + 1)) k).getD "")]
  congr 1
  rw [sortedLinks, List.map_map]
  congr 1
  apply List.map_congr_left
  intro k hk
  rw [mem_sortStrings] at hk
  simp only [Function.comp]
  congr 1
  rw [get?_PrettifyLinks]
  cases hg : GoMap.get? ls k with
  | none => exact absurd hk ((GoMap.get?_eq_none_iff ls k).1 hg)
  | some v => rfl

theorem get?_of_mem_nodup {β : Type} (m : List (String × β)) (k : String) (v : β)
    (hn : (GoMap.keys m).Nodup) (h : (k, v) ∈ m) : GoMap.get? m k = some v := by
  induction m with
  | nil => simp at h
  | cons e rest ih =>
    obtain ⟨k', v'⟩ := e
    simp only [GoMap.keys, List.map_cons, List.nodup_cons] at hn
    simp only [GoMap.get?]
    rcases List.mem_cons.1 h with h | h
    · cases h
      simp
    · have hne : k' ≠ k := by
        intro e
        subst e
        exact hn.1 (List.mem_map_of_mem Prod.fst h)
      rw [if_neg hne]
      exact ih hn.2 h

theorem sortedLinks_keys (ls : List (String × Node)) :
    (sortedLinks ls).map Prod.fst = sortStrings (GoMap.keys ls) := by
  rw [sortedLinks, List.map_map]
  exact List.map_id _

theorem sortStrings_sorted (keys : List String) : (sortStrings keys).Sorted (fun a b => a ≤ b) :=
  List.sorted_insertionSort _ keys

theorem sortStrings_strict (keys : List String) (h : keys.Nodup) :
    (sortStrings keys).Sorted (fun a b => a < b) := by
  have h1 := sortStrings_sorted keys
  have h2 : (sortStrings keys).Nodup := (List.perm_insertionSort _ keys).nodup_iff.2 h
  exact List.Sorted.lt_of_le h1 h2

theorem sortedLinks_perm (ls : List (String × Node)) (hn : (GoMap.keys ls).Nodup) :
    (sortedLinks ls).Perm ls := by
  have h1 : (sortedLinks ls).Perm
      ((GoMap.keys ls).map (fun k => (k, (GoMap.get? ls k).getD (Node.fresh "")))) :=
    List.Perm.map _ (List.perm_insertionSort _ _)
  have h2 : (GoMap.keys ls).map (fun k => (k, (GoMap.get? ls k).getD (Node.fresh ""))) = ls := by
    rw [GoMap.keys, List.map_map]
    conv_rhs => rw [← List.map_id ls]
    apply List.map_congr_left
    intro e he
    obtain ⟨k, v⟩ := e
    simp only [Function.comp, id]
    rw [get?_of_mem_nodup ls k v hn he]
    rfl
  rw [h2] at h1
  exact h1

theorem sortStrings_congr (l l' : List String) (h1 : l.Nodup) (h2 : l'.Nodup)
    (h : ∀ k, k ∈ l ↔ k ∈ l') : sortStrings l = sortStrings l' := by
  have hp : l.Perm l' := (List.perm_ext_iff_of_nodup h1 h2).2 h
  have hq : (sortStrings l).Perm (sortStrings l') :=
    ((List.perm_insertionSort _ l).trans hp).trans (List.perm_insertionSort _ l').symm
  exact List.eq_of_perm_of_sorted hq (sortStrings_sorted l) (sortStrings_sorted l')

theorem PrettifySiteMap_same {n n' : Node} (hs : Node.Same n n') :
    n.Keyed → n'.Keyed → ∀ d : Int, PrettifySiteMap n d = PrettifySiteMap n' d := by
  induction hs with
  | mk u ls ls' hk hc ih =>
    intro hn hn' d
    obtain ⟨hnd, -, hkc⟩ := Node.keyed_links hn
    obtain ⟨hnd', -, hkc'⟩ := Node.keyed_links hn'
    simp only [Node.Links_mk] at hnd hnd' hkc hkc'
    rw [PrettifySiteMap_eq, PrettifySiteMap_eq]
    congr 2
    rw [sortedLinks, sortedLinks, List.map_map, List.map_map, ← sortStrings_congr _ _ hnd hnd' hk]
    apply List.map_congr_left
    intro k hk1
    rw [mem_sortStrings] at hk1
    have hk2 : k ∈ GoMap.keys ls' := (hk k).1 hk1
    simp only [Function.comp]
    congr 1
    cases hg : GoMap.get? ls k with
    | none => exact absurd hk1 ((GoMap.get?_eq_none_iff ls k).1 hg)
    | some c =>
      cases hg' : GoMap.get? ls' k with
      | none => exact absurd hk2 ((GoMap.get?_eq_none_iff ls' k).1 hg')
      | some c' =>
        have hm := GoMap.mem_of_get? ls k c hg
        have hm' := GoMap.mem_of_get? ls' k c' hg'
        exact ih (k, c) hm (k, c') hm' rfl (hkc _ hm) (hkc' _ hm') (d + 1)

theorem levels_eq (n : Node) (d : Nat) :
    n.levels d = (d, n.URL) :: Node.levelsOfLinks n.Links (d + 1) := by
  cases n with
  | mk u ls => simp [Node.levels]

theorem levelsOfLinks_perm {cs cs' : List (String × Node)} (h : cs.Perm cs') (d : Nat) :
    (Node.levelsOfLinks cs d).Perm (Node.levelsOfLinks cs' d) := by
  induction h with
  | nil => exact List.Perm.refl _
  | cons e _ ih =>
    obtain ⟨k, c⟩ := e
    simp only [Node.levelsOfLinks]
    exact List.Perm.append_left _ ih
  | swap e e' l =>
    obtain ⟨k, c⟩ := e
    obtain ⟨k', c'⟩ := e'
    simp only [Node.levelsOfLinks]
    rw [← List.append_assoc, ← List.append_assoc]
    exact List.Perm.append_right _ List.perm_append_comm
  | trans _ _ ih1 ih2 => exact ih1.trans ih2

/-- The line of a node at depth `d`: `d` tabs, the URL, a newline. -/
theorem tab_line (d : Nat) (k : String) :
    "\t" ++ tabsOf (d : Int) ++ k ++ "\n" = String.mk (List.replicate (d + 1) '\t') ++ k ++ "\n" := by
  have : "\t" ++ tabsOf (d : Int) = String.mk (List.replicate (d + 1) '\t') := by
    simp only [tabsOf, Int.toNat_ofNat, List.replicate_succ]
    rfl
  rw [this]

theorem blocks_lines (d : Nat) (cs : List (String × Node))
    (h : ∀ e ∈ cs, e.2.URL = e.1 ∧ ∃ below : List (Nat × String),
      below.Perm (Node.levelsOfLinks e.2.Links (d + 2)) ∧
      PrettifySiteMap e.2 ((d : Int) + 1)
        = String.join (below.map (fun p => String.mk (List.replicate p.1 '\t') ++ p.2 ++ "\n"))) :
    ∃ below : List (Nat × String), below.Perm (Node.levelsOfLinks cs (d + 1)) ∧
      String.join (cs.map
          (fun e => ("\t" ++ tabsOf (d : Int) ++ e.1 ++ "\n") ++ PrettifySiteMap e.2 ((d : Int) + 1)))
        = String.join (below.map (fun p => String.mk (List.replicate p.1 '\t') ++ p.2 ++ "\n")) := by
  induction cs with
  | nil => exact ⟨[], List.Perm.refl _, rfl⟩
  | cons e rest ih =>
    obtain ⟨hu, be, hbe, hpe⟩ := h e (List.mem_cons_self _ _)
    obtain ⟨br, hbr, hpr⟩ := ih (fun e he => h e (List.mem_cons_of_mem _ he))
    obtain ⟨k, c⟩ := e
    simp only at hu hbe hpe
    refine ⟨((d + 1, c.URL) :: be) ++ br, ?_, ?_⟩
    · simp only [Node.levelsOfLinks]
      rw [levels_eq]
      exact List.Perm.append (List.Perm.cons _ hbe) hbr
    · rw [List.map_cons, join_cons, hpr, List.map_append, join_append, List.map_cons, join_cons,
        hpe, tab_line, hu]

theorem below_lines {n : Node} (hn : n.Keyed) :
    ∀ d : Nat, ∃ below : List (Nat × String), below.Perm (Node.levelsOfLinks n.Links (d + 1)) ∧
      String.join ((sortedLinks n.Links).map
          (fun e => ("\t" ++ tabsOf (d : Int) ++ e.1 ++ "\n") ++ PrettifySiteMap e.2 ((d : Int) + 1)))
        = String.join (below.map (fun p => String.mk (List.replicate p.1 '\t') ++ p.2 ++ "\n")) := by
  induction hn with
  | mk u ls hk hu hc ih =>
    intro d
    simp only [Node.Links_mk]
    have hperm := sortedLinks_perm ls hk
    obtain ⟨below, hb, hp⟩ := blocks_lines d (sortedLinks ls) (by
      intro e he
      have hm : e ∈ ls := hperm.mem_iff.1 he
      refine ⟨hu e hm, ?_⟩
      obtain ⟨b, hb1, hb2⟩ := ih e hm (d + 1)
      refine ⟨b, hb1, ?_⟩
      obtain ⟨k, c⟩ := e
      cases c with
      | mk cu cls =>
        rw [PrettifySiteMap_eq, if_neg (by omega), String.empty_append]
        simp only [Node.Links_mk, Nat.cast_add, Nat.cast_one] at hb2
        exact hb2)
    exact ⟨below, hb.trans (levelsOfLinks_perm hperm _), hp⟩

theorem keyed_leaf (u : String) : Node.Keyed (Node.mk u []) :=
  Node.Keyed.mk u [] (by simp [GoMap.keys]) (by simp) (by simp)

theorem keyed_one (u k : String) (c : Node) (hu : c.URL = k) (hc : c.Keyed) :
    Node.Keyed (Node.mk u [(k, c)]) :=
  Node.Keyed.mk u _ (by simp [GoMap.keys]) (by simpa using hu) (by simpa using hc)

theorem keyed_two (u k k' : String) (c c' : Node) (hne : k ≠ k') (hu : c.URL = k)
    (hu' : c'.URL = k') (hc : c.Keyed) (hc' : c'.Keyed) :
    Node.Keyed (Node.mk u [(k, c), (k', c')]) :=
  Node.Keyed.mk u _ (by simpa [GoMap.keys] using hne) (by simpa using ⟨hu, hu'⟩)
    (by simpa using ⟨hc, hc'⟩)

theorem same_refl (n : Node) (hn : n.Keyed) : Node.Same n n := by
  induction hn with
  | mk u ls hk hu hc ih =>
    refine Node.Same.mk u ls ls (fun _ => Iff.rfl) ?_
    intro e he e' he' hee
    obtain ⟨k, c⟩ := e
    obtain ⟨k', c'⟩ := e'
    simp only at hee
    subst hee
    have h1 := get?_of_mem_nodup ls k c hk he
    have h2 := get?_of_mem_nodup ls k c' hk he'
    rw [h1] at h2
    cases h2
    exact ih _ he

theorem writerTestTree_keyed : Node.Keyed writerTestTree :=
  keyed_two _ _ _ _ _ (by decide) rfl rfl
    (keyed_one _ _ _ rfl (keyed_leaf _))
    (keyed_one _ _ _ rfl (keyed_one _ _ _ rfl (keyed_leaf _)))

theorem writerTestTreeSwapped_keyed : Node.Keyed writerTestTreeSwapped :=
  keyed_two _ _ _ _ _ (by decide) rfl rfl
    (keyed_one _ _ _ rfl (keyed_one _ _ _ rfl (keyed_leaf _)))
    (keyed_one _ _ _ rfl (keyed_leaf _))

theorem writerTestTree_same : Node.Same writerTestTree writerTestTreeSwapped := by
  have ha : Node.Keyed (.mk "https://example.com/another"
      [("https://example.com/something-under-another",
        .mk "https://example.com/something-under-another" [])]) :=
    keyed_one _ _ _ rfl (keyed_leaf _)
  have hb : Node.Keyed (.mk "https://example.com/about"
      [("https://example.com/faq", .mk "https://example.com/faq"
        [("https://example.com/about", .mk "https://example.com/about" [])])]) :=
    keyed_one _ _ _ rfl (keyed_one _ _ _ rfl (keyed_leaf _))
  refine Node.Same.mk _ _ _ (fun k => ?_) ?_
  · simp only [GoMap.keys, List.map_cons, List.map_nil, List.mem_cons, List.mem_singleton,
      List.not_mem_nil, or_false]
    exact or_comm
  · intro e he e' he' hee
    simp only [List.mem_cons, List.mem_singleton, List.not_mem_nil, or_false] at he he'
    rcases he with rfl | rfl <;> rcases he' with rfl | rfl
    · exact absurd hee (by decide)
    · exact same_refl _ ha
    · exact same_refl _ hb
    · exact absurd hee (by decide)

/-- C13: for every sitemap tree `n` (each node holding every child once, under
the URL of the child) and every depth, the output of `PrettifySiteMap` is the
line of the node (at depth 0) followed by one block per child, the blocks in
strictly ascending order of the keys, each block being the line of the child
immediately followed by the whole output for the child; and a tree `n'` that
differs from `n` only in the order in which children are stored gives the same
output. -/
theorem PrettifySiteMap_children_sorted (n n' : Node) (depth : Int) (hn : n.Keyed)
    (hn' : n'.Keyed) (hs : Node.Same n n') :
    (∃ children : List (String × Node), children.Perm n.Links ∧
      (children.map Prod.fst).Sorted (fun a b => a < b) ∧
      PrettifySiteMap n depth
        = (if depth = 0 then tabsOf depth ++ n.URL ++ "\n" else "") ++
          String.join (children.map
            (fun e => ("\t" ++ tabsOf depth ++ e.1 ++ "\n") ++ PrettifySiteMap e.2 (depth + 1)))) ∧
    PrettifySiteMap n depth = PrettifySiteMap n' depth := by
  refine ⟨?_, PrettifySiteMap_same hs hn hn' depth⟩
  cases n with
  | mk u ls =>
    obtain ⟨hnd, -, -⟩ := Node.keyed_links hn
    simp only [Node.Links_mk] at hnd
    refine ⟨sortedLinks ls, sortedLinks_perm ls hnd, ?_, PrettifySiteMap_eq u ls depth⟩
    rw [sortedLinks_keys]
    exact sortStrings_strict _ hnd

/-- The tree of `TestPrettifySiteMap` and the same tree with the children of
the root stored in the other order. -/
theorem PrettifySiteMap_children_sorted_witness :
    writerTestTree.Keyed ∧ writerTestTreeSwapped.Keyed ∧
    Node.Same writerTestTree writerTestTreeSwapped ∧
    PrettifySiteMap writerTestTree 0 = PrettifySiteMap writerTestTreeSwapped 0 :=
  ⟨writerTestTree_keyed, writerTestTreeSwapped_keyed, writerTestTree_same,
    (PrettifySiteMap_children_sorted writerTestTree writerTestTreeSwapped 0 writerTestTree_keyed
      writerTestTreeSwapped_keyed writerTestTree_same).2⟩

/-- C14: for every sitemap tree `n` (each node holding every child once, under
the URL of the child), `PrettifySiteMap(n, 0)` is the concatenation of lines,
one for each node of the tree: the first is the URL of the root with no tab,
and the line of a node at depth `d` is `d` tabs, the URL of the node and a
newline; a root without links gives its URL and one newline. -/
theorem PrettifySiteMap_one_line_per_node (n : Node) (hn : n.Keyed) :
    (∃ outline : List (Nat × String), outline.Perm (n.levels 0) ∧
      outline.head? = some (0, n.URL) ∧
      PrettifySiteMap n 0
        = String.join (outline.map
            (fun p => String.mk (List.replicate p.1 '\t') ++ p.2 ++ "\n"))) ∧
    (n.Links = [] → PrettifySiteMap n 0 = n.URL ++ "\n") := by
  constructor
  · obtain ⟨below, hb, hp⟩ := below_lines hn 0
    refine ⟨(0, n.URL) :: below, ?_, rfl, ?_⟩
    · rw [levels_eq]
      exact List.Perm.cons _ hb
    · cases n with
      | mk u ls =>
        rw [PrettifySiteMap_eq, if_pos rfl, List.map_cons, join_cons]
        simp only [Node.Links_mk, Nat.cast_zero, zero_add] at hp
        simp only [zero_add]
        rw [hp]
        rfl
  · intro hl
    cases n with
    | mk u ls =>
      simp only [Node.Links_mk] at hl
      subst hl
      rfl

/-- The tree of `TestPrettifySiteMap` gives the output the test expects, six
lines for six nodes. -/
theorem PrettifySiteMap_one_line_per_node_witness :
    writerTestTree.Keyed ∧ PrettifySiteMap writerTestTree 0 = writerTestExpected ∧
    ∃ outline : List (Nat × String), outline.Perm (writerTestTree.levels 0) ∧
      PrettifySiteMap writerTestTree 0
        = String.join (outline.map
            (fun p => String.mk (List.replicate p.1 '\t') ++ p.2 ++ "\n")) :=
  ⟨writerTestTree_keyed, by decide!,
    (PrettifySiteMap_one_line_per_node writerTestTree writerTestTree_keyed).1.elim
      (fun o h => ⟨o, h.1, h.2.2⟩)⟩

/-! ## C17: GetDomainLinks -/

theorem LinkSet_get? (links : List (String × Bool)) (h : LinkSet links) (x : String) :
    (GoMap.get? links x).getD false = false ↔ x ∉ GoMap.keys links := by
  cases hg : GoMap.get? links x with
  | none =>
    simp only [Option.getD_none, true_iff]
    exact (GoMap.get?_eq_none_iff links x).1 hg
  | some b =>
    have hm := GoMap.mem_of_get? links x b hg
    have hb : b = true := h.2 _ hm
    subst hb
    simp only [Option.getD_some, Bool.true_eq_false, false_iff, not_not]
    exact GoMap.mem_keys_of_get? links x true hg

theorem LinkSet_set (links : List (String × Bool)) (h : LinkSet links) (x : String) :
    LinkSet (GoMap.set links x true) := by
  refine ⟨GoMap.nodup_keys_set _ _ _ h.1, ?_⟩
  intro e he
  rcases GoMap.mem_set _ _ _ _ he with h1 | h1
  · rw [h1]
  · exact h.2 e h1

theorem scanAttrs_spec (L : UrlPkg) (current : URL) :
    ∀ (attrs : List (String × String)) (links : List (String × Bool)),
      (∀ a ∈ attrs, a.1 = "href" → (L.Parse a.2).isSome = true) → LinkSet links →
      ∃ links', scanAttrs L current attrs links = .ok links' ∧ LinkSet links' ∧
        ∀ x, x ∈ GoMap.keys links' ↔ x ∈ GoMap.keys links ∨
          ∃ h ∈ (attrs.filter (fun a => a.1 == "href")).map Prod.snd, ∃ parsed,
            L.Parse h = some parsed ∧
            (resolvedHref L current parsed).Host = current.Host ∧
            (resolvedHref L current parsed).Scheme = current.Scheme ∧
            x = NormalizeURL (L.Str (resolvedHref L current parsed)) := by
  intro attrs
  induction attrs with
  | nil =>
    intro links _ hl
    exact ⟨links, rfl, hl, fun x => by simp⟩
  | cons a more ih =>
    intro links hp hl
    obtain ⟨key, val⟩ := a
    have hp' : ∀ a ∈ more, a.1 = "href" → (L.Parse a.2).isSome = true :=
      fun a ha => hp a (List.mem_cons_of_mem _ ha)
    by_cases hkey : key = "href"
    · subst hkey
      have hsome := hp ("href", val) (List.mem_cons_self _ _) rfl
      obtain ⟨parsed, hparsed⟩ := Option.isSome_iff_exists.1 hsome
      have hfilter : (("href", val) :: more).filter (fun a => a.1 == "href")
          = ("href", val) :: more.filter (fun a => a.1 == "href") := by
        rw [List.filter_cons_of_pos]
        simp
      rw [hfilter]
      simp only [scanAttrs, if_true, hparsed]
      have hres : (if (resolveIfRelativePath L current parsed).Host = current.Host ∧
            (resolveIfRelativePath L current parsed).Scheme = "" then
            { resolveIfRelativePath L current parsed with Scheme := current.Scheme }
          else resolveIfRelativePath L current parsed) = resolvedHref L current parsed := rfl
      rw [hres]
      by_cases hkeep : (GoMap.get? links (NormalizeURL (L.Str (resolvedHref L current parsed)))).getD
            false = false ∧ (resolvedHref L current parsed).Host = current.Host ∧
            (resolvedHref L current parsed).Scheme = current.Scheme
      · rw [if_pos hkeep]
        obtain ⟨links', h1, h2, h3⟩ := ih (GoMap.set links _ true) hp' (LinkSet_set links hl _)
        refine ⟨links', h1, h2, ?_⟩
        intro x
        rw [h3, GoMap.mem_keys_set]
        constructor
        · rintro ((hx | hx) | ⟨h, hh, p, hp1, hp2, hp3, hp4⟩)
          · exact Or.inr ⟨val, List.mem_cons_self _ _, parsed, hparsed, hkeep.2.1, hkeep.2.2, hx⟩
          · exact Or.inl hx
          · exact Or.inr ⟨h, List.mem_cons_of_mem _ hh, p, hp1, hp2, hp3, hp4⟩
        · rintro (hx | ⟨h, hh, p, hp1, hp2, hp3, hp4⟩)
          · exact Or.inl (Or.inr hx)
          · rw [List.map_cons] at hh
            rcases List.mem_cons.1 hh with hh | hh
            · subst hh
              rw [hparsed] at hp1
              cases hp1
              exact Or.inl (Or.inl hp4)
            · exact Or.inr ⟨h, hh, p, hp1, hp2, hp3, hp4⟩
      · rw [if_neg hkeep]
        obtain ⟨links', h1, h2, h3⟩ := ih links hp' hl
        refine ⟨links', h1, h2, ?_⟩
        intro x
        rw [h3]
        constructor
        · rintro (hx | ⟨h, hh, p, hp1, hp2, hp3, hp4⟩)
          · exact Or.inl hx
          · exact Or.inr ⟨h, List.mem_cons_of_mem _ hh, p, hp1, hp2, hp3, hp4⟩
        · rintro (hx | ⟨h, hh, p, hp1, hp2, hp3, hp4⟩)
          · exact Or.inl hx
          · rw [List.map_cons] at hh
            rcases List.mem_cons.1 hh with hh | hh
            · subst hh
              rw [hparsed] at hp1
              cases hp1
              left
              by_contra hx
              apply hkeep
              refine ⟨?_, hp2, hp3⟩
              rw [LinkSet_get? links hl, ← hp4]
              exact hx
            · exact Or.inr ⟨h, hh, p, hp1, hp2, hp3, hp4⟩
    · have hfilter : ((key, val) :: more).filter (fun a => a.1 == "href")
          = more.filter (fun a => a.1 == "href") := by
        rw [List.filter_cons_of_neg]
        simpa using hkey
      rw [hfilter]
      simp only [scanAttrs, if_neg hkey]
      exact ih links hp' hl

theorem scanTokens_spec (L : UrlPkg) (current : URL) :
    ∀ (tokens : List Token) (links : List (String × Bool)),
      (∀ h ∈ anchorHrefs tokens, (L.Parse h).isSome = true) → LinkSet links →
      ∃ out, scanTokens L current "EOF" tokens links = .ok out ∧ out.Nodup ∧
        ∀ x, x ∈ out ↔ x ∈ GoMap.keys links ∨
          ∃ h ∈ anchorHrefs tokens, ∃ parsed,
            L.Parse h = some parsed ∧
            (resolvedHref L current parsed).Host = current.Host ∧
            (resolvedHref L current parsed).Scheme = current.Scheme ∧
            x = NormalizeURL (L.Str (resolvedHref L current parsed)) := by
  intro tokens
  induction tokens with
  | nil =>
    intro links _ hl
    refine ⟨GoMap.keys links, ?_, hl.1, fun x => by simp [anchorHrefs]⟩
    simp [scanTokens]
  | cons t rest ih =>
    intro links hp hl
    cases t with
    | Other =>
      simp only [scanTokens]
      simp only [anchorHrefs] at hp ⊢
      exact ih links hp hl
    | StartTag name attrs =>
      by_cases hname : name = "a"
      · subst hname
        simp only [anchorHrefs, if_true] at hp ⊢
        have hpa : ∀ a ∈ attrs, a.1 = "href" → (L.Parse a.2).isSome = true := by
          intro a ha hk
          apply hp
          apply List.mem_append_left
          apply List.mem_map_of_mem
          rw [List.mem_filter]
          exact ⟨ha, by simpa using hk⟩
        have hpr : ∀ h ∈ anchorHrefs rest, (L.Parse h).isSome = true :=
          fun h hh => hp h (List.mem_append_right _ hh)
        obtain ⟨links', h1, h2, h3⟩ := scanAttrs_spec L current attrs links hpa hl
        obtain ⟨out, h4, h5, h6⟩ := ih links' hpr h2
        by_cases hattrs : attrs = []
        · subst hattrs
          simp only [scanAttrs, Except.ok.injEq] at h1
          subst h1
          refine ⟨out, ?_, h5, ?_⟩
          · simp only [scanTokens, ne_eq, not_true_eq_false, and_false, if_false]
            exact h4
          · intro x
            rw [h6]
            simp
        · refine ⟨out, ?_, h5, ?_⟩
          · simp only [scanTokens, ne_eq, hattrs, not_false_eq_true, and_self, if_true, h1]
            exact h4
          · intro x
            rw [h6, h3]
            constructor
            · rintro ((hx | ⟨h, hh, r⟩) | ⟨h, hh, r⟩)
              · exact Or.inl hx
              · exact Or.inr ⟨h, List.mem_append_left _ hh, r⟩
              · exact Or.inr ⟨h, List.mem_append_right _ hh, r⟩
            · rintro (hx | ⟨h, hh, r⟩)
              · exact Or.inl (Or.inl hx)
              · rcases List.mem_append.1 hh with hh | hh
                · exact Or.inl (Or.inr ⟨h, hh, r⟩)
                · exact Or.inr ⟨h, hh, r⟩
      · simp only [anchorHrefs, if_neg hname] at hp ⊢
        simp only [scanTokens, hname, false_and, if_false]
        exact ih links hp hl

theorem anchorHrefs_page (hrefs : List String) : anchorHrefs (page hrefs).body.tokens = hrefs := by
  simp only [page]
  induction hrefs with
  | nil => rfl
  | cons h rest ih =>
    simp only [List.map_cons, anchorHrefs, if_true]
    rw [ih]
    rfl

/-- C17: for every page URL `current` and every body that ends regularly and
whose anchor `href` values all parse, `GetDomainLinks` returns a list without
repetition that holds exactly the normalized forms of those `href` values
whose resolved URL has the host and the scheme of `current`. -/
theorem GetDomainLinks_same_host_links (L : UrlPkg) (current : URL) (tokens : List Token)
    (hparse : ∀ h ∈ anchorHrefs tokens, (L.Parse h).isSome = true) :
    ∃ links, GetDomainLinks L current ⟨tokens, "EOF"⟩ = .ok links ∧ links.Nodup ∧
      ∀ x, x ∈ links ↔
        ∃ h ∈ anchorHrefs tokens, ∃ parsed,
          L.Parse h = some parsed ∧
          (resolvedHref L current parsed).Host = current.Host ∧
          (resolvedHref L current parsed).Scheme = current.Scheme ∧
          x = NormalizeURL (L.Str (resolvedHref L current parsed)) := by
  obtain ⟨out, h1, h2, h3⟩ := scanTokens_spec L current tokens [] hparse
    ⟨by simp [GoMap.keys], by simp⟩
  refine ⟨out, h1, h2, ?_⟩
  intro x
  rw [h3]
  simp [GoMap.keys]

/-- A page of `http://h` with eight anchors: the two addresses on `http://h`
are returned once each; the subdomain, the other scheme and the other host are
left out. -/
theorem GetDomainLinks_same_host_links_witness :
    (∀ h ∈ anchorHrefs (page mixedHrefs).body.tokens, (miniUrl.Parse h).isSome = true) ∧
    anchorHrefs (page mixedHrefs).body.tokens = mixedHrefs ∧
    GetDomainLinks miniUrl ⟨"http", "h", "/"⟩ ⟨(page mixedHrefs).body.tokens, "EOF"⟩
      = .ok ["http://h/a", "http://h/b"] ∧
    ∃ links, GetDomainLinks miniUrl ⟨"http", "h", "/"⟩ ⟨(page mixedHrefs).body.tokens, "EOF"⟩
      = .ok links ∧ links.Nodup :=
  ⟨fun _ _ => rfl, anchorHrefs_page mixedHrefs, by decide!,
    (GetDomainLinks_same_host_links miniUrl ⟨"http", "h", "/"⟩ (page mixedHrefs).body.tokens
      (fun _ _ => rfl)).elim (fun links h => ⟨links, h.1, h.2.1⟩)⟩

/-! ## C20: the two reads of terminateIfComplete -/

theorem terminateIfComplete_parts (s : Stores) :
    terminateIfComplete s
      = match terminateIfComplete.readToVisit s with
        | none => s
        | some numToVisit => terminateIfComplete.scanAndRaise numToVisit s := by
  simp only [terminateIfComplete, completionRaised, terminateIfComplete.readToVisit,
    terminateIfComplete.scanAndRaise, queueLen]
  rfl

theorem processQueue_work (L : UrlPkg) (walk fuel : Nat) (net : Nat → Response)
    (currentURL : String) (s : Stores) :
    processQueue L walk fuel net currentURL s
      = (processQueue.work L walk fuel net currentURL s).map terminateIfComplete := by
  unfold processQueue processQueue.work
  split
  · rfl
  · simp only
    split
    · rfl
    · split
      · rfl
      · split
        · rfl
        · split
          · rfl
          · rfl

/-- C20: the function `terminateIfComplete` reads the to-visit set first and the
visit-state map second, in two separate critical sections; run without
interruption the two parts are the test `completionRaised`.  With a second
worker between the two reads the completion signal is raised although a
discovered URL is not visited: on `chainSite` the first worker reads 2 for
`numToVisit`, the second processes `A` (adding `B` and marking `A` visited),
and the first then counts 2 visited URLs and raises the signal, with `B` in the
to-visit set and without a visit-state entry. -/
theorem detector_false_positive :
    (∀ s, terminateIfComplete s
      = match terminateIfComplete.readToVisit s with
        | none => s
        | some numToVisit => terminateIfComplete.scanAndRaise numToVisit s) ∧
    (∀ (L : UrlPkg) (walk fuel : Nat) (net : Nat → Response) (currentURL : String) (s : Stores),
      processQueue L walk fuel net currentURL s
        = (processQueue.work L walk fuel net currentURL s).map terminateIfComplete) ∧
    detectorRace = some ([2, 0, 1], ["S", "A", "B"], [("S", 2), ("A", 2)]) :=
  ⟨terminateIfComplete_parts, processQueue_work, by decide!⟩

/-! ## C19: the tree and the order of processing -/

theorem parentWalk_fuel (info : Info) :
    ∀ (f f' : Nat) (u : String) (acc p p' : List String),
      parentWalk info f u acc = some p → parentWalk info f' u acc = some p' → p = p' := by
  intro f
  induction f with
  | zero => intro f' u acc p p' h; simp [parentWalk] at h
  | succ f ih =>
    intro f' u acc p p' h h'
    cases f' with
    | zero => simp [parentWalk] at h'
    | succ f' =>
      simp only [parentWalk] at h h'
      split at h
      · rename_i hc
        rw [if_pos hc] at h'
        exact ih f' _ _ p p' h h'
      · rename_i hc
        rw [if_neg hc] at h'
        rw [← Option.some.inj h, ← Option.some.inj h']

theorem getNode_fuel (info : Info) (f f' : Nat) (u : String) (r r' : Option Ref)
    (h : info.GetNodeFromSitemap f u = .ok r) (h' : info.GetNodeFromSitemap f' u = .ok r') :
    r = r' := by
  unfold Info.GetNodeFromSitemap at h h'
  cases hp : parentWalk info f u [] with
  | none => rw [hp] at h; simp at h
  | some p =>
    cases hp' : parentWalk info f' u [] with
    | none => rw [hp'] at h'; simp at h'
    | some p' =>
      have e := parentWalk_fuel info f f' u [] p p' hp hp'
      subst e
      rw [hp] at h
      rw [hp'] at h'
      rw [h] at h'
      exact Except.ok.inj h'

theorem rewriteRedirect_fuel (w w' : Nat) (raw next : String) (info a b : Info)
    (h : rewriteRedirect w raw next info = .ok a) (h' : rewriteRedirect w' raw next info = .ok b) :
    a = b := by
  unfold rewriteRedirect at h h'
  simp only at h h'
  split at h
  · rename_i hc
    rw [if_pos hc] at h'
    cases hg : Info.GetNodeFromSitemap
        { info with Parentmap := GoMap.set info.Parentmap next (info.parentOf raw) } w
        (info.parentOf raw) with
    | error e => rw [hg] at h; simp at h
    | ok r =>
      cases hg' : Info.GetNodeFromSitemap
          { info with Parentmap := GoMap.set info.Parentmap next (info.parentOf raw) } w'
          (info.parentOf raw) with
      | error e => rw [hg'] at h'; simp at h'
      | ok r' =>
        have e := getNode_fuel _ w w' _ r r' hg hg'
        subst e
        rw [hg] at h
        rw [hg'] at h'
        rw [h] at h'
        exact Except.ok.inj h'
  · rename_i hc
    rw [if_neg hc] at h'
    rw [h] at h'
    exact Except.ok.inj h'

theorem crawl_fuel (L : UrlPkg) (net : Nat → Response) (w w' : Nat) :
    ∀ (f f' n : Nat) (raw : String) (d : Int) (s : Stores) (sl : List Int) (a b : CrawlOut),
      crawl L net w f n raw d s sl = .ok a → crawl L net w' f' n raw d s sl = .ok b → a = b := by
  intro f
  induction f with
  | zero => intro f' n raw d s sl a b h; simp [crawl] at h
  | succ f ih =>
    intro f' n raw d s sl a b h h'
    cases f' with
    | zero => simp [crawl] at h'
    | succ f' =>
      simp only [crawl] at h h'
      split at h
      · rename_i hc
        rw [if_pos hc] at h'
        rw [h] at h'
        exact Except.ok.inj h'
      · rename_i hc
        rw [if_neg hc] at h'
        split at h
        · rename_i hp
          rw [hp] at h'
          simp only at h'
          rw [h] at h'
          exact Except.ok.inj h'
        · rename_i cur hp
          rw [hp] at h'
          simp only at h'
          split at h
          · rename_i h3
            rw [if_pos h3] at h'
            split at h
            · rename_i hl
              rw [hl] at h'
              simp only at h'
              rw [h] at h'
              exact Except.ok.inj h'
            · rename_i parsed hl
              rw [hl] at h'
              simp only at h'
              split at h
              · rename_i hacc
                rw [if_pos hacc] at h'
                split at h
                · simp at h
                · rename_i info1 hr
                  split at h'
                  · simp at h'
                  · rename_i info2 hr'
                    have e := rewriteRedirect_fuel w w' _ _ _ _ _ hr hr'
                    subst e
                    rw [h] at h'
                    exact Except.ok.inj h'
              · rename_i hacc
                rw [if_neg hacc] at h'
                rw [h] at h'
                exact Except.ok.inj h'
          · rename_i h3
            rw [if_neg h3] at h'
            split at h
            · rename_i h4
              rw [if_pos h4] at h'
              split at h
              · rename_i h5
                rw [if_pos h5] at h'
                exact ih f' _ _ _ _ _ a b h h'
              · rename_i h5
                rw [if_neg h5] at h'
                rw [h] at h'
                exact Except.ok.inj h'
            · rename_i h4
              rw [if_neg h4] at h'
              rw [h] at h'
              exact Except.ok.inj h'

theorem processQueue_fuel (L : UrlPkg) (w w' f f' : Nat) (net : Nat → Response) (u : String)
    (s a b : Stores) (h : processQueue L w f net u s = .ok a)
    (h' : processQueue L w' f' net u s = .ok b) : a = b := by
  unfold processQueue at h h'
  split at h
  · rename_i hc
    rw [if_pos hc] at h'
    rw [h] at h'
    exact Except.ok.inj h'
  · rename_i hc
    rw [if_neg hc] at h'
    simp only at h h'
    split at h
    · simp at h
    · rename_i out hcr
      split at h'
      · simp at h'
      · rename_i out' hcr'
        have e := crawl_fuel L net w w' f f' 0 u 1 _ [] out out' hcr hcr'
        subst e
        cases herr : out.err with
        | some e =>
          rw [herr] at h h'
          simp only at h h'
          rw [h] at h'
          exact Except.ok.inj h'
        | none =>
          rw [herr] at h h'
          simp only at h h'
          split at h
          · simp at h
          · rename_i temp hg
            split at h'
            · simp at h'
            · rename_i temp' hg'
              have e := getNode_fuel _ w w' u temp temp' hg hg'
              subst e
              rw [h] at h'
              exact Except.ok.inj h'

theorem runSteps_fuel (L : UrlPkg) (w w' f f' : Nat) (site : String → Nat → Response)
    (sched : List Nat) :
    ∀ (s a b : Stores), runSteps L w f site sched s = some a →
      runSteps L w' f' site sched s = some b → a = b := by
  induction sched with
  | nil =>
    intro s a b h h'
    simp only [runSteps, Option.some.injEq] at h h'
    rw [← h, ← h']
  | cons i rest ih =>
    intro s a b h h'
    simp only [runSteps] at h h'
    cases hq : s.queue[i]? with
    | none => rw [hq] at h; simp at h
    | some u =>
      rw [hq] at h h'
      simp only at h h'
      cases hp : processQueue L w f (site u) u { s with queue := s.queue.eraseIdx i } with
      | error e => rw [hp] at h; simp at h
      | ok s1 =>
        cases hp' : processQueue L w' f' (site u) u { s with queue := s.queue.eraseIdx i } with
        | error e => rw [hp'] at h'; simp at h'
        | ok s2 =>
          have e := processQueue_fuel L w w' f f' (site u) u _ s1 s2 hp hp'
          subst e
          rw [hp] at h
          rw [hp'] at h'
          exact ih s1 a b h h'

theorem forkTrees_differ : ¬ Node.Same forkTreeA forkTreeB := by
  intro h
  cases h with
  | mk u ls ls' hk hc =>
    have hA := hc ("A", _) (List.mem_cons_self _ _) ("A", _) (List.mem_cons_self _ _) rfl
    cases hA with
    | mk u ls ls' hk hc =>
      have hC := hc ("C", _) (List.mem_cons_self _ _) ("C", _) (List.mem_cons_self _ _) rfl
      cases hC with
      | mk u ls ls' hk hc =>
        have := (hk "D").1 (by simp [GoMap.keys])
        simp [GoMap.keys] at this

/-- C19, counterexample: two complete crawls of the deterministic site
`forkSite` from the seed `S` that differ only in whether `A` or `B` is received
first end with trees that are not the same up to the order of children: the
node for `D` hangs under the `C` of `A` in one and under the `C` of `B` in the
other, and the printed sitemaps differ. -/
theorem processing_order_changes_tree_counterexample :
    (runSteps oneHost 10 6 forkSite [0, 0, 0, 0, 0, 0, 0] (CreateSiteMap.init "S")).map
        (fun s => (s.quit, s.queue, s.info.Sitemap)) = some (1, [], forkTreeA) ∧
    (runSteps oneHost 10 6 forkSite [0, 1, 0, 0, 0, 0, 0] (CreateSiteMap.init "S")).map
        (fun s => (s.quit, s.queue, s.info.Sitemap)) = some (1, [], forkTreeB) ∧
    ¬ Node.Same forkTreeA forkTreeB ∧
    PrettifySiteMap forkTreeA 0 ≠ PrettifySiteMap forkTreeB 0 :=
  ⟨by decide!, by decide!, forkTrees_differ, by decide!⟩

/-! ## Chains of recorded parents -/

theorem ROOT_ne_empty : ROOT ≠ "" := by decide

theorem chain_entry {info : Info} {u : String} {ks : List String} (h : info.Chain u ks) :
    info.parentOf u ≠ "" := by
  cases h with
  | root _ h => rw [h]; exact ROOT_ne_empty
  | step _ _ h _ _ => exact h

theorem chain_walk {info : Info} {u : String} {ks : List String} (h : info.Chain u ks) :
    ∀ (acc : List String) (fuel : Nat), ks.length < fuel →
      parentWalk info fuel u acc = some (acc ++ ks) := by
  induction h with
  | root u h =>
    intro acc fuel hf
    cases fuel with
    | zero => omega
    | succ fuel => simp [parentWalk, h]
  | step u ks h1 h2 _ ih =>
    intro acc fuel hf
    cases fuel with
    | zero => omega
    | succ fuel =>
      simp only [parentWalk, ne_eq, h1, not_false_eq_true, h2, and_self, if_true]
      rw [ih (acc ++ [u]) fuel (by simpa using hf)]
      simp

theorem chain_unique {info : Info} {u : String} {ks ks' : List String} (h : info.Chain u ks)
    (h' : info.Chain u ks') : ks = ks' := by
  have a := chain_walk h [] (ks.length + ks'.length + 1) (by omega)
  have b := chain_walk h' [] (ks.length + ks'.length + 1) (by omega)
  rw [a] at b
  simpa using b

theorem chain_mono {info info' : Info}
    (hm : ∀ x, info.parentOf x ≠ "" → info'.parentOf x = info.parentOf x)
    {u : String} {ks : List String} (h : info.Chain u ks) : info'.Chain u ks := by
  induction h with
  | root u h =>
    exact Info.Chain.root u (by rw [hm u (by rw [h]; exact ROOT_ne_empty), h])
  | step u ks h1 h2 _ ih =>
    have e := hm u h1
    refine Info.Chain.step u ks (by rw [e]; exact h1) (by rw [e]; exact h2) ?_
    rw [e]
    exact ih

theorem chain_mem {info : Info} {u : String} {ks : List String} (h : info.Chain u ks) :
    ∀ x, x ∈ ks → (info.parentOf x ≠ "" ∧ info.parentOf x ≠ ROOT) ∧
      (x = u ∨ (∃ y, info.parentOf y = x ∧ info.parentOf y ≠ "" ∧ info.parentOf y ≠ ROOT)) := by
  induction h with
  | root u h => intro x hx; cases hx
  | step u ks h1 h2 _ ih =>
    intro x hx
    rcases List.mem_cons.1 hx with hx | hx
    · subst hx
      exact ⟨⟨h1, h2⟩, Or.inl rfl⟩
    · obtain ⟨a, b⟩ := ih x hx
      refine ⟨a, Or.inr ?_⟩
      rcases b with b | b
      · exact ⟨u, b.symm, h1, h2⟩
      · exact b

theorem chain_climb {info : Info} {u : String} {ks : List String} (h : info.Chain u ks) :
    info.parentOf (info.climb ks.length u) = ROOT ∧
    ∀ j, j < ks.length →
      info.parentOf (info.climb j u) ≠ "" ∧ info.parentOf (info.climb j u) ≠ ROOT := by
  induction h with
  | root u h => exact ⟨h, fun j hj => by simp at hj⟩
  | step u ks h1 h2 _ ih =>
    refine ⟨ih.1, ?_⟩
    intro j hj
    cases j with
    | zero => exact ⟨h1, h2⟩
    | succ j => exact ih.2 j (by simpa using hj)

/-! ## What GetNodeFromSitemap returns, by the chain -/

theorem getNode_of_chain {info : Info} {u : String} {ks : List String} (h : info.Chain u ks)
    (n : Node) (hn : info.Sitemap.at? ks.reverse = some n) (fuel : Nat) (hf : ks.length < fuel) :
    info.GetNodeFromSitemap fuel u = .ok (some ⟨ks.reverse, n⟩) := by
  have hw := chain_walk h [] fuel hf
  simp only [List.nil_append] at hw
  unfold Info.GetNodeFromSitemap
  rw [hw]
  cases h with
  | root _ _ =>
    simp only [List.reverse_nil, Node.at?, Option.some.injEq] at hn
    subst hn
    simp
  | step _ ks' h1 h2 hc =>
    simp only [List.reverse_cons] at hn ⊢
    obtain ⟨m, hm, hk⟩ := Node.at?_snoc _ _ _ _ hn
    have hd := descendLoop_take (u :: ks') ks'.length [] info.Sitemap m (by simp)
      (by simpa using hm)
    simp only [List.length_cons, Nat.add_sub_cancel, Nat.succ_ne_zero, if_false]
    rw [hd]
    simp [linksIndex, hk]

theorem descendLoop_some (path : List String) :
    ∀ (j : Nat) (temp : Option Ref) (t : Ref), j < path.length →
      descendLoop path j temp = .ok (some t) →
      ∃ r0, temp = some r0 ∧ t.path = r0.path ++ ((path.drop 1).take j).reverse := by
  intro j
  induction j with
  | zero =>
    intro temp t _ h
    simp only [descendLoop, Except.ok.injEq] at h
    exact ⟨t, h, by simp⟩
  | succ i ih =>
    intro temp t hj h
    obtain ⟨key, hk1⟩ : ∃ key, path[i + 1]? = some key := ⟨_, List.getElem?_eq_getElem hj⟩
    have hkey1 : path.getD (i + 1) "" = key := by
      rw [List.getD_eq_getElem?_getD, hk1]; rfl
    have hkey2 : (path.drop 1)[i]? = some key := by
      rw [List.getElem?_drop, Nat.add_comm, hk1]
    have htake : ((path.drop 1).take (i + 1)).reverse
        = key :: ((path.drop 1).take i).reverse := by
      rw [List.take_succ, hkey2]
      simp
    rw [htake]
    rw [descendLoop, hkey1] at h
    cases hl : linksIndex temp key with
    | error e => rw [hl] at h; simp at h
    | ok temp' =>
      rw [hl] at h
      simp only at h
      obtain ⟨r1, hr1, hp1⟩ := ih temp' t (by omega) h
      subst hr1
      cases temp with
      | none => simp [linksIndex] at hl
      | some r0 =>
        refine ⟨r0, rfl, ?_⟩
        simp only [linksIndex] at hl
        cases hg : GoMap.get? r0.node.Links key with
        | none => rw [hg] at hl; simp at hl
        | some c =>
          rw [hg] at hl
          simp only [Except.ok.injEq, Option.some.injEq] at hl
          rw [hp1, ← hl]
          simp

theorem getNode_chain_path {info : Info} {u : String} {ks : List String} (h : info.Chain u ks)
    (fuel : Nat) (r : Ref) (hg : info.GetNodeFromSitemap fuel u = .ok (some r)) :
    r.path = ks.reverse ∧ info.Sitemap.at? ks.reverse = some r.node := by
  have hv := getNode_valid info fuel u r hg
  suffices hp : r.path = ks.reverse by
    rw [← hp]; exact ⟨rfl, hv⟩
  unfold Info.GetNodeFromSitemap at hg
  cases hw : parentWalk info fuel u [] with
  | none => rw [hw] at hg; simp at hg
  | some path =>
    have hw2 := chain_walk h [] (ks.length + 1) (by omega)
    have e := parentWalk_fuel info fuel (ks.length + 1) u [] path _ hw hw2
    simp only [List.nil_append] at e
    subst e
    rw [hw] at hg
    simp only at hg
    cases h with
    | root _ _ =>
      simp only [List.length_nil, if_true, Except.ok.injEq, Option.some.injEq] at hg
      rw [← hg]
      rfl
    | step _ ks' h1 h2 hc =>
      simp only [List.length_cons, Nat.succ_ne_zero, if_false] at hg
      rw [show ks'.length + 1 - 1 = ks'.length from rfl] at hg
      cases hd : descendLoop (u :: ks') ks'.length (some ⟨[], info.Sitemap⟩) with
      | error e => rw [hd] at hg; simp at hg
      | ok temp =>
        rw [hd] at hg
        simp only at hg
        cases temp with
        | none => simp [linksIndex] at hg
        | some t =>
          obtain ⟨r0, hr0, hp0⟩ := descendLoop_some (u :: ks') ks'.length _ t (by simp) hd
          simp only [Option.some.injEq] at hr0
          subst hr0
          simp only [List.nil_append, List.drop_succ_cons, List.drop_zero, List.take_length] at hp0
          simp only [linksIndex] at hg
          cases hgk : GoMap.get? t.node.Links u with
          | none => rw [hgk] at hg; simp at hg
          | some c =>
            rw [hgk] at hg
            simp only [Except.ok.injEq, Option.some.injEq] at hg
            rw [← hg, hp0]
            simp

/-! ## The tree after a change at one node -/

theorem at?_modifyAt_ext (f : List (String × Node) → List (String × Node)) (p : List String)
    (root m : Node) (hp : root.at? p = some m) (q : List String) :
    (Node.modifyAt f p root).at? (p ++ q) = (Node.mk m.URL (f m.Links)).at? q := by
  rw [Node.at?_append, Node.at?_modifyAt_self f p root m hp]
  rfl

theorem at?_fresh (l : String) (q : List String) (n : Node)
    (h : (Node.fresh l).at? q = some n) : q = [] ∧ n = Node.fresh l := by
  cases q with
  | nil =>
    simp only [Node.at?, Option.some.injEq] at h
    exact ⟨rfl, h.symm⟩
  | cons k q' => simp [Node.at?, Node.fresh, GoMap.get?] at h

theorem mem_keys_iff_get? {β : Type} (m : List (String × β)) (k : String) :
    k ∈ GoMap.keys m ↔ ∃ v, GoMap.get? m k = some v := by
  constructor
  · intro h
    cases hg : GoMap.get? m k with
    | none => exact absurd h ((GoMap.get?_eq_none_iff m k).1 hg)
    | some v => exact ⟨v, rfl⟩
  · rintro ⟨v, hv⟩
    exact GoMap.mem_keys_of_get? m k v hv

theorem modifyAt_keys (f : List (String × Node) → List (String × Node)) (new : String)
    (p : List String) (root m : Node) (hp : root.at? p = some m)
    (hf : ∀ k c, GoMap.get? (f m.Links) k = some c →
      GoMap.get? m.Links k = some c ∨ (k = new ∧ c = Node.fresh new))
    (q : List String) (n' : Node) (k : String)
    (hq : (Node.modifyAt f p root).at? q = some n') (hk : k ∈ GoMap.keys n'.Links) :
    (∃ n, root.at? q = some n ∧ k ∈ GoMap.keys n.Links) ∨ (k = new ∧ q = p) := by
  by_cases hpq : p <+: q
  · obtain ⟨q', rfl⟩ := hpq
    rw [at?_modifyAt_ext f p root m hp] at hq
    cases q' with
    | nil =>
      simp only [Node.at?, Option.some.injEq] at hq
      subst hq
      simp only [Node.Links_mk] at hk
      obtain ⟨c, hc⟩ := (mem_keys_iff_get? _ _).1 hk
      rcases hf k c hc with h1 | h1
      · left
        refine ⟨m, by simpa using hp, ?_⟩
        exact GoMap.mem_keys_of_get? _ _ _ h1
      · right
        exact ⟨h1.1, by simp⟩
    | cons k1 q'' =>
      simp only [Node.at?, Node.Links_mk] at hq
      cases hg : GoMap.get? (f m.Links) k1 with
      | none => rw [hg] at hq; simp at hq
      | some c1 =>
        rw [hg] at hq
        simp only at hq
        rcases hf k1 c1 hg with h1 | h1
        · left
          refine ⟨n', ?_, hk⟩
          rw [Node.at?_append, hp]
          simp only [Option.some_bind, Node.at?, h1]
          exact hq
        · rw [h1.2] at hq
          obtain ⟨-, hn⟩ := at?_fresh _ _ _ hq
          rw [hn] at hk
          simp [Node.fresh, GoMap.keys] at hk
  · left
    have h := Node.at?_modifyAt_off f p root q hpq
    rw [hq] at h
    cases hr : root.at? q with
    | none => rw [hr] at h; simp at h
    | some n =>
      rw [hr] at h
      simp only [Option.map_some', Option.some.injEq, Prod.mk.injEq] at h
      exact ⟨n, rfl, by rw [← h.2]; exact hk⟩

theorem modifyAt_exists (f : List (String × Node) → List (String × Node))
    (p : List String) (root m : Node) (hp : root.at? p = some m)
    (q : List String) (n : Node) (hq : root.at? q = some n)
    (hf : ∀ k q' c, q = p ++ k :: q' → GoMap.get? m.Links k = some c →
      GoMap.get? (f m.Links) k = some c) :
    ((Node.modifyAt f p root).at? q).isSome = true := by
  by_cases hpq : p <+: q
  · obtain ⟨q', rfl⟩ := hpq
    cases q' with
    | nil =>
      rw [List.append_nil, Node.at?_modifyAt_self f p root m hp]
      rfl
    | cons k q'' =>
      have hq2 := hq
      rw [Node.at?_append, hp] at hq2
      simp only [Option.some_bind, Node.at?] at hq2
      cases hg : GoMap.get? m.Links k with
      | none => rw [hg] at hq2; simp at hq2
      | some c =>
        rw [Node.at?_modifyAt_below f p root m k q'' hp (by rw [hf k q'' c rfl hg, hg]), hq]
        rfl
  · have h := Node.at?_modifyAt_off f p root q hpq
    rw [hq] at h
    cases hr : (Node.modifyAt f p root).at? q with
    | none => rw [hr] at h; simp at h
    | some n => rfl

theorem get?_addLink (l : String) (ls : List (String × Node)) (k : String) (c : Node)
    (h : GoMap.get? ls k = some c) : GoMap.get? (addLink l ls) k = some c := by
  unfold addLink
  split
  · rename_i hn
    rw [GoMap.get?_set]
    by_cases e : l = k
    · subst e
      rw [h] at hn
      simp at hn
    · rw [if_neg e, h]
  · exact h

theorem get?_addLink_self (l : String) (ls : List (String × Node)) :
    ∃ c, GoMap.get? (addLink l ls) l = some c := by
  unfold addLink
  split
  · exact ⟨_, GoMap.get?_set_self _ _ _⟩
  · rename_i hn
    cases hg : GoMap.get? ls l with
    | none => rw [hg] at hn; simp at hn
    | some c => exact ⟨c, rfl⟩

theorem get?_addLink_new (l : String) (ls : List (String × Node)) (k : String) (c : Node)
    (h : GoMap.get? (addLink l ls) k = some c) :
    GoMap.get? ls k = some c ∨ (k = l ∧ c = Node.fresh l) := by
  unfold addLink at h
  split at h
  · rw [GoMap.get?_set] at h
    by_cases e : l = k
    · rw [if_pos e] at h
      right
      exact ⟨e.symm, (Option.some.inj h).symm⟩
    · rw [if_neg e] at h
      exact Or.inl h
  · exact Or.inl h

theorem get?_rewrite (raw next : String) (ls : List (String × Node)) (k : String) :
    GoMap.get? (GoMap.delete (GoMap.set ls next (Node.fresh next)) raw) k
      = if raw = k then none else if next = k then some (Node.fresh next) else GoMap.get? ls k := by
  rw [GoMap.get?_delete, GoMap.get?_set]

theorem get?_rewrite_new (raw next : String) (ls : List (String × Node)) (k : String) (c : Node)
    (h : GoMap.get? (GoMap.delete (GoMap.set ls next (Node.fresh next)) raw) k = some c) :
    GoMap.get? ls k = some c ∨ (k = next ∧ c = Node.fresh next) := by
  rw [get?_rewrite] at h
  split at h
  · simp at h
  · split at h
    · rename_i e
      right
      exact ⟨e.symm, (Option.some.inj h).symm⟩
    · exact Or.inl h

/-! ## The invariant `Linked` -/

theorem Linked_init (rootURL : String) :
    Linked rootURL (CreateSiteMap.init rootURL).info (CreateSiteMap.init rootURL).toVisit
      (CreateSiteMap.init rootURL).fetched := by
  have hpar : ∀ u, (CreateSiteMap.init rootURL).info.parentOf u
      = if rootURL = u then ROOT else "" := by
    intro u
    simp only [CreateSiteMap.init, Info.parentOf, GoMap.set, GoMap.get?]
    split <;> rfl
  have hkeys : GoMap.keys (CreateSiteMap.init rootURL).toVisit = [rootURL] := rfl
  refine ⟨?_, ?_, ?_, ?_, ?_, ?_, ?_⟩
  · rw [hpar, if_pos rfl]
  · intro u hu
    rw [hkeys, List.mem_singleton] at hu
    subst hu
    exact ⟨[], Info.Chain.root _ (by rw [hpar, if_pos rfl]), fun _ => rfl⟩
  · intro u hu
    rw [hpar] at hu
    rw [hkeys, List.mem_singleton]
    by_contra hne
    rw [if_neg (fun e => hne e.symm)] at hu
    exact hu rfl
  · intro u h1 h2
    rw [hpar] at h1 h2
    by_cases e : rootURL = u
    · rw [if_pos e] at h2
      exact absurd rfl h2
    · rw [if_neg e] at h1
      exact absurd rfl h1
  · intro u hu
    simp [CreateSiteMap.init] at hu
  · intro q m k hq hk
    have := at?_fresh rootURL q m hq
    rw [this.2] at hk
    simp [Node.fresh, GoMap.keys] at hk
  · intro h
    simp [CreateSiteMap.init, GoMap.keys] at h

theorem Linked_fetch {rootURL : String} {info : Info} {tv : List (String × Bool)}
    {fetched : List String} (h : Linked rootURL info tv fetched) (c : String)
    (hc : c ∈ GoMap.keys tv) : Linked rootURL info tv (fetched ++ [c]) := by
  refine ⟨h.seed, ?_, h.entry, ?_, ?_, h.keysIn, h.rootKey⟩
  · intro u hu
    obtain ⟨ks, h1, h2⟩ := h.chain u hu
    exact ⟨ks, h1, fun hn => h2 (fun hf => hn (List.mem_append_left _ hf))⟩
  · intro u h1 h2
    exact List.mem_append_left _ (h.parents u h1 h2)
  · intro u hu
    rcases List.mem_append.1 hu with hu | hu
    · exact h.sub u hu
    · rw [List.mem_singleton] at hu
      rw [hu]
      exact hc

theorem chain_nil {info : Info} {u : String} (h : info.Chain u []) : info.parentOf u = ROOT := by
  cases h with
  | root _ h => exact h

theorem Linked_link {rootURL : String} {info : Info} {tv : List (String × Bool)}
    {fetched : List String} (hL : Linked rootURL info tv fetched) (c l : String)
    (ks : List String) (m : Node) (hc : c ∈ fetched) (hcn : c ≠ "" ∧ c ≠ ROOT)
    (hch : info.Chain c ks) (hm : info.Sitemap.at? ks.reverse = some m) :
    Linked rootURL
      ⟨if l ≠ c then Node.modifyAt (addLink l) ks.reverse info.Sitemap else info.Sitemap,
        if info.parentOf l = "" then GoMap.set info.Parentmap l c else info.Parentmap⟩
      (GoMap.set tv l true) fetched ∧
    Info.Chain
      ⟨if l ≠ c then Node.modifyAt (addLink l) ks.reverse info.Sitemap else info.Sitemap,
        if info.parentOf l = "" then GoMap.set info.Parentmap l c else info.Parentmap⟩ c ks ∧
    ∃ m', Node.at? (if l ≠ c then Node.modifyAt (addLink l) ks.reverse info.Sitemap
      else info.Sitemap) ks.reverse = some m' := by
  generalize hroot' : (if l ≠ c then Node.modifyAt (addLink l) ks.reverse info.Sitemap
    else info.Sitemap) = root'
  generalize hpm' : (if info.parentOf l = "" then GoMap.set info.Parentmap l c
    else info.Parentmap) = pm'
  have hpar : ∀ x, Info.parentOf ⟨root', pm'⟩ x
      = if info.parentOf l = "" ∧ l = x then c else info.parentOf x := by
    intro x
    rw [← hpm']
    by_cases h0 : info.parentOf l = ""
    · rw [if_pos h0]
      have := parentOf_set info l c x
      simp only [Info.parentOf] at this ⊢
      rw [this]
      by_cases e : l = x
      · rw [if_pos e, if_pos ⟨h0, e⟩]
      · rw [if_neg e, if_neg (fun h => e h.2)]
    · rw [if_neg h0, if_neg (fun h => h0 h.1)]
      rfl
  have hmono : ∀ x, info.parentOf x ≠ "" → Info.parentOf ⟨root', pm'⟩ x = info.parentOf x := by
    intro x hx
    rw [hpar, if_neg]
    rintro ⟨h0, e⟩
    subst e
    exact hx h0
  have hex : ∀ q n, info.Sitemap.at? q = some n → (root'.at? q).isSome = true := by
    intro q n hq
    rw [← hroot']
    by_cases e : l ≠ c
    · rw [if_pos e]
      exact modifyAt_exists _ _ _ m hm q n hq (fun k _ c1 _ hg => get?_addLink l _ k c1 hg)
    · rw [if_neg e, hq]
      rfl
  have hkeys : ∀ q n' k, root'.at? q = some n' → k ∈ GoMap.keys n'.Links →
      (∃ n, info.Sitemap.at? q = some n ∧ k ∈ GoMap.keys n.Links) ∨
        (k = l ∧ q = ks.reverse ∧ l ≠ c) := by
    intro q n' k hq hk
    rw [← hroot'] at hq
    by_cases e : l ≠ c
    · rw [if_pos e] at hq
      rcases modifyAt_keys (addLink l) l _ _ m hm (fun k c1 h => get?_addLink_new l _ k c1 h)
        q n' k hq hk with h1 | h1
      · exact Or.inl h1
      · exact Or.inr ⟨h1.1, h1.2, e⟩
    · rw [if_neg e] at hq
      exact Or.inl ⟨n', hq, hk⟩
  have hcc : Info.Chain ⟨root', pm'⟩ c ks := chain_mono hmono hch
  have hctv : c ∈ GoMap.keys tv := hL.sub c hc
  refine ⟨⟨?_, ?_, ?_, ?_, ?_, ?_, ?_⟩, hcc, ?_⟩
  · rw [hmono _ (by rw [hL.seed]; exact ROOT_ne_empty)]
    exact hL.seed
  · intro u hu
    rw [GoMap.mem_keys_set] at hu
    by_cases hut : u ∈ GoMap.keys tv
    · obtain ⟨ku, h1, h2⟩ := hL.chain u hut
      refine ⟨ku, chain_mono hmono h1, fun hn => ?_⟩
      have := h2 hn
      cases hq : info.Sitemap.at? ku.reverse with
      | none => rw [hq] at this; cases this
      | some n => exact hex _ n hq
    · have hul : u = l := by
        rcases hu with hu | hu
        · exact hu
        · exact absurd hu hut
      subst hul
      have h0 : info.parentOf u = "" := by
        by_contra h0
        exact hut (hL.entry u h0)
      have hne : u ≠ c := fun e => hut (e ▸ hctv)
      have hpu : Info.parentOf ⟨root', pm'⟩ u = c := by
        rw [hpar, if_pos ⟨h0, rfl⟩]
      refine ⟨u :: ks, Info.Chain.step u ks (by rw [hpu]; exact hcn.1) (by rw [hpu]; exact hcn.2)
        (by rw [hpu]; exact hcc), fun _ => ?_⟩
      rw [List.reverse_cons, ← hroot', if_pos hne, at?_modifyAt_ext _ _ _ m hm]
      obtain ⟨c1, hc1⟩ := get?_addLink_self u m.Links
      simp [Node.at?, hc1]
  · intro u hu
    rw [GoMap.mem_keys_set]
    rw [hpar] at hu
    by_cases e : info.parentOf l = "" ∧ l = u
    · exact Or.inl e.2.symm
    · rw [if_neg e] at hu
      exact Or.inr (hL.entry u hu)
  · intro u h1 h2
    rw [hpar] at h1 h2 ⊢
    by_cases e : info.parentOf l = "" ∧ l = u
    · rw [if_pos e]
      exact hc
    · rw [if_neg e] at h1 h2 ⊢
      exact hL.parents u h1 h2
  · intro u hu
    rw [GoMap.mem_keys_set]
    exact Or.inr (hL.sub u hu)
  · intro q n' k hq hk
    rw [GoMap.mem_keys_set]
    rcases hkeys q n' k hq hk with ⟨n, h1, h2⟩ | h1
    · exact Or.inr (hL.keysIn q n k h1 h2)
    · exact Or.inl h1.1
  · intro hr
    rcases hkeys [] root' rootURL rfl hr with ⟨n, h1, h2⟩ | h1
    · simp only [Node.at?, Option.some.injEq] at h1
      subst h1
      obtain ⟨t, ht1, ht2⟩ := hL.rootKey h2
      exact ⟨t, ht1, by rw [hmono t (by rw [ht2]; exact ROOT_ne_empty), ht2]⟩
    · obtain ⟨e1, e2, e3⟩ := h1
      have hks : ks = [] := by simpa using e2.symm
      subst hks
      have hpc := chain_nil hch
      refine ⟨c, fun e => e3 (e1 ▸ e.symm), ?_⟩
      rw [hmono c (by rw [hpc]; exact ROOT_ne_empty), hpc]
  · cases hq : root'.at? ks.reverse with
    | none =>
      have := hex _ m hm
      rw [hq] at this
      cases this
    | some m' => exact ⟨m', rfl⟩

theorem Linked_insertLinks {rootURL : String} {fetched : List String} (c : String)
    (ks : List String) (node : Node) (hc : c ∈ fetched) (hcn : c ≠ "" ∧ c ≠ ROOT) :
    ∀ (links : List String) (info : Info) (tv : List (String × Bool)) (info' : Info)
      (tv' : List (String × Bool)) (m : Node),
      Linked rootURL info tv fetched → info.Chain c ks → info.Sitemap.at? ks.reverse = some m →
      insertLinks c (some ⟨ks.reverse, node⟩) links info tv = .ok (info', tv') →
      Linked rootURL info' tv' fetched := by
  intro links
  induction links with
  | nil =>
    intro info tv info' tv' m hL _ _ h
    simp only [insertLinks, Except.ok.injEq, Prod.mk.injEq] at h
    rw [← h.1, ← h.2]
    exact hL
  | cons l rest ih =>
    intro info tv info' tv' m hL hch hm h
    obtain ⟨h1, h2, m', h3⟩ := Linked_link hL c l ks m hc hcn hch hm
    simp only [insertLinks] at h
    by_cases e : l ≠ c
    · rw [if_pos e] at h1 h2 h3
      rw [if_pos e] at h
      simp only at h
      exact ih _ _ info' tv' m' h1 h2 h3 h
    · rw [if_neg e] at h1 h2 h3
      rw [if_neg e] at h
      simp only at h
      exact ih _ _ info' tv' m' h1 h2 h3 h

theorem getNode_stop (info : Info) (w : Nat) (u : String) (r : Ref)
    (hs : info.parentOf u = "" ∨ info.parentOf u = ROOT)
    (h : info.GetNodeFromSitemap w u = .ok (some r)) : r = ⟨[], info.Sitemap⟩ := by
  unfold Info.GetNodeFromSitemap at h
  cases w with
  | zero => simp [parentWalk] at h
  | succ w =>
    have hw : parentWalk info (w + 1) u [] = some [] := by
      simp only [parentWalk]
      rw [if_neg]
      rintro ⟨h1, h2⟩
      rcases hs with hs | hs
      · exact h1 hs
      · exact h2 hs
    rw [hw] at h
    simp only [List.length_nil, if_true, Except.ok.injEq, Option.some.injEq] at h
    exact h.symm

theorem Linked_rewrite {rootURL : String} {info : Info} {tv : List (String × Bool)}
    {fetched : List String} (hL : Linked rootURL info tv fetched) (hN : Named tv)
    (c next : String) (walk : Nat) (info' : Info) (hc : c ∈ GoMap.keys tv) (hcf : c ∉ fetched)
    (h : rewriteRedirect walk c next info = .ok info') :
    Linked rootURL info' (GoMap.set tv next true) (fetched ++ [c]) := by
  have hPc : info.parentOf c ≠ "" := by
    obtain ⟨ks, h1, -⟩ := hL.chain c hc
    exact chain_entry h1
  unfold rewriteRedirect at h
  simp only at h
  by_cases hto : info.parentOf next = ""
  swap
  · rw [if_neg (fun hh => hto hh.2)] at h
    simp only [Except.ok.injEq] at h
    subst h
    have hnt : next ∈ GoMap.keys tv := hL.entry next hto
    have hL2 := Linked_fetch hL c hc
    refine ⟨hL2.seed, ?_, ?_, hL2.parents, ?_, ?_, hL2.rootKey⟩
    · intro u hu
      rw [GoMap.mem_keys_set] at hu
      rcases hu with hu | hu
      · rw [hu]; exact hL2.chain next hnt
      · exact hL2.chain u hu
    · intro u hu
      rw [GoMap.mem_keys_set]
      exact Or.inr (hL2.entry u hu)
    · intro u hu
      rw [GoMap.mem_keys_set]
      exact Or.inr (hL2.sub u hu)
    · intro q m k hq hk
      rw [GoMap.mem_keys_set]
      exact Or.inr (hL2.keysIn q m k hq hk)
  rw [if_pos ⟨hPc, hto⟩] at h
  generalize hinfo1 : ({ info with Parentmap := GoMap.set info.Parentmap next (info.parentOf c) }
    : Info) = info1 at h
  have hs1 : info1.Sitemap = info.Sitemap := by rw [← hinfo1]
  have hp1 : info1.Parentmap = GoMap.set info.Parentmap next (info.parentOf c) := by
    rw [← hinfo1]
  have hpar : ∀ x, info1.parentOf x = if next = x then info.parentOf c else info.parentOf x := by
    intro x
    rw [← hinfo1]
    exact parentOf_set info next (info.parentOf c) x
  have hmono : ∀ x, info.parentOf x ≠ "" → info1.parentOf x = info.parentOf x := by
    intro x hx
    rw [hpar, if_neg]
    intro e
    subst e
    exact hx hto
  have hnt : next ∉ GoMap.keys tv := by
    intro hn
    obtain ⟨ks, h1, -⟩ := hL.chain next hn
    exact chain_entry h1 hto
  have hnc : next ≠ c := fun e => hnt (e ▸ hc)
  cases hg : info1.GetNodeFromSitemap walk (info.parentOf c) with
  | error e => rw [hg] at h; simp at h
  | ok temp =>
    rw [hg] at h
    cases temp with
    | none => simp at h
    | some r =>
      simp only [Except.ok.injEq] at h
      have hv : info.Sitemap.at? r.path = some r.node := by
        rw [← hs1]
        exact getNode_valid info1 walk _ r hg
      -- the node of the target
      have hnext : ∃ kn, info1.Chain next kn ∧
          ((Node.modifyAt (fun ls => GoMap.delete (GoMap.set ls next (Node.fresh next)) c)
            r.path info.Sitemap).at? kn.reverse).isSome = true ∧
          (r.path = [] → info.parentOf c = ROOT ∨
            (info.parentOf (info.parentOf c) = ROOT ∧ info.parentOf c ∈ GoMap.keys tv)) := by
        by_cases hroot : info.parentOf c = ROOT
        · have hstop : info1.parentOf (info.parentOf c) = ""
              ∨ info1.parentOf (info.parentOf c) = ROOT := by
            rw [hpar, hroot]
            by_cases e : next = ROOT
            · rw [if_pos e]
              exact Or.inr rfl
            · rw [if_neg e]
              left
              by_contra hne
              exact (hN ROOT (hL.entry ROOT hne)).2 rfl
          have hr := getNode_stop info1 walk _ r hstop hg
          refine ⟨[], Info.Chain.root next (by rw [hpar, if_pos rfl, hroot]), ?_, fun _ => Or.inl hroot⟩
          rw [hr]
          rfl
        · have hpf := hL.parents c hPc hroot
          obtain ⟨kp, hkp, -⟩ := hL.chain _ (hL.sub _ hpf)
          have hkp1 : info1.Chain (info.parentOf c) kp := chain_mono hmono hkp
          obtain ⟨hrp, -⟩ := getNode_chain_path hkp1 walk r hg
          have hpn : info1.parentOf next = info.parentOf c := by rw [hpar, if_pos rfl]
          refine ⟨next :: kp, Info.Chain.step next kp (by rw [hpn]; exact hPc)
            (by rw [hpn]; exact hroot) (by rw [hpn]; exact hkp1), ?_, ?_⟩
          · rw [List.reverse_cons, ← hrp, at?_modifyAt_ext _ _ _ r.node hv]
            simp only [Node.at?, Node.Links_mk, get?_rewrite, if_neg hnc.symm, if_true]
            rfl
          · intro hnil
            right
            rw [hnil] at hrp
            have : kp = [] := by simpa using hrp.symm
            subst this
            exact ⟨chain_nil hkp, hL.sub _ hpf⟩
      obtain ⟨kn, hkn1, hkn2, hkn3⟩ := hnext
      rw [← h, ← hp1]
      generalize hroot' : Node.modifyAt
        (fun ls => GoMap.delete (GoMap.set ls next (Node.fresh next)) c) r.path info.Sitemap
        = root' at hkn2
      have hch' : ∀ {u ku}, info1.Chain u ku → Info.Chain ⟨root', info1.Parentmap⟩ u ku :=
        fun hh => @chain_mono info1 ⟨root', info1.Parentmap⟩ (fun x _ => rfl) _ _ hh
      have hpar' : ∀ x, Info.parentOf ⟨root', info1.Parentmap⟩ x = info1.parentOf x :=
        fun x => rfl
      have hkeys : ∀ q n' k, root'.at? q = some n' → k ∈ GoMap.keys n'.Links →
          (∃ n, info.Sitemap.at? q = some n ∧ k ∈ GoMap.keys n.Links) ∨
            (k = next ∧ q = r.path) := by
        intro q n' k hq hk
        rw [← hroot'] at hq
        exact modifyAt_keys _ next _ _ r.node hv (fun k c1 hh => get?_rewrite_new c next _ k c1 hh)
          q n' k hq hk
      refine ⟨?_, ?_, ?_, ?_, ?_, ?_, ?_⟩
      · rw [hpar', hmono _ (by rw [hL.seed]; exact ROOT_ne_empty)]
        exact hL.seed
      · intro u hu
        rw [GoMap.mem_keys_set] at hu
        by_cases hut : u ∈ GoMap.keys tv
        · obtain ⟨ku, h1, h2⟩ := hL.chain u hut
          refine ⟨ku, hch' (chain_mono hmono h1), fun hn => ?_⟩
          have hnf : u ∉ fetched := fun hf => hn (List.mem_append_left _ hf)
          have hne : u ≠ c := fun e => hn (List.mem_append_right _ (by simp [e]))
          have := h2 hnf
          cases hq : info.Sitemap.at? ku.reverse with
          | none => rw [hq] at this; cases this
          | some n =>
            show (root'.at? ku.reverse).isSome = true
            rw [← hroot']
            refine modifyAt_exists _ _ _ r.node hv _ n hq ?_
            intro k q' c1 hkq hgk
            have hkm : k ∈ ku := by
              have : k ∈ ku.reverse := by rw [hkq]; simp
              simpa using this
            obtain ⟨-, hk2⟩ := chain_mem h1 k hkm
            have hktv : k ∈ GoMap.keys tv ∧ k ≠ c := by
              rcases hk2 with hk2 | ⟨y, hy1, hy2, hy3⟩
              · rw [hk2]; exact ⟨hut, hne⟩
              · have hkf : k ∈ fetched := by
                  rw [← hy1]; exact hL.parents y hy2 hy3
                exact ⟨hL.sub k hkf, fun e => hcf (e ▸ hkf)⟩
            have hnk : ¬ next = k := fun e => hnt (by rw [e]; exact hktv.1)
            rw [get?_rewrite, if_neg (fun e => hktv.2 e.symm), if_neg hnk]
            exact hgk
        · have hul : u = next := by
            rcases hu with hu | hu
            · exact hu
            · exact absurd hu hut
          subst hul
          exact ⟨kn, hch' hkn1, fun _ => hkn2⟩
      · intro u hu
        rw [GoMap.mem_keys_set]
        rw [hpar', hpar] at hu
        by_cases e : next = u
        · exact Or.inl e.symm
        · rw [if_neg e] at hu
          exact Or.inr (hL.entry u hu)
      · intro u h1 h2
        rw [hpar', hpar] at h1 h2 ⊢
        apply List.mem_append_left
        by_cases e : next = u
        · rw [if_pos e] at h1 h2 ⊢
          exact hL.parents c h1 h2
        · rw [if_neg e] at h1 h2 ⊢
          exact hL.parents u h1 h2
      · intro u hu
        rw [GoMap.mem_keys_set]
        right
        rcases List.mem_append.1 hu with hu | hu
        · exact hL.sub u hu
        · rw [List.mem_singleton] at hu
          rw [hu]; exact hc
      · intro q n' k hq hk
        rw [GoMap.mem_keys_set]
        rcases hkeys q n' k hq hk with ⟨n, h1, h2⟩ | h1
        · exact Or.inr (hL.keysIn q n k h1 h2)
        · exact Or.inl h1.1
      · intro hr
        rcases hkeys [] root' rootURL rfl hr with ⟨n, h1, h2⟩ | h1
        · simp only [Node.at?, Option.some.injEq] at h1
          subst h1
          obtain ⟨t, ht1, ht2⟩ := hL.rootKey h2
          exact ⟨t, ht1, by rw [hpar', hmono t (by rw [ht2]; exact ROOT_ne_empty), ht2]⟩
        · exfalso
          have : info.parentOf rootURL = "" := by rw [h1.1]; exact hto
          rw [hL.seed] at this
          exact ROOT_ne_empty this

theorem Named_sub {tv tv' : List (String × Bool)} (h : Named tv')
    (hs : ∀ u, u ∈ GoMap.keys tv → u ∈ GoMap.keys tv') : Named tv :=
  fun u hu => h u (hs u hu)

theorem Linked_processQueue (L : UrlPkg) (rootURL : String) (walk fuel : Nat)
    (net : Nat → Response) (c : String) (s s' : Stores) (hT : s.Tidy)
    (hL : Linked rootURL s.info s.toVisit s.fetched) (hc : c ∈ GoMap.keys s.toVisit)
    (hN : Named s'.toVisit) (h : processQueue L walk fuel net c s = .ok s') :
    Linked rootURL s'.info s'.toVisit s'.fetched ∧
      ∀ u, u ∈ GoMap.keys s.toVisit → u ∈ GoMap.keys s'.toVisit := by
  rcases processQueue_cases L walk fuel net c s s' h with ⟨-, h1⟩ | ⟨hseen, mid, h1, -, hf, -, h2⟩
  · subst h1
    simp only [terminateIfComplete_info, terminateIfComplete_toVisit, terminateIfComplete_fetched]
    exact ⟨hL, fun u hu => hu⟩
  · subst h1
    simp only [terminateIfComplete_info, terminateIfComplete_toVisit,
      terminateIfComplete_fetched] at hN ⊢
    have hcf : c ∉ s.fetched := by
      rw [hT.fetchedEq]
      have := (alreadySeen_iff s hT c).1 hseen
      exact (GoMap.get?_eq_none_iff _ _).1 this
    rw [hf]
    rcases h2 with ⟨e1, e2, -⟩ | ⟨next, info', hr, e1, e2, -⟩ | ⟨links, temp, info', tv', hg, hi, e1, e2, -⟩
    · rw [e1, e2]
      exact ⟨Linked_fetch hL c hc, fun u hu => hu⟩
    · rw [e2] at hN
      have hsub : ∀ u, u ∈ GoMap.keys s.toVisit → u ∈ GoMap.keys (GoMap.set s.toVisit next true) :=
        fun u hu => (GoMap.mem_keys_set _ _ _ _).2 (Or.inr hu)
      rw [e1, e2]
      exact ⟨Linked_rewrite hL (Named_sub hN hsub) c next walk info' hc hcf hr, hsub⟩
    · rw [e2] at hN
      have hsub : ∀ u, u ∈ GoMap.keys s.toVisit → u ∈ GoMap.keys tv' :=
        fun u hu => ((insertLinks_toVisit c temp links _ _ _ _ hi).2 u).2 (Or.inl hu)
      rw [e1, e2]
      refine ⟨?_, hsub⟩
      have hL2 := Linked_fetch hL c hc
      have hcn := hN c (hsub c hc)
      obtain ⟨ks, hch, hloc⟩ := hL.chain c hc
      cases temp with
      | none =>
        -- the lookup found nothing: the chain says it finds the node
        exfalso
        have := hloc hcf
        cases hq : s.info.Sitemap.at? ks.reverse with
        | none => rw [hq] at this; cases this
        | some n =>
          have hg2 := getNode_of_chain hch n hq (ks.length + 1) (by omega)
          have := getNode_fuel _ _ _ _ _ _ hg hg2
          cases this
      | some r =>
        obtain ⟨hrp, hrn⟩ := getNode_chain_path hch walk r hg
        have hi2 : insertLinks c (some ⟨ks.reverse, r.node⟩) links s.info s.toVisit
            = .ok (info', tv') := by
          rw [← hrp]
          exact hi
        exact Linked_insertLinks c ks r.node (List.mem_append_right _ (by simp)) hcn links _ _ _ _
          r.node hL2 hch hrn hi2

theorem Linked_reachable (L : UrlPkg) (rootURL : String) (s : Stores)
    (h : Reachable L rootURL s) : Named s.toVisit →
      Linked rootURL s.info s.toVisit s.fetched := by
  induction h with
  | init => intro _; exact Linked_init rootURL
  | step hr hs ih =>
    rename_i s s'
    intro hN
    obtain ⟨i, c, walk, fuel, net, hq, hp⟩ := hs
    have hT := Tidy_reachable L rootURL s hr
    have hT0 : Stores.Tidy { s with queue := s.queue.eraseIdx i } :=
      { visitKeys := hT.visitKeys
        toVisitKeys := hT.toVisitKeys
        status := hT.status
        visitSub := hT.visitSub
        queueSub := fun u hu => hT.queueSub u (List.mem_of_mem_eraseIdx hu)
        fetchedEq := hT.fetchedEq }
    have hc : c ∈ GoMap.keys s.toVisit := hT.queueSub c (List.getElem?_mem hq)
    -- the to-visit set only grows, so the earlier state is named too
    have hsub : ∀ u, u ∈ GoMap.keys s.toVisit → u ∈ GoMap.keys s'.toVisit := by
      rcases processQueue_cases L walk fuel net c _ s' hp with ⟨-, h1⟩ | ⟨-, mid, h1, -, -, -, h2⟩
      · subst h1
        simp only [terminateIfComplete_toVisit]
        exact fun u hu => hu
      · subst h1
        simp only [terminateIfComplete_toVisit]
        rcases h2 with ⟨-, e2, -⟩ | ⟨next, info', -, -, e2, -⟩ | ⟨links, temp, info', tv', -, hi, -, e2, -⟩
        · rw [e2]; exact fun u hu => hu
        · rw [e2]; exact fun u hu => (GoMap.mem_keys_set _ _ _ _).2 (Or.inr hu)
        · rw [e2]
          exact fun u hu => ((insertLinks_toVisit c temp links _ _ _ _ hi).2 u).2 (Or.inl hu)
    have hLs := ih (Named_sub hN hsub)
    exact (Linked_processQueue L rootURL walk fuel net c _ s' hT0 hLs hc hN hp).1

/-! ## The shape of the changes to the tree -/

theorem rewriteRedirect_cases (walk : Nat) (c next : String) (info info' : Info)
    (h : rewriteRedirect walk c next info = .ok info') :
    info' = info ∨
    (info.parentOf c ≠ "" ∧ info.parentOf next = "" ∧ ∃ r,
      Info.GetNodeFromSitemap ⟨info.Sitemap, GoMap.set info.Parentmap next (info.parentOf c)⟩
        walk (info.parentOf c) = .ok (some r) ∧
      info.Sitemap.at? r.path = some r.node ∧
      info' = ⟨Node.modifyAt
          (fun ls => GoMap.delete (GoMap.set ls next (Node.fresh next)) c) r.path info.Sitemap,
        GoMap.set info.Parentmap next (info.parentOf c)⟩) := by
  unfold rewriteRedirect at h
  simp only at h
  split at h
  · rename_i hc
    right
    refine ⟨hc.1, hc.2, ?_⟩
    split at h
    · simp at h
    · simp at h
    · rename_i r hg
      simp only [Except.ok.injEq] at h
      exact ⟨r, hg, getNode_valid ⟨info.Sitemap, GoMap.set info.Parentmap next (info.parentOf c)⟩
        walk _ r hg, h.symm⟩
  · simp only [Except.ok.injEq] at h
    exact Or.inl h.symm

theorem insertLinks_none (c : String) :
    ∀ (links : List String) (info : Info) (tv : List (String × Bool)) (info' : Info)
      (tv' : List (String × Bool)),
      insertLinks c none links info tv = .ok (info', tv') → info'.Sitemap = info.Sitemap := by
  intro links
  induction links with
  | nil =>
    intro info tv info' tv' h
    simp only [insertLinks, Except.ok.injEq, Prod.mk.injEq] at h
    rw [← h.1]
  | cons l rest ih =>
    intro info tv info' tv' h
    simp only [insertLinks] at h
    by_cases e : l ≠ c
    · rw [if_pos e] at h
      simp at h
    · rw [if_neg e] at h
      simp only at h
      have := ih _ _ _ _ h
      exact this

theorem insertLinks_sitemap (c : String) (p : List String) (node : Node) (P : Node → Prop)
    (hstep : ∀ root l m, P root → root.at? p = some m → l ≠ c →
      P (Node.modifyAt (addLink l) p root)) :
    ∀ (links : List String) (info : Info) (tv : List (String × Bool)) (info' : Info)
      (tv' : List (String × Bool)) (m : Node),
      P info.Sitemap → info.Sitemap.at? p = some m →
      insertLinks c (some ⟨p, node⟩) links info tv = .ok (info', tv') → P info'.Sitemap := by
  intro links
  induction links with
  | nil =>
    intro info tv info' tv' m hP _ h
    simp only [insertLinks, Except.ok.injEq, Prod.mk.injEq] at h
    rw [← h.1]
    exact hP
  | cons l rest ih =>
    intro info tv info' tv' m hP hm h
    simp only [insertLinks] at h
    by_cases e : l ≠ c
    · rw [if_pos e] at h
      simp only at h
      have hex := modifyAt_exists (addLink l) p info.Sitemap m hm p m hm
        (fun k _ c1 _ hg => get?_addLink l _ k c1 hg)
      cases hq : (Node.modifyAt (addLink l) p info.Sitemap).at? p with
      | none => rw [hq] at hex; cases hex
      | some m' =>
        refine ih _ _ _ _ m' ?_ ?_ h
        · exact hstep _ l m hP hm e
        · exact hq
    · rw [if_neg e] at h
      simp only at h
      refine ih _ _ _ _ m ?_ ?_ h
      · exact hP
      · exact hm

theorem insertLinks_some_ok (c : String) (r : Ref) :
    ∀ (links : List String) (info : Info) (tv : List (String × Bool)),
      ∃ res, insertLinks c (some r) links info tv = .ok res := by
  intro links
  induction links with
  | nil => intro info tv; exact ⟨_, rfl⟩
  | cons l rest ih =>
    intro info tv
    simp only [insertLinks]
    by_cases e : l ≠ c
    · rw [if_pos e]
      exact ih _ _
    · rw [if_neg e]
      exact ih _ _

/-! ## Where GetNodeFromSitemap points -/

theorem parentWalk_spec (info : Info) :
    ∀ (fuel : Nat) (u : String) (acc p : List String), parentWalk info fuel u acc = some p →
      ∃ ks, p = acc ++ ks ∧ (∀ x, x ∈ ks → info.parentOf x ≠ "" ∧ info.parentOf x ≠ ROOT) ∧
        (ks = [] ∨ ks.head? = some u) := by
  intro fuel
  induction fuel with
  | zero => intro u acc p h; simp [parentWalk] at h
  | succ fuel ih =>
    intro u acc p h
    simp only [parentWalk] at h
    split at h
    · rename_i hc
      obtain ⟨ks, h1, h2, -⟩ := ih _ _ _ h
      refine ⟨u :: ks, by rw [h1]; simp, ?_, Or.inr rfl⟩
      intro x hx
      rcases List.mem_cons.1 hx with hx | hx
      · rw [hx]; exact hc
      · exact h2 x hx
    · simp only [Option.some.injEq] at h
      exact ⟨[], by rw [← h]; simp, fun x hx => absurd hx (List.not_mem_nil x), Or.inl rfl⟩

theorem getNode_path (info : Info) (w : Nat) (u : String) (r : Ref)
    (h : info.GetNodeFromSitemap w u = .ok (some r)) :
    (r.path = [] ∨ r.path.getLast? = some u) ∧
    ∀ x, x ∈ r.path → info.parentOf x ≠ "" ∧ info.parentOf x ≠ ROOT := by
  unfold Info.GetNodeFromSitemap at h
  cases hw : parentWalk info w u [] with
  | none => rw [hw] at h; simp at h
  | some path =>
    rw [hw] at h
    simp only at h
    obtain ⟨ks, h1, h2, h3⟩ := parentWalk_spec info w u [] path hw
    simp only [List.nil_append] at h1
    subst h1
    by_cases hl : path.length = 0
    · rw [if_pos hl] at h
      simp only [Except.ok.injEq, Option.some.injEq] at h
      rw [← h]
      exact ⟨Or.inl rfl, fun x hx => absurd hx (List.not_mem_nil x)⟩
    · rw [if_neg hl] at h
      have hu : u ∈ path := by
        rcases h3 with h3 | h3
        · rw [h3] at hl; simp at hl
        · exact List.mem_of_mem_head? h3
      cases hd : descendLoop path (path.length - 1) (some ⟨[], info.Sitemap⟩) with
      | error e => rw [hd] at h; simp at h
      | ok temp =>
        rw [hd] at h
        simp only at h
        cases temp with
        | none => simp [linksIndex] at h
        | some t =>
          obtain ⟨r0, hr0, hp0⟩ := descendLoop_some path (path.length - 1) _ t (by omega) hd
          simp only [Option.some.injEq] at hr0
          subst hr0
          simp only [List.nil_append] at hp0
          simp only [linksIndex] at h
          cases hgk : GoMap.get? t.node.Links u with
          | none => rw [hgk] at h; simp at h
          | some c1 =>
            rw [hgk] at h
            simp only [Except.ok.injEq, Option.some.injEq] at h
            rw [← h]
            refine ⟨Or.inr (by simp), ?_⟩
            intro x hx
            simp only [List.mem_append, List.mem_singleton] at hx
            rcases hx with hx | hx
            · rw [hp0] at hx
              have : x ∈ path := by
                have h4 : x ∈ (path.drop 1).take (path.length - 1) := by simpa using hx
                exact List.mem_of_mem_drop (List.mem_of_mem_take h4)
              exact h2 x this
            · rw [hx]; exact h2 u hu

theorem parentWalk_loop (info : Info) (u : String) (h : info.parentOf u = u) (h1 : u ≠ "")
    (h2 : u ≠ ROOT) : ∀ (fuel : Nat) (acc : List String), parentWalk info fuel u acc = none := by
  intro fuel
  induction fuel with
  | zero => intro acc; rfl
  | succ fuel ih =>
    intro acc
    simp only [parentWalk]
    rw [if_pos (by rw [h]; exact ⟨h1, h2⟩), h]
    exact ih _

theorem rewrite_target_ne (info : Info) (c next : String) (walk : Nat) (r : Ref)
    (hP : info.parentOf c ≠ "")
    (hg : Info.GetNodeFromSitemap ⟨info.Sitemap, GoMap.set info.Parentmap next (info.parentOf c)⟩
      walk (info.parentOf c) = .ok (some r)) (hr : r.path ≠ []) : next ≠ info.parentOf c := by
  intro e
  have hpar : Info.parentOf ⟨info.Sitemap, GoMap.set info.Parentmap next (info.parentOf c)⟩
      (info.parentOf c) = info.parentOf c := by
    have := parentOf_set info next (info.parentOf c) (info.parentOf c)
    simp only at this
    rw [this, if_pos e]
  by_cases hroot : info.parentOf c = ROOT
  · have := getNode_stop _ walk _ r (Or.inr (by rw [hpar]; exact hroot)) hg
    rw [this] at hr
    exact hr rfl
  · have hl := parentWalk_loop _ _ hpar hP hroot walk []
    unfold Info.GetNodeFromSitemap at hg
    rw [hl] at hg
    simp at hg

/-! ## Self-links -/

theorem NoSelfLink_addLink (root : Node) (p : List String) (m : Node) (c l : String)
    (hK : NoSelfLink root) (hm : root.at? p = some m) (hp : p = [] ∨ p.getLast? = some c)
    (hl : l ≠ c) : NoSelfLink (Node.modifyAt (addLink l) p root) := by
  intro q n' k hq hk hmem
  rcases modifyAt_keys (addLink l) l p root m hm (fun k c1 h => get?_addLink_new l _ k c1 h)
    q n' k hq hmem with ⟨n, h1, h2⟩ | ⟨h1, h2⟩
  · exact hK q n k h1 hk h2
  · subst h2
    rcases hp with hp | hp
    · rw [hp] at hk; simp at hk
    · rw [hp] at hk
      simp only [Option.some.injEq] at hk
      exact hl (by rw [← h1, ← hk])

theorem NoSelfLink_rewrite (root : Node) (p : List String) (m : Node) (c next parent : String)
    (hK : NoSelfLink root) (hm : root.at? p = some m) (hp : p = [] ∨ p.getLast? = some parent)
    (hl : p ≠ [] → next ≠ parent) :
    NoSelfLink (Node.modifyAt
      (fun ls => GoMap.delete (GoMap.set ls next (Node.fresh next)) c) p root) := by
  intro q n' k hq hk hmem
  rcases modifyAt_keys _ next p root m hm (fun k c1 h => get?_rewrite_new c next _ k c1 h)
    q n' k hq hmem with ⟨n, h1, h2⟩ | ⟨h1, h2⟩
  · exact hK q n k h1 hk h2
  · subst h2
    rcases hp with hp | hp
    · rw [hp] at hk; simp at hk
    · have hne : q ≠ [] := by
        intro e
        rw [e] at hk
        simp at hk
      rw [hp] at hk
      simp only [Option.some.injEq] at hk
      exact hl hne (by rw [← h1, ← hk])

theorem NoSelfLink_processQueue (L : UrlPkg) (walk fuel : Nat) (net : Nat → Response)
    (c : String) (s s' : Stores) (hK : NoSelfLink s.info.Sitemap)
    (h : processQueue L walk fuel net c s = .ok s') : NoSelfLink s'.info.Sitemap := by
  rcases processQueue_cases L walk fuel net c s s' h with ⟨-, h1⟩ | ⟨-, mid, h1, -, -, -, h2⟩
  · subst h1
    simpa using hK
  · subst h1
    simp only [terminateIfComplete_info]
    rcases h2 with ⟨e1, -⟩ | ⟨next, info', hr, e1, -⟩ | ⟨links, temp, info', tv', hg, hi, e1, -⟩
    · rw [e1]; exact hK
    · rw [e1]
      rcases rewriteRedirect_cases walk c next s.info info' hr with e | ⟨hP, -, r, hg, hv, e⟩
      · rw [e]; exact hK
      · rw [e]
        have hp := (getNode_path _ walk _ r hg).1
        exact NoSelfLink_rewrite _ _ r.node c next _ hK hv hp
          (fun hne => rewrite_target_ne s.info c next walk r hP hg hne)
    · rw [e1]
      cases temp with
      | none =>
        rw [insertLinks_none c links _ _ _ _ hi]
        exact hK
      | some r =>
        have hp := (getNode_path _ walk _ r hg).1
        have hv := getNode_valid _ walk _ r hg
        exact insertLinks_sitemap c r.path r.node NoSelfLink
          (fun root l m hroot hm hl => NoSelfLink_addLink root r.path m c l hroot hm hp hl)
          links _ _ _ _ r.node hK hv hi

theorem NoSelfLink_reachable (L : UrlPkg) (rootURL : String) (s : Stores)
    (h : Reachable L rootURL s) : NoSelfLink s.info.Sitemap := by
  induction h with
  | init =>
    intro q m k hq hk hmem
    have := at?_fresh rootURL q m hq
    rw [this.2] at hmem
    simp [Node.fresh, GoMap.keys] at hmem
  | step hr hs ih =>
    rename_i s s'
    obtain ⟨i, c, walk, fuel, net, -, hp⟩ := hs
    have hK : NoSelfLink ({ s with queue := s.queue.eraseIdx i } : Stores).info.Sitemap := ih
    exact NoSelfLink_processQueue L walk fuel net c _ s' hK hp

/-! ## The URL of the root -/

theorem rootURL_processQueue (L : UrlPkg) (walk fuel : Nat) (net : Nat → Response)
    (c : String) (s s' : Stores) (h : processQueue L walk fuel net c s = .ok s') :
    s'.info.Sitemap.URL = s.info.Sitemap.URL := by
  rcases processQueue_cases L walk fuel net c s s' h with ⟨-, h1⟩ | ⟨-, mid, h1, -, -, -, h2⟩
  · subst h1
    simp
  · subst h1
    simp only [terminateIfComplete_info]
    rcases h2 with ⟨e1, -⟩ | ⟨next, info', hr, e1, -⟩ | ⟨links, temp, info', tv', hg, hi, e1, -⟩
    · rw [e1]
    · rw [e1]
      rcases rewriteRedirect_cases walk c next s.info info' hr with e | ⟨-, -, r, -, -, e⟩
      · rw [e]
      · rw [e]
        exact Node.modifyAt_URL _ _ _
    · rw [e1]
      cases temp with
      | none => rw [insertLinks_none c links _ _ _ _ hi]
      | some r =>
        have hv := getNode_valid _ walk _ r hg
        exact insertLinks_sitemap c r.path r.node (fun root => root.URL = s.info.Sitemap.URL)
          (fun root l m hroot _ _ => by simp only [Node.modifyAt_URL]; exact hroot)
          links _ _ _ _ r.node rfl hv hi

theorem rootURL_reachable (L : UrlPkg) (rootURL : String) (s : Stores)
    (h : Reachable L rootURL s) : s.info.Sitemap.URL = rootURL := by
  induction h with
  | init => rfl
  | step hr hs ih =>
    rename_i s s'
    obtain ⟨i, c, walk, fuel, net, -, hp⟩ := hs
    rw [rootURL_processQueue L walk fuel net c { s with queue := s.queue.eraseIdx i } s' hp]
    exact ih

/-! ## The children of the root whose entry is ROOT -/

theorem LeafUnder_modifyAt (S : String → Prop) (f : List (String × Node) → List (String × Node))
    (root : Node) (p : List String)
    (hf : ∀ ls k c1, GoMap.get? (f ls) k = some c1 → GoMap.get? ls k = some c1 ∨ c1.Links = [])
    (hL : LeafUnder S root) (hp : ∀ k, p.head? = some k → ¬ S k) :
    LeafUnder S (Node.modifyAt f p root) := by
  intro t n hS hg
  cases p with
  | nil =>
    simp only [Node.modifyAt, Node.Links_mk] at hg
    rcases hf _ _ _ hg with h1 | h1
    · exact hL t n hS h1
    · exact h1
  | cons k rest =>
    simp only [Node.modifyAt, Node.Links_mk, Node.get?_mapEntry] at hg
    by_cases e : k = t
    · subst e
      exact absurd hS (hp k rfl)
    · rw [if_neg e] at hg
      exact hL t n hS hg

theorem LeafUnder_mono (S S' : String → Prop) (root : Node) (h : ∀ t, S' t → S t)
    (hL : LeafUnder S root) : LeafUnder S' root :=
  fun t n hS hg => hL t n (h t hS) hg

theorem LeafUnder_processQueue (L : UrlPkg) (walk fuel : Nat) (net : Nat → Response)
    (c : String) (s s' : Stores)
    (hL : LeafUnder (fun t => s.info.parentOf t = "" ∨ s.info.parentOf t = ROOT) s.info.Sitemap)
    (h : processQueue L walk fuel net c s = .ok s') :
    LeafUnder (fun t => s'.info.parentOf t = "" ∨ s'.info.parentOf t = ROOT) s'.info.Sitemap := by
  have hkeep : ∀ t, s.info.parentOf t ≠ "" → s'.info.parentOf t = s.info.parentOf t :=
    fun t ht => parentOf_processQueue L walk fuel net c s s' h t ht
  have hsub : ∀ t, (s'.info.parentOf t = "" ∨ s'.info.parentOf t = ROOT) →
      (s.info.parentOf t = "" ∨ s.info.parentOf t = ROOT) := by
    intro t ht
    by_cases h0 : s.info.parentOf t = ""
    · exact Or.inl h0
    · rw [hkeep t h0] at ht
      exact ht
  have hL' := LeafUnder_mono _ _ _ hsub hL
  rcases processQueue_cases L walk fuel net c s s' h with ⟨-, h1⟩ | ⟨-, mid, h1, -, -, -, h2⟩
  · subst h1
    simpa using hL
  · have hi : s'.info = mid.info := by rw [h1]; simp
    rcases h2 with ⟨e1, -⟩ | ⟨next, info', hr, e1, -⟩ | ⟨links, temp, info', tv', hg, hins, e1, -⟩
    · rw [hi, e1] at hL' ⊢
      exact hL'
    · rcases rewriteRedirect_cases walk c next s.info info' hr with e | ⟨hP, -, r, hg, hv, e⟩
      · rw [hi, e1, e] at hL' ⊢
        exact hL'
      · have hpath := (getNode_path _ walk _ r hg).2
        have hs' : s'.info = ⟨Node.modifyAt
            (fun ls => GoMap.delete (GoMap.set ls next (Node.fresh next)) c) r.path s.info.Sitemap,
            GoMap.set s.info.Parentmap next (s.info.parentOf c)⟩ := by rw [hi, e1, e]
        have hgoal : LeafUnder (fun t => s'.info.parentOf t = "" ∨ s'.info.parentOf t = ROOT)
            (Node.modifyAt (fun ls => GoMap.delete (GoMap.set ls next (Node.fresh next)) c)
              r.path s.info.Sitemap) := by
          refine LeafUnder_modifyAt _ _ _ _ ?_ hL' ?_
          · intro ls k c1 hk
            rcases get?_rewrite_new c next ls k c1 hk with h3 | h3
            · exact Or.inl h3
            · right; rw [h3.2]; rfl
          · intro k hk ht
            have hk1 := hpath k (List.mem_of_mem_head? hk)
            have : s'.info.parentOf k = Info.parentOf
                ⟨s.info.Sitemap, GoMap.set s.info.Parentmap next (s.info.parentOf c)⟩ k := by
              rw [hs']; rfl
            rw [this] at ht
            rcases ht with ht | ht
            · exact hk1.1 ht
            · exact hk1.2 ht
        have hsm : s'.info.Sitemap = Node.modifyAt
            (fun ls => GoMap.delete (GoMap.set ls next (Node.fresh next)) c) r.path
            s.info.Sitemap := by rw [hs']
        rw [hsm]
        exact hgoal
    · cases temp with
      | none =>
        have := insertLinks_none c links _ _ _ _ hins
        have hsm : s'.info.Sitemap = s.info.Sitemap := by rw [hi, e1, this]
        rw [hsm]
        exact hL'
      | some r =>
        have hpath := (getNode_path _ walk _ r hg).2
        have hv := getNode_valid _ walk _ r hg
        have hsm : s'.info.Sitemap = info'.Sitemap := by rw [hi, e1]
        rw [hsm]
        refine insertLinks_sitemap c r.path r.node
          (LeafUnder (fun t => s'.info.parentOf t = "" ∨ s'.info.parentOf t = ROOT))
          ?_ links _ _ _ _ r.node hL' hv hins
        intro root l m hroot _ _
        refine LeafUnder_modifyAt _ _ _ _ ?_ hroot ?_
        · intro ls k c1 hk
          rcases get?_addLink_new l ls k c1 hk with h3 | h3
          · exact Or.inl h3
          · right; rw [h3.2]; rfl
        · intro k hk ht
          have hk1 := hpath k (List.mem_of_mem_head? hk)
          rw [hkeep k hk1.1] at ht
          rcases ht with ht | ht
          · exact hk1.1 ht
          · exact hk1.2 ht

theorem LeafUnder_reachable (L : UrlPkg) (rootURL : String) (s : Stores)
    (h : Reachable L rootURL s) :
    LeafUnder (fun t => s.info.parentOf t = "" ∨ s.info.parentOf t = ROOT) s.info.Sitemap := by
  induction h with
  | init =>
    intro t n _ hg
    simp [CreateSiteMap.init, GoMap.get?] at hg
  | step hr hs ih =>
    rename_i s s'
    obtain ⟨i, c, walk, fuel, net, -, hp⟩ := hs
    exact LeafUnder_processQueue L walk fuel net c { s with queue := s.queue.eraseIdx i } s' ih hp

/-! ## C11, C12, C22: the chain of parents and the lookup -/

theorem Named_of_check (tv : List (String × Bool))
    (h : (GoMap.keys tv).all (fun u => decide (u ≠ "") && decide (u ≠ ROOT)) = true) :
    Named tv := by
  intro u hu
  rw [List.all_eq_true] at h
  have := h u hu
  simpa using this

theorem getNode_stop_ok (info : Info) (w : Nat) (u : String)
    (hs : info.parentOf u = "" ∨ info.parentOf u = ROOT) :
    info.GetNodeFromSitemap (w + 1) u = .ok (some ⟨[], info.Sitemap⟩) := by
  unfold Info.GetNodeFromSitemap
  have hw : parentWalk info (w + 1) u [] = some [] := by
    simp only [parentWalk]
    rw [if_neg]
    rintro ⟨h1, h2⟩
    rcases hs with hs | hs
    · exact h1 hs
    · exact h2 hs
  rw [hw]
  rfl

theorem node_url_discovered (L : UrlPkg) (rootURL : String) (s : Stores)
    (h : Reachable L rootURL s) (hN : Named s.toVisit) (q : List String) (n : Node)
    (hq : s.info.Sitemap.at? q = some n) : n.URL ∈ GoMap.keys s.toVisit := by
  have hL := Linked_reachable L rootURL s h hN
  rcases List.eq_nil_or_concat q with e | ⟨q', k, e⟩
  · subst e
    simp only [Node.at?, Option.some.injEq] at hq
    rw [← hq, rootURL_reachable L rootURL s h]
    exact hL.entry rootURL (by rw [hL.seed]; exact ROOT_ne_empty)
  · rw [List.concat_eq_append] at e
    subst e
    obtain ⟨m, hm, hk⟩ := Node.at?_snoc _ _ _ _ hq
    have hkm := Node.keyed_at? (keyed_reachable L rootURL s h) q' m hm
    have hu := (Node.keyed_links hkm).2.1 (k, n) (GoMap.mem_of_get? _ _ _ hk)
    simp only at hu
    rw [hu]
    exact hL.keysIn q' m k hm (GoMap.mem_keys_of_get? _ _ _ hk)

theorem found_unfetched (L : UrlPkg) (rootURL : String) (s : Stores)
    (h : Reachable L rootURL s) (hN : Named s.toVisit) (u : String) (hf : u ∉ s.fetched) :
    ∃ r w0, s.info.Sitemap.at? r.path = some r.node ∧
      ∀ walk, w0 ≤ walk → s.info.GetNodeFromSitemap walk u = .ok (some r) := by
  have hL := Linked_reachable L rootURL s h hN
  by_cases hu : u ∈ GoMap.keys s.toVisit
  · obtain ⟨ks, hch, hloc⟩ := hL.chain u hu
    have := hloc hf
    cases hq : s.info.Sitemap.at? ks.reverse with
    | none => rw [hq] at this; cases this
    | some n =>
      exact ⟨⟨ks.reverse, n⟩, ks.length + 1, hq,
        fun walk hw => getNode_of_chain hch n hq walk (by omega)⟩
  · have h0 : s.info.parentOf u = "" := by
      by_contra h0
      exact hu (hL.entry u h0)
    refine ⟨⟨[], s.info.Sitemap⟩, 1, rfl, ?_⟩
    intro walk hw
    obtain ⟨w, rfl⟩ : ∃ w, walk = w + 1 := ⟨walk - 1, by omega⟩
    exact getNode_stop_ok s.info w u (Or.inl h0)

theorem climb_empty (info : Info) (h : info.parentOf "" = "") :
    ∀ k, info.climb k "" = "" := by
  intro k
  induction k with
  | zero => rfl
  | succ k ih =>
    simp only [Info.climb]
    rw [h]
    exact ih

/-- On `seedRedirectSite`: when the seed `S` answers with a redirect to `T`, the
rewrite gives `T` a node under the root and the entry `ROOT`; following the
parent-of index from `T` never arrives at the seed, and
`GetNodeFromSitemap("T")` is the root, not the node of `T`. -/
theorem seedRedirected_chain :
    runSteps oneHost 10 6 seedRedirectSite [0] (CreateSiteMap.init "S") = some seedRedirected ∧
    seedRedirected.info.Sitemap.at? ["T"] = some (Node.mk "T" []) ∧
    seedRedirected.info.parentOf "T" = ROOT ∧
    (∀ k, seedRedirected.info.climb k "T" ≠ "S") ∧
    seedRedirected.info.GetNodeFromSitemap 10 "T"
      = .ok (some ⟨[], seedRedirected.info.Sitemap⟩) := by
  refine ⟨by decide!, by decide, by decide, ?_, by decide!⟩
  intro k
  cases k with
  | zero => decide
  | succ k =>
    cases k with
    | zero => decide
    | succ k =>
      have : seedRedirected.info.climb (k + 1 + 1) "T" = seedRedirected.info.climb k "" := rfl
      rw [this, climb_empty _ (by decide)]
      decide

/-- In every state reachable by worker steps in which no discovered URL is the
empty string or `ROOT`, following the parent-of index from the URL of any node
of the tree arrives, after a number `k` of steps through entries that are real
URLs, at a URL whose entry is `ROOT`; the parent walk of `GetNodeFromSitemap`
ends, with a path of length `k`, for every fuel above `k`. -/
theorem chain_reaches_root_entry (L : UrlPkg) (rootURL : String) (s : Stores)
    (h : Reachable L rootURL s) (hN : Named s.toVisit) (q : List String) (n : Node)
    (hq : s.info.Sitemap.at? q = some n) :
    s.info.parentOf rootURL = ROOT ∧
    ∃ k, s.info.parentOf (s.info.climb k n.URL) = ROOT ∧
      (∀ j, j < k → s.info.parentOf (s.info.climb j n.URL) ≠ "" ∧
        s.info.parentOf (s.info.climb j n.URL) ≠ ROOT) ∧
      (∀ fuel, k < fuel → ∃ path, parentWalk s.info fuel n.URL [] = some path ∧
        path.length = k) := by
  have hL := Linked_reachable L rootURL s h hN
  obtain ⟨ks, hch, -⟩ := hL.chain n.URL (node_url_discovered L rootURL s h hN q n hq)
  obtain ⟨h1, h2⟩ := chain_climb hch
  refine ⟨hL.seed, ks.length, h1, h2, ?_⟩
  intro fuel hf
  exact ⟨ks, by simpa using chain_walk hch [] fuel hf, rfl⟩

/-- C11: the code differs from the claim at a redirect of the seed.  When the
seed `S` answers with a redirect to `T`, the rewrite copies the entry `ROOT`
of the seed to `T`: the node of `T` is a child of the root, its entry says it
has no parent, following the index from `T` never arrives at the seed, and
`GetNodeFromSitemap("T")` is the root.  Apart from that the claim holds: in
every reachable state in which no discovered URL is the empty string or
`ROOT`, following the index from the URL of any node arrives after finitely
many steps at a URL whose entry is `ROOT`, so there is no cycle and the parent
walk ends; and that URL is the seed whenever no other URL has the entry
`ROOT`. -/
theorem seed_redirect_breaks_parent_chain :
    (runSteps oneHost 10 6 seedRedirectSite [0] (CreateSiteMap.init "S") = some seedRedirected ∧
      seedRedirected.info.Sitemap.at? ["T"] = some (Node.mk "T" []) ∧
      seedRedirected.info.parentOf "T" = ROOT ∧
      (∀ k, seedRedirected.info.climb k "T" ≠ "S") ∧
      seedRedirected.info.GetNodeFromSitemap 10 "T"
        = .ok (some ⟨[], seedRedirected.info.Sitemap⟩)) ∧
    (∀ (L : UrlPkg) (rootURL : String) (s : Stores), Reachable L rootURL s →
      Named s.toVisit → ∀ (q : List String) (n : Node), s.info.Sitemap.at? q = some n →
      ∃ k, s.info.parentOf (s.info.climb k n.URL) = ROOT ∧
        (∀ j, j < k → s.info.parentOf (s.info.climb j n.URL) ≠ "" ∧
          s.info.parentOf (s.info.climb j n.URL) ≠ ROOT) ∧
        (∀ fuel, k < fuel → ∃ path, parentWalk s.info fuel n.URL [] = some path ∧
          path.length = k) ∧
        ((∀ t, s.info.parentOf t = ROOT → t = rootURL) → s.info.climb k n.URL = rootURL)) := by
  refine ⟨seedRedirected_chain, ?_⟩
  intro L rootURL s h hN q n hq
  obtain ⟨-, k, h1, h2, h3⟩ := chain_reaches_root_entry L rootURL s h hN q n hq
  exact ⟨k, h1, h2, h3, fun hroot => hroot _ h1⟩

/-- C12, counterexample: on `lateSite` the URL `S/r` gets a node under the
seed, which the lookup finds; then `S/r` is processed as a redirect and the
node is deleted; then the page `S/a` gets a node for `S/r`.  In that state
`S/r` is a node of the tree and `GetNodeFromSitemap("S/r")` returns nil. -/
theorem lookup_after_redirect_counterexample :
    (runSteps oneHost 10 6 lateSite [0] (CreateSiteMap.init "S")).map
        (fun s => (s.info.Sitemap.at? ["S/r"], s.info.GetNodeFromSitemap 10 "S/r"))
      = some (some (Node.mk "S/r" []), .ok (some ⟨["S/r"], Node.mk "S/r" []⟩)) ∧
    (runSteps oneHost 10 6 lateSite [0, 0, 0] (CreateSiteMap.init "S")).map
        (fun s => (s.info.Sitemap.at? ["S/a", "S/r"], s.info.GetNodeFromSitemap 10 "S/r"))
      = some (some (Node.mk "S/r" []), .ok none) :=
  ⟨by decide!, by decide!⟩

theorem lateSiteSeeded_reachable : Reachable oneHost "S" lateSiteSeeded :=
  reachable_runSteps oneHost "S" 10 6 lateSite [0] _ _ Reachable.init (by decide!)

/-! ## C18: self-links -/

/-- On `seedRedirectSite` the seed `S` answers with a redirect to `T` and `T`
links to `S`.  The links of `T` are inserted under the root, whose URL is `S`,
and the test `link != currentURL` compares with `T`: the root gets a child
with its own URL. -/
theorem seedRedirect_root_self_link :
    (runSteps oneHost 10 6 seedRedirectSite [0, 0] (CreateSiteMap.init "S")).map
        (fun s => (s.info.Sitemap.URL, GoMap.keys s.info.Sitemap.Links,
          s.info.Sitemap.at? ["S"]))
      = some ("S", ["T", "S", "U"], some (Node.mk "S" [])) ∧
    runSteps oneHost 10 6 seedRedirectSite [0, 0, 0, 0] (CreateSiteMap.init "S")
      = some seedRedirectDone :=
  ⟨by decide!, by decide!⟩

/-- In every state reachable by worker steps no node below the root has a
child with the node's own URL; the root has no child with the URL of the seed
when no discovered URL is the empty string or `ROOT` and no URL other than the
seed has the entry `ROOT`. -/
theorem no_self_link_unless_seed_redirect (L : UrlPkg) (rootURL : String) (s : Stores)
    (h : Reachable L rootURL s) (q : List String) (n : Node)
    (hq : s.info.Sitemap.at? q = some n) :
    (q ≠ [] → n.URL ∉ GoMap.keys n.Links) ∧
    (q = [] → Named s.toVisit → (∀ t, s.info.parentOf t = ROOT → t = rootURL) →
      n.URL = rootURL ∧ n.URL ∉ GoMap.keys n.Links) := by
  refine ⟨?_, ?_⟩
  · intro hne
    rcases List.eq_nil_or_concat q with e | ⟨q', k, e⟩
    · exact absurd e hne
    · rw [List.concat_eq_append] at e
      subst e
      obtain ⟨m, hm, hk⟩ := Node.at?_snoc _ _ _ _ hq
      have hkm := Node.keyed_at? (keyed_reachable L rootURL s h) q' m hm
      have hu := (Node.keyed_links hkm).2.1 (k, n) (GoMap.mem_of_get? _ _ _ hk)
      simp only at hu
      rw [hu]
      exact NoSelfLink_reachable L rootURL s h (q' ++ [k]) n k hq (by simp)
  · intro e hN hroot
    subst e
    simp only [Node.at?, Option.some.injEq] at hq
    subst hq
    have hU := rootURL_reachable L rootURL s h
    refine ⟨hU, ?_⟩
    rw [hU]
    intro hmem
    obtain ⟨t, ht1, ht2⟩ := (Linked_reachable L rootURL s h hN).rootKey hmem
    exact ht1 (hroot t ht2)

/-- C18: the code differs from the claim after a redirect of the seed.  The
link loop skips a link equal to `currentURL`, not a link equal to the URL of
the node it inserts under.  On `seedRedirectSite` the seed `S` answers with a
redirect to `T`, the lookup of `T` returns the root, and the link from `T` to
`S` is inserted: the root, whose URL is `S`, gets a child `S`.  Apart from
that the claim holds: in every reachable state no node below the root has a
child with the node's own URL, the root has none when no URL other than the
seed has the entry `ROOT` (and no discovered URL is the empty string or
`ROOT`), and a seed page whose only link is to itself leaves the root without
links. -/
theorem self_link_check_misses_root :
    ((runSteps oneHost 10 6 seedRedirectSite [0, 0] (CreateSiteMap.init "S")).map
        (fun s => (s.info.Sitemap.URL, GoMap.keys s.info.Sitemap.Links,
          s.info.Sitemap.at? ["S"]))
      = some ("S", ["T", "S", "U"], some (Node.mk "S" [])) ∧
      runSteps oneHost 10 6 seedRedirectSite [0, 0, 0, 0] (CreateSiteMap.init "S")
        = some seedRedirectDone) ∧
    (∀ (L : UrlPkg) (rootURL : String) (s : Stores), Reachable L rootURL s →
      ∀ (q : List String) (n : Node), s.info.Sitemap.at? q = some n →
      (q ≠ [] → n.URL ∉ GoMap.keys n.Links) ∧
      (q = [] → Named s.toVisit → (∀ t, s.info.parentOf t = ROOT → t = rootURL) →
        n.URL = rootURL ∧ n.URL ∉ GoMap.keys n.Links)) ∧
    (runSteps oneHost 10 6 selfSite [0] (CreateSiteMap.init "S")).map (fun s => s.info.Sitemap)
      = some (Node.mk "S" []) :=
  ⟨seedRedirect_root_self_link, no_self_link_unless_seed_redirect, by decide!⟩

/-! ## C22: the lookup at the insertion of children -/

/-- C22: in every state reachable by complete worker steps in which no
discovered URL is the empty string or `ROOT`, for a URL `c` that a worker
receives (as the `i`-th pending URL of the queue, or any other) and claims
because it has no visit-state entry, `GetNodeFromSitemap(c)` returns a node of
the tree for every fuel from some bound on; every node on the way down to it
exists; the insertion of any links at that node returns; a fetch without error
leaves the index and the tree as they were, so that this is the lookup the
worker makes, and the whole iteration then returns without fault. -/
theorem insertion_finds_node (L : UrlPkg) (rootURL : String) (s : Stores)
    (h : Reachable L rootURL s) (hN : Named s.toVisit) (i : Nat) (c : String)
    (hns : alreadySeen s.visitState c = false) :
    ∃ r w0, s.info.Sitemap.at? r.path = some r.node ∧
      (∀ q, q <+: r.path → (s.info.Sitemap.at? q).isSome = true) ∧
      (∀ walk, w0 ≤ walk → s.info.GetNodeFromSitemap walk c = .ok (some r)) ∧
      (∀ links, ∃ res, insertLinks c (some r) links s.info s.toVisit = .ok res) ∧
      (∀ (net : Nat → Response) (walk fuel : Nat) (out : CrawlOut), w0 ≤ walk →
        crawl L net walk fuel 0 c 1
          { s with queue := s.queue.eraseIdx i
                   visitState := GoMap.set s.visitState c VISITING
                   fetched := s.fetched ++ [c] } [] = .ok out →
        out.err = none →
        out.stores.info = s.info ∧
        ∃ s', processQueue L walk fuel net c { s with queue := s.queue.eraseIdx i } = .ok s') := by
  have hT := Tidy_reachable L rootURL s h
  have hcf : c ∉ s.fetched := by
    rw [hT.fetchedEq]
    exact (GoMap.get?_eq_none_iff _ _).1 ((alreadySeen_iff s hT c).1 hns)
  obtain ⟨r, w0, hv, hg⟩ := found_unfetched L rootURL s h hN c hcf
  refine ⟨r, w0, hv, ?_, hg, fun links => insertLinks_some_ok c r links _ _, ?_⟩
  · rintro q ⟨q', hq'⟩
    rw [← hq', Node.at?_append] at hv
    cases hz : s.info.Sitemap.at? q with
    | none => rw [hz] at hv; simp at hv
    | some m => rfl
  · intro net walk fuel out hw hcr herr
    have hst : out.stores = { s with queue := s.queue.eraseIdx i
                                     visitState := GoMap.set s.visitState c VISITING
                                     fetched := s.fetched ++ [c] } := by
      rcases crawl_ok_cases L net walk fuel 0 c 1 _ [] out hcr with h1 | ⟨-, h1, -⟩
      · exact h1
      · exact absurd herr h1
    have hinfo : out.stores.info = s.info := by rw [hst]
    have htv : out.stores.toVisit = s.toVisit := by rw [hst]
    refine ⟨hinfo, ?_⟩
    obtain ⟨res, hres⟩ := insertLinks_some_ok c r out.links s.info s.toVisit
    unfold processQueue
    rw [if_neg (by simp [hns])]
    simp only [hcr, herr, hinfo, htv, hg walk hw, hres]
    exact ⟨_, rfl⟩

/-- After the seed of `lateSite` was fetched, a worker receives `S/a`. -/
theorem insertion_finds_node_witness :
    ∃ r w0, lateSiteSeeded.info.Sitemap.at? r.path = some r.node ∧
      (∀ walk, w0 ≤ walk → lateSiteSeeded.info.GetNodeFromSitemap walk "S/a" = .ok (some r)) ∧
      (∀ links, ∃ res, insertLinks "S/a" (some r) links lateSiteSeeded.info
        lateSiteSeeded.toVisit = .ok res) :=
  (insertion_finds_node oneHost "S" lateSiteSeeded lateSiteSeeded_reachable
    (Named_of_check _ (by decide)) 1 "S/a" (by decide)).elim
    (fun r hr => hr.elim (fun w0 hw => ⟨r, w0, hw.1, hw.2.2.1, hw.2.2.2.1⟩))

/-! ## C21: a redirect of the seed -/

theorem rewriteRedirect_seed (rootURL next : String) (walk : Nat) (hne : next ≠ rootURL) :
    rewriteRedirect (walk + 1) rootURL next (CreateSiteMap.init rootURL).info
      = .ok ⟨Node.mk rootURL [(next, Node.fresh next)], [(rootURL, ROOT), (next, ROOT)]⟩ := by
  have hpar : ∀ u, (CreateSiteMap.init rootURL).info.parentOf u
      = if rootURL = u then ROOT else "" := by
    intro u
    simp only [CreateSiteMap.init, Info.parentOf, GoMap.set, GoMap.get?]
    split <;> rfl
  have hP : (CreateSiteMap.init rootURL).info.parentOf rootURL = ROOT := by
    rw [hpar, if_pos rfl]
  have hto : (CreateSiteMap.init rootURL).info.parentOf next = "" := by
    rw [hpar, if_neg (fun e => hne e.symm)]
  have hstop : Info.parentOf ⟨(CreateSiteMap.init rootURL).info.Sitemap,
      GoMap.set (CreateSiteMap.init rootURL).info.Parentmap next
        ((CreateSiteMap.init rootURL).info.parentOf rootURL)⟩
      ((CreateSiteMap.init rootURL).info.parentOf rootURL) = ""
      ∨ Info.parentOf ⟨(CreateSiteMap.init rootURL).info.Sitemap,
      GoMap.set (CreateSiteMap.init rootURL).info.Parentmap next
        ((CreateSiteMap.init rootURL).info.parentOf rootURL)⟩
      ((CreateSiteMap.init rootURL).info.parentOf rootURL) = ROOT := by
    have := parentOf_set (CreateSiteMap.init rootURL).info next
      ((CreateSiteMap.init rootURL).info.parentOf rootURL)
      ((CreateSiteMap.init rootURL).info.parentOf rootURL)
    simp only at this
    rw [this, hP, hpar]
    by_cases e : next = ROOT
    · rw [if_pos e]; exact Or.inr rfl
    · rw [if_neg e]
      by_cases e2 : rootURL = ROOT
      · rw [if_pos e2]; exact Or.inr rfl
      · rw [if_neg e2]; exact Or.inl rfl
  have hnode := getNode_stop_ok _ walk _ hstop
  have := (rewriteRedirect_spec (walk + 1) rootURL next (CreateSiteMap.init rootURL).info
    ⟨[], (CreateSiteMap.init rootURL).info.Sitemap⟩ (by rw [hP]; exact ROOT_ne_empty) hto hnode).1
  rw [this, hP]
  simp only [CreateSiteMap.init, Node.modifyAt, Node.URL_mk, Node.Links_mk, GoMap.set,
    GoMap.delete, if_neg hne, if_neg (fun e : rootURL = next => hne e.symm)]

theorem insertLinks_root (c : String) (node : Node) :
    ∀ (links : List String) (info : Info) (tv : List (String × Bool)) (info' : Info)
      (tv' : List (String × Bool)),
      insertLinks c (some ⟨[], node⟩) links info tv = .ok (info', tv') →
      (∀ k, k ∈ GoMap.keys info.Sitemap.Links → k ∈ GoMap.keys info'.Sitemap.Links) ∧
      (∀ l, l ∈ links → l ≠ c → l ∈ GoMap.keys info'.Sitemap.Links) ∧
      GoMap.get? info'.Sitemap.Links c = GoMap.get? info.Sitemap.Links c := by
  intro links
  induction links with
  | nil =>
    intro info tv info' tv' h
    simp only [insertLinks, Except.ok.injEq, Prod.mk.injEq] at h
    rw [← h.1]
    exact ⟨fun k hk => hk, fun l hl => absurd hl (List.not_mem_nil l), rfl⟩
  | cons l rest ih =>
    intro info tv info' tv' h
    simp only [insertLinks] at h
    by_cases e : l ≠ c
    · rw [if_pos e] at h
      simp only at h
      obtain ⟨h1, h2, h3⟩ := ih _ _ _ _ h
      simp only [Node.modifyAt, Node.Links_mk] at h1 h2 h3
      have hkeep : ∀ k, k ∈ GoMap.keys info.Sitemap.Links →
          k ∈ GoMap.keys (addLink l info.Sitemap.Links) := by
        intro k hk
        obtain ⟨v, hv⟩ := (mem_keys_iff_get? _ _).1 hk
        exact GoMap.mem_keys_of_get? _ _ _ (get?_addLink l _ k v hv)
      refine ⟨fun k hk => h1 k (hkeep k hk), ?_, ?_⟩
      · intro x hx hxc
        rcases List.mem_cons.1 hx with hx | hx
        · subst hx
          obtain ⟨v, hv⟩ := get?_addLink_self x info.Sitemap.Links
          exact h1 x (GoMap.mem_keys_of_get? _ _ _ hv)
        · exact h2 x hx hxc
      · rw [h3]
        unfold addLink
        split
        · exact GoMap.get?_set_ne _ _ _ _ e
        · rfl
    · rw [if_neg e] at h
      simp only at h
      obtain ⟨h1, h2, h3⟩ := ih _ _ _ _ h
      refine ⟨h1, ?_, h3⟩
      intro x hx hxc
      rcases List.mem_cons.1 hx with hx | hx
      · subst hx
        exact absurd (not_not.1 e) hxc
      · exact h2 x hx hxc

/-- C21: when the seed answers with an accepted redirect to `next`, the first
worker step ends with the entry `ROOT` for `next`, the tree made of the root
and an empty node for `next`, and `next` in the queue.  In every reachable
state in which `next` has the entry `ROOT` (and the entry stays, by every
step), `GetNodeFromSitemap(next)` is the root, whose URL is the seed; the node
of `next` under the root has no links; and the insertion of the links found on
`next` puts every link other than `next` among the children of the root and
leaves the node of `next` as it was. -/
theorem seed_redirect_links_under_root (L : UrlPkg) (rootURL next : String)
    (net : Nat → Response) (walk fuel : Nat) (cur parsed : URL)
    (hf : (net 0).failed = false) (hp : L.Parse rootURL = some cur)
    (hcode : (net 0).StatusCode > 300 ∧ (net 0).StatusCode < 400)
    (hloc : L.Parse (net 0).location = some parsed)
    (hnext : next = NormalizeURL (L.Str (resolveIfRelativePath L cur parsed)))
    (hacc : next ≠ rootURL ∧ cur.Host = (resolveIfRelativePath L cur parsed).Host) :
    (∃ s1, processQueue L (walk + 1) (fuel + 1) net rootURL
        { CreateSiteMap.init rootURL with queue := [] } = .ok s1 ∧
      s1.info.parentOf next = ROOT ∧
      s1.info.Sitemap = Node.mk rootURL [(next, Node.fresh next)] ∧
      s1.queue = [next]) ∧
    (∀ s, Reachable L rootURL s → s.info.parentOf next = ROOT →
      (∀ w, s.info.GetNodeFromSitemap (w + 1) next = .ok (some ⟨[], s.info.Sitemap⟩)) ∧
      s.info.Sitemap.URL = rootURL ∧
      (∀ n, GoMap.get? s.info.Sitemap.Links next = some n → n.Links = []) ∧
      (∀ s', Step L s s' → s'.info.parentOf next = ROOT) ∧
      (∀ (node : Node) (links : List String) (info' : Info) (tv' : List (String × Bool)),
        insertLinks next (some ⟨[], node⟩) links s.info s.toVisit = .ok (info', tv') →
        (∀ l, l ∈ links → l ≠ next → l ∈ GoMap.keys info'.Sitemap.Links) ∧
        GoMap.get? info'.Sitemap.Links next = GoMap.get? s.info.Sitemap.Links next)) := by
  constructor
  · subst hnext
    have hrw := rewriteRedirect_seed rootURL _ walk hacc.1
    have hrw' : rewriteRedirect (walk + 1) rootURL
        (NormalizeURL (L.Str (resolveIfRelativePath L cur parsed)))
        { Sitemap := Node.mk rootURL [], Parentmap := GoMap.set [] rootURL ROOT }
        = .ok ⟨Node.mk rootURL [(NormalizeURL (L.Str (resolveIfRelativePath L cur parsed)),
            Node.fresh (NormalizeURL (L.Str (resolveIfRelativePath L cur parsed))))],
          [(rootURL, ROOT), (NormalizeURL (L.Str (resolveIfRelativePath L cur parsed)), ROOT)]⟩ :=
      hrw
    have hseen : alreadySeen ({ CreateSiteMap.init rootURL with queue := [] } : Stores).visitState
        rootURL = false := rfl
    unfold processQueue
    rw [if_neg (by rw [hseen]; exact Bool.false_ne_true)]
    simp only [crawl, hf, Bool.false_eq_true, if_false, hp, hcode, and_self, if_true, hloc, hacc,
      ne_eq, not_false_eq_true, CreateSiteMap.init, hrw']
    refine ⟨_, rfl, ?_, ?_, ?_⟩
    · simp [Info.parentOf, GoMap.get?, hacc.1, Ne.symm hacc.1]
    · simp
    · simp
  · intro s hs hpar
    refine ⟨fun w => getNode_stop_ok s.info w next (Or.inr hpar), rootURL_reachable L rootURL s hs,
      ?_, ?_, ?_⟩
    · intro n hn
      exact LeafUnder_reachable L rootURL s hs next n (Or.inr hpar) hn
    · intro s' hstep
      rw [parentOf_step L s s' hstep next (by rw [hpar]; exact ROOT_ne_empty), hpar]
    · intro node links info' tv' hi
      exact (insertLinks_root next node links _ _ _ _ hi).2

/-- The crawl of `seedRedirectSite`: the seed `S` answers with a redirect to
`T`; at the end the links of `T` are children of the root and the node of `T`
has none. -/
theorem seed_redirect_links_under_root_witness :
    (∃ s1, processQueue oneHost 10 6 (seedRedirectSite "S") "S"
        { CreateSiteMap.init "S" with queue := [] } = .ok s1 ∧
      s1.info.parentOf "T" = ROOT ∧
      s1.info.Sitemap = Node.mk "S" [("T", Node.fresh "T")] ∧
      s1.queue = ["T"]) ∧
    runSteps oneHost 10 6 seedRedirectSite [0, 0, 0, 0] (CreateSiteMap.init "S")
      = some seedRedirectDone ∧
    seedRedirectDone.info.Sitemap
      = Node.mk "S" [("T", Node.mk "T" []), ("S", Node.mk "S" []), ("U", Node.mk "U" [])] :=
  ⟨(seed_redirect_links_under_root oneHost "S" "T" (seedRedirectSite "S") 9 5
      ⟨"http", "h", "S"⟩ ⟨"http", "h", "T"⟩ rfl rfl (by decide) rfl (by decide)
      ⟨by decide, rfl⟩).1, by decide!, rfl⟩

/-! ## C9: the node the rewrite inserts under -/

theorem lookup_node_url (L : UrlPkg) (rootURL : String) (s : Stores)
    (h : Reachable L rootURL s) (hN : Named s.toVisit) (c next : String) (walk : Nat) (r : Ref)
    (hP : s.info.parentOf c ≠ "") (hR : s.info.parentOf c ≠ ROOT)
    (hto : s.info.parentOf next = "")
    (hnode : Info.GetNodeFromSitemap
      ⟨s.info.Sitemap, GoMap.set s.info.Parentmap next (s.info.parentOf c)⟩ walk
      (s.info.parentOf c) = .ok (some r))
    (hseed : s.info.parentOf (s.info.parentOf c) ≠ ROOT ∨ s.info.parentOf c = rootURL) :
    r.node.URL = s.info.parentOf c := by
  have hL := Linked_reachable L rootURL s h hN
  have hpf := hL.parents c hP hR
  obtain ⟨ks, hch, -⟩ := hL.chain _ (hL.sub _ hpf)
  have hmono : ∀ x, s.info.parentOf x ≠ "" →
      Info.parentOf ⟨s.info.Sitemap, GoMap.set s.info.Parentmap next (s.info.parentOf c)⟩ x
        = s.info.parentOf x := by
    intro x hx
    have := parentOf_set s.info next (s.info.parentOf c) x
    simp only at this
    rw [this, if_neg]
    intro e
    subst e
    exact hx hto
  have hch1 := chain_mono hmono hch
  obtain ⟨hrp, hrn⟩ := getNode_chain_path hch1 walk r hnode
  simp only at hrn
  cases hch with
  | root _ hroot =>
    simp only [List.reverse_nil, Node.at?, Option.some.injEq] at hrn
    rw [← hrn, rootURL_reachable L rootURL s h]
    rcases hseed with hs | hs
    · exact absurd hroot hs
    · exact hs.symm
  | step _ ks' h1 h2 hc =>
    rw [List.reverse_cons] at hrn
    obtain ⟨m, hm, hk⟩ := Node.at?_snoc _ _ _ _ hrn
    have hkm := Node.keyed_at? (keyed_reachable L rootURL s h) _ m hm
    have hu := (Node.keyed_links hkm).2.1 (_, r.node) (GoMap.mem_of_get? _ _ _ hk)
    exact hu

/-- C9: the code differs from the claim when the recorded parent P of the
redirecting URL is itself the target of a redirect of the seed.  On
`chainRedirectSite` the seed `S` redirects to `T`, `T` links to `C`, and `C`
redirects to `D`: the recorded parent of `C` is `T`, which has a node under the
root, but the lookup of `T` made by the rewrite returns the root, so `D` is
inserted under the root and the node of `T` keeps an empty link set, while the
index records `T` as the parent of `D`.  Apart from that the claim holds: in
every reachable state in which no discovered URL is the empty string or
`ROOT`, when P is the seed or has an entry other than `ROOT`, the lookup
returns the node whose URL is P, and the rewrite ends with `nextRawURL`
recorded under P, a fresh empty node for it among the links of that node, no
entry for `rawURL` there, and every other link, node and index entry as
before. -/
theorem rewrite_inserts_under_lookup_result :
    ((runSteps oneHost 10 6 chainRedirectSite [0, 0] (CreateSiteMap.init "S")).map
        (fun s => (s.info.Sitemap, s.info.Parentmap))
      = some (Node.mk "S" [("T", Node.mk "T" []), ("C", Node.mk "C" [])],
          [("S", "ROOT"), ("T", "ROOT"), ("C", "T")]) ∧
      (runSteps oneHost 10 6 chainRedirectSite [0, 0, 0] (CreateSiteMap.init "S")).map
        (fun s => (s.info.Sitemap, s.info.Parentmap))
      = some (Node.mk "S" [("T", Node.mk "T" []), ("D", Node.mk "D" [])],
          [("S", "ROOT"), ("T", "ROOT"), ("C", "T"), ("D", "T")])) ∧
    (∀ (L : UrlPkg) (rootURL : String) (s : Stores), Reachable L rootURL s →
      Named s.toVisit → ∀ (rawURL nextRawURL : String) (walk : Nat) (r : Ref),
      s.info.parentOf rawURL ≠ "" → s.info.parentOf rawURL ≠ ROOT →
      s.info.parentOf nextRawURL = "" →
      Info.GetNodeFromSitemap
        ⟨s.info.Sitemap, GoMap.set s.info.Parentmap nextRawURL (s.info.parentOf rawURL)⟩ walk
        (s.info.parentOf rawURL) = .ok (some r) →
      (s.info.parentOf (s.info.parentOf rawURL) ≠ ROOT ∨ s.info.parentOf rawURL = rootURL) →
      r.node.URL = s.info.parentOf rawURL ∧ s.info.Sitemap.at? r.path = some r.node ∧
      ∃ info', rewriteRedirect walk rawURL nextRawURL s.info = .ok info' ∧
        info'.parentOf nextRawURL = s.info.parentOf rawURL ∧
        (∀ u, u ≠ nextRawURL →
          GoMap.get? info'.Parentmap u = GoMap.get? s.info.Parentmap u) ∧
        (∃ m', info'.Sitemap.at? r.path = some m' ∧ m'.URL = s.info.parentOf rawURL ∧
          GoMap.get? m'.Links nextRawURL = some (Node.fresh nextRawURL) ∧
          GoMap.get? m'.Links rawURL = none ∧
          (∀ k, k ≠ nextRawURL → k ≠ rawURL →
            GoMap.get? m'.Links k = GoMap.get? r.node.Links k)) ∧
        (∀ q, q ≠ r.path → ¬ (r.path ++ [nextRawURL]) <+: q → ¬ (r.path ++ [rawURL]) <+: q →
          (info'.Sitemap.at? q).map (fun m => (m.URL, GoMap.keys m.Links))
            = (s.info.Sitemap.at? q).map (fun m => (m.URL, GoMap.keys m.Links)))) := by
  refine ⟨⟨by decide!, by decide!⟩, ?_⟩
  intro L rootURL s h hN rawURL nextRawURL walk r hP hR hto hnode hseed
  have hurl := lookup_node_url L rootURL s h hN rawURL nextRawURL walk r hP hR hto hnode hseed
  obtain ⟨info', h1, h2, h3, ⟨m', h4, h5, h6⟩, h7⟩ :=
    rewriteRedirect_frame walk rawURL nextRawURL s.info r hP hto hnode
  have hv := getNode_valid
    ⟨s.info.Sitemap, GoMap.set s.info.Parentmap nextRawURL (s.info.parentOf rawURL)⟩
    walk _ r hnode
  exact ⟨hurl, hv, info', h1, h2, h3, ⟨m', h4, by rw [h5, hurl], h6⟩, h7⟩

/-! ## C1: where the links of a page are inserted -/

theorem get?_addLink_ne (l : String) (ls : List (String × Node)) (k : String) (h : k ≠ l) :
    GoMap.get? (addLink l ls) k = GoMap.get? ls k := by
  unfold addLink
  split
  · rw [GoMap.get?_set, if_neg (fun e => h e.symm)]
  · rfl

theorem get?_addLink_fresh (l : String) (ls : List (String × Node))
    (h : GoMap.get? ls l = none) : GoMap.get? (addLink l ls) l = some (Node.fresh l) := by
  unfold addLink
  rw [h]
  simp only [Option.isNone_none, if_true]
  exact GoMap.get?_set_self _ _ _

/-- The loop that inserts the links of a page, entered with a pointer to the
node at `p`: it ends, the node at `p` keeps its URL and its children, gets a
fresh node for every link other than the page itself that it did not have,
and no other child; the nodes that are not at or below `p` keep their URL and
the keys of their links. -/
theorem insertLinks_effect (c : String) (p : List String) (node : Node) :
    ∀ (links : List String) (info : Info) (tv : List (String × Bool)) (m : Node),
      info.Sitemap.at? p = some m →
      ∃ info' tv' m', insertLinks c (some ⟨p, node⟩) links info tv = .ok (info', tv') ∧
        info'.Sitemap.at? p = some m' ∧ m'.URL = m.URL ∧
        (∀ k x, GoMap.get? m.Links k = some x → GoMap.get? m'.Links k = some x) ∧
        (∀ k, GoMap.get? m.Links k = none →
          GoMap.get? m'.Links k = if k ∈ links ∧ k ≠ c then some (Node.fresh k) else none) ∧
        (∀ q, ¬ p <+: q →
          (info'.Sitemap.at? q).map (fun n => (n.URL, GoMap.keys n.Links))
            = (info.Sitemap.at? q).map (fun n => (n.URL, GoMap.keys n.Links))) := by
  intro links
  induction links with
  | nil =>
    intro info tv m hm
    refine ⟨info, tv, m, rfl, hm, rfl, fun _ _ hx => hx, ?_, fun _ _ => rfl⟩
    intro k hk
    simp only [List.not_mem_nil, false_and, if_false]
    exact hk
  | cons l rest ih =>
    intro info tv m hm
    simp only [insertLinks]
    by_cases e : l ≠ c
    · rw [if_pos e]
      simp only
      have hm1 := Node.at?_modifyAt_self (addLink l) p info.Sitemap m hm
      obtain ⟨info', tv', m', h1, h2, h3, h4, h5, h6⟩ :=
        ih ⟨Node.modifyAt (addLink l) p info.Sitemap,
            if info.parentOf l = "" then GoMap.set info.Parentmap l c else info.Parentmap⟩
          (GoMap.set tv l true) _ hm1
      refine ⟨info', tv', m', h1, h2, h3, ?_, ?_, ?_⟩
      · intro k x hx
        exact h4 k x (get?_addLink l _ k x hx)
      · intro k hk
        by_cases ekl : k = l
        · subst ekl
          rw [h4 k (Node.fresh k) (get?_addLink_fresh k _ hk)]
          rw [if_pos ⟨List.mem_cons_self _ _, e⟩]
        · rw [h5 k (by
            simp only [Node.Links]
            rw [get?_addLink_ne l _ k ekl]
            exact hk)]
          simp only [List.mem_cons, ekl, false_or]
      · intro q hq
        rw [h6 q hq]
        exact Node.at?_modifyAt_off (addLink l) p info.Sitemap q hq
    · rw [if_neg e]
      simp only
      have e' : l = c := not_not.mp e
      obtain ⟨info', tv', m', h1, h2, h3, h4, h5, h6⟩ :=
        ih ⟨info.Sitemap,
            if info.parentOf l = "" then GoMap.set info.Parentmap l c else info.Parentmap⟩
          (GoMap.set tv l true) m hm
      refine ⟨info', tv', m', h1, h2, h3, h4, ?_, h6⟩
      intro k hk
      rw [h5 k hk]
      by_cases ekc : k = c
      · simp only [ekc, ne_eq, not_true_eq_false, and_false, if_false]
      · have ekl : ¬ k = l := fun h => ekc (h.trans e')
        simp only [List.mem_cons, ekl, false_or]

/-- C1 (amended): a worker step that fetches a page inserts the links of the
page under the node the lookup of the page returns, wherever else they have a
node.  In a state reachable by worker steps, let a worker receive the pending
URL `c`, not seen before, let `crawl` return the links of the page without
error, and let `GetNodeFromSitemap(c)` return the node at path `r.path`.  Then
the iteration ends in a reachable state in which every node stores each child
under the URL of the child and has no two children with the same URL; every
node of the tree before the step is still there, with the same URL; for every
link other than `c` there is a node with that URL among the children of the
node at `r.path`, a fresh one when there was none; that node has no other new
child; and the nodes that are not at or below `r.path` keep their URL and the
keys of their links. -/
theorem rediscovered_link_gets_node (L : UrlPkg) (rootURL : String) (s : Stores)
    (h : Reachable L rootURL s) (i : Nat) (c : String) (walk fuel : Nat) (net : Nat → Response)
    (out : CrawlOut) (r : Ref)
    (hq : s.queue[i]? = some c)
    (hseen : alreadySeen s.visitState c = false)
    (hc : crawl L net walk fuel 0 c 1
      { s with queue := s.queue.eraseIdx i
               visitState := GoMap.set s.visitState c VISITING
               fetched := s.fetched ++ [c] } [] = .ok out)
    (he : out.err = none)
    (hg : s.info.GetNodeFromSitemap walk c = .ok (some r)) :
    ∃ s', processQueue L walk fuel net c { s with queue := s.queue.eraseIdx i } = .ok s' ∧
      Reachable L rootURL s' ∧
      (∀ p n, s'.info.Sitemap.at? p = some n →
        (n.Links.map (fun e => e.2.URL)).Nodup ∧
        ∀ k x, GoMap.get? n.Links k = some x → x.URL = k) ∧
      (∀ q n, s.info.Sitemap.at? q = some n →
        ∃ n', s'.info.Sitemap.at? q = some n' ∧ n'.URL = n.URL) ∧
      (∀ l, l ∈ out.links → l ≠ c →
        ∃ n', s'.info.Sitemap.at? (r.path ++ [l]) = some n' ∧ n'.URL = l) ∧
      (∀ l, l ∈ out.links → l ≠ c → s.info.Sitemap.at? (r.path ++ [l]) = none →
        s'.info.Sitemap.at? (r.path ++ [l]) = some (Node.fresh l)) ∧
      (∀ k, (k ∉ out.links ∨ k = c) → s.info.Sitemap.at? (r.path ++ [k]) = none →
        s'.info.Sitemap.at? (r.path ++ [k]) = none) ∧
      (∀ q, ¬ r.path <+: q →
        (s'.info.Sitemap.at? q).map (fun n => (n.URL, GoMap.keys n.Links))
          = (s.info.Sitemap.at? q).map (fun n => (n.URL, GoMap.keys n.Links))) := by
  have hs : out.stores = { s with queue := s.queue.eraseIdx i
                                  visitState := GoMap.set s.visitState c VISITING
                                  fetched := s.fetched ++ [c] } := by
    rcases crawl_ok_cases L net walk fuel 0 c 1 _ [] out hc with hs | ⟨_, hne, _⟩
    · exact hs
    · exact absurd he hne
  have hv := getNode_valid s.info walk c r hg
  obtain ⟨info', tv', m', h1, h2, h3, h4, h5, h6⟩ :=
    insertLinks_effect c r.path r.node out.links s.info s.toVisit r.node hv
  have hpq : processQueue L walk fuel net c { s with queue := s.queue.eraseIdx i }
      = .ok (terminateIfComplete
          { out.stores with
            info := info'
            toVisit := tv'
            queue := out.stores.queue ++ out.links
            visitState := GoMap.set out.stores.visitState c VISITED }) := by
    unfold processQueue
    rw [if_neg (by simp only [hseen]; exact Bool.false_ne_true)]
    simp only
    rw [hc]
    simp only [he]
    rw [hs]
    simp only
    rw [hg]
    simp only
    rw [h1]
  refine ⟨_, hpq, ?_, ?_⟩
  · exact Reachable.step h ⟨i, c, walk, fuel, net, hq, hpq⟩
  have hr' : Reachable L rootURL (terminateIfComplete
      { out.stores with
        info := info'
        toVisit := tv'
        queue := out.stores.queue ++ out.links
        visitState := GoMap.set out.stores.visitState c VISITED }) :=
    Reachable.step h ⟨i, c, walk, fuel, net, hq, hpq⟩
  have hkeyed := keyed_reachable L rootURL _ hr'
  simp only [terminateIfComplete_info] at hkeyed ⊢
  have hchild : ∀ k, info'.Sitemap.at? (r.path ++ [k]) = GoMap.get? m'.Links k := by
    intro k
    rw [Node.at?_append, h2]
    simp only [Option.some_bind, Node.at?]
    cases GoMap.get? m'.Links k <;> rfl
  have hchild0 : ∀ k, s.info.Sitemap.at? (r.path ++ [k]) = GoMap.get? r.node.Links k := by
    intro k
    rw [Node.at?_append, hv]
    simp only [Option.some_bind, Node.at?]
    cases GoMap.get? r.node.Links k <;> rfl
  refine ⟨?_, ?_, ?_, ?_, ?_, h6⟩
  · intro p n hp
    have hk := Node.keyed_at? hkeyed p n hp
    exact ⟨Node.keyed_children_distinct hk,
      fun k x hx => (Node.keyed_links hk).2.1 (k, x) (GoMap.mem_of_get? _ _ _ hx)⟩
  · intro q n hqn
    by_cases hpre : r.path <+: q
    · obtain ⟨q', rfl⟩ := hpre
      cases q' with
      | nil =>
        rw [List.append_nil] at hqn ⊢
        rw [hv] at hqn
        cases hqn
        exact ⟨m', h2, h3⟩
      | cons k q'' =>
        refine ⟨n, ?_, rfl⟩
        rw [Node.at?_append, hv] at hqn
        rw [Node.at?_append, h2]
        simp only [Option.some_bind, Node.at?] at hqn ⊢
        cases hk : GoMap.get? r.node.Links k with
        | none => rw [hk] at hqn; cases hqn
        | some x =>
          rw [hk] at hqn
          rw [h4 k x hk]
          exact hqn
    · have := h6 q hpre
      rw [hqn] at this
      cases hq' : info'.Sitemap.at? q with
      | none => rw [hq'] at this; cases this
      | some n' =>
        rw [hq'] at this
        simp only [Option.map_some', Option.some.injEq, Prod.mk.injEq] at this
        exact ⟨n', rfl, this.1⟩
  · intro l hl hlc
    rw [hchild]
    cases hk : GoMap.get? r.node.Links l with
    | none =>
      rw [h5 l hk, if_pos ⟨hl, hlc⟩]
      exact ⟨_, rfl, rfl⟩
    | some x =>
      rw [h4 l x hk]
      refine ⟨x, rfl, ?_⟩
      have hk0 := Node.keyed_at? (keyed_reachable L rootURL s h) _ _ hv
      exact (Node.keyed_links hk0).2.1 (l, x) (GoMap.mem_of_get? _ _ _ hk)
  · intro l hl hlc hnone
    rw [hchild0] at hnone
    rw [hchild, h5 l hnone, if_pos ⟨hl, hlc⟩]
  · intro k hk hnone
    rw [hchild0] at hnone
    rw [hchild, h5 k hnone, if_neg]
    rintro ⟨h1', h2'⟩
    rcases hk with hk | hk
    · exact hk h1'
    · exact h2' hk

/-- C1 (amended) on `lateSite`, where the seed and `S/a` both link to `S/r`:
when `S/a` is processed, `S/r` has a node under the seed and gets a second
one under `S/a`. -/
theorem rediscovered_link_gets_node_witness :
    lateSiteSeeded.info.Sitemap.at? ["S/r"] = some (Node.fresh "S/r") ∧
    ∃ s', processQueue oneHost 10 6 (lateSite "S/a") "S/a"
        { lateSiteSeeded with queue := lateSiteSeeded.queue.eraseIdx 1 } = .ok s' ∧
      (∃ n', s'.info.Sitemap.at? ["S/r"] = some n' ∧ n'.URL = "S/r") ∧
      s'.info.Sitemap.at? ["S/a", "S/r"] = some (Node.fresh "S/r") := by
  refine ⟨by decide, ?_⟩
  obtain ⟨s', h1, _, _, h4, _, h6, _⟩ :=
    rediscovered_link_gets_node oneHost "S" lateSiteSeeded lateSiteSeeded_reachable 1 "S/a" 10 6
      (lateSite "S/a")
      ⟨{ lateSiteSeeded with queue := ["S/r"]
                             visitState := [("S", 2), ("S/a", 1)]
                             fetched := ["S", "S/a"] }, ["S/r"], none, [], 1⟩
      ⟨["S/a"], Node.fresh "S/a"⟩ (by decide) (by decide) (by decide!) rfl (by decide!)
  exact ⟨s', h1, h4 ["S/r"] (Node.fresh "S/r") (by decide),
    h6 "S/r" (by decide) (by decide) (by decide)⟩

/-! ## C3: a URL is claimed at most once, workers interleaved -/

theorem crawl_visitState (L : UrlPkg) (net : Nat → Response) (walk fuel n : Nat)
    (rawURL : String) (d : Int) (s : Stores) (sl : List Int) (out : CrawlOut)
    (h : crawl L net walk fuel n rawURL d s sl = .ok out) :
    out.stores.visitState = s.visitState ∧ out.stores.fetched = s.fetched ∧
    out.stores.quit = s.quit := by
  rcases crawl_ok_cases L net walk fuel n rawURL d s sl out h with hs | ⟨_, _, _, _, _, hs⟩
  · rw [hs]; exact ⟨rfl, rfl, rfl⟩
  · rw [hs]; exact ⟨rfl, rfl, rfl⟩

theorem scanAndRaise_visitState (n : Nat) (s : Stores) :
    (terminateIfComplete.scanAndRaise n s).visitState = s.visitState ∧
    (terminateIfComplete.scanAndRaise n s).fetched = s.fetched := by
  unfold terminateIfComplete.scanAndRaise
  simp only
  split <;> exact ⟨rfl, rfl⟩

theorem alreadySeen_absent (vs : List (String × VisitStatus)) (u : String)
    (hst : ∀ st, GoMap.get? vs u = some st → st = VISITING ∨ st = VISITED) :
    alreadySeen vs u = false ↔ GoMap.get? vs u = none := by
  unfold alreadySeen
  cases hg : GoMap.get? vs u with
  | none => simp
  | some st =>
    rcases hst st hg with e | e <;> subst e <;> simp

/-- A move that leaves the visit-state map and the log alone, and after which
the worker holds what it held or nothing. -/
theorem Sound_quiet (c : Config) (s' : Stores) (w : Nat) (x : Worker) (hc : c.Sound)
    (hv : s'.visitState = c.stores.visitState) (hf : s'.fetched = c.stores.fetched)
    (hx : x.current = none ∨ x.current = (c.workers w).current) :
    Config.Sound ⟨s', Function.update c.workers w x⟩ := by
  have hcur : ∀ w' u, (Function.update c.workers w x w').current = some u →
      (c.workers w').current = some u := by
    intro w' u hu
    by_cases e : w' = w
    · subst e
      rw [Function.update_same] at hu
      rcases hx with hx | hx
      · rw [hx] at hu; cases hu
      · rw [← hx]; exact hu
    · rw [Function.update_noteq e] at hu
      exact hu
  refine ⟨?_, ?_, ?_, ?_, ?_⟩
  · simp only [hv, hf]; exact hc.fetchedEq
  · simp only [hv]; exact hc.visitKeys
  · simp only [hv]; exact hc.status
  · intro w' u hu
    simp only [hv]
    exact hc.held w' u (hcur w' u hu)
  · intro w1 w2 u h1 h2
    exact hc.alone w1 w2 u (hcur w1 u h1) (hcur w2 u h2)

/-- The write of VISITED by the worker that holds the URL. -/
theorem Sound_mark (c : Config) (w : Nat) (u : String) (hc : c.Sound)
    (hw : (c.workers w).current = some u) :
    Config.Sound
      ⟨{ c.stores with visitState := GoMap.set c.stores.visitState u VISITED },
        Function.update c.workers w .terminating⟩ := by
  have hmem : u ∈ GoMap.keys c.stores.visitState :=
    GoMap.mem_keys_of_get? _ _ _ (hc.held w u hw)
  have hcur : ∀ w' u', (Function.update c.workers w Worker.terminating w').current = some u' →
      (c.workers w').current = some u' ∧ w' ≠ w := by
    intro w' u' hu
    by_cases e : w' = w
    · subst e
      rw [Function.update_same] at hu
      cases hu
    · rw [Function.update_noteq e] at hu
      exact ⟨hu, e⟩
  refine ⟨?_, ?_, ?_, ?_, ?_⟩
  · simp only
    rw [GoMap.keys_set, if_pos hmem]
    exact hc.fetchedEq
  · exact GoMap.nodup_keys_set _ _ _ hc.visitKeys
  · intro u' st hg
    simp only at hg
    rw [GoMap.get?_set] at hg
    split at hg
    · cases hg; exact Or.inr rfl
    · exact hc.status u' st hg
  · intro w' u' hu
    obtain ⟨hu', hne⟩ := hcur w' u' hu
    simp only
    rw [GoMap.get?_set_ne]
    · exact hc.held w' u' hu'
    · intro e
      subst e
      exact hne (hc.alone w' w u hu' hw)
  · intro w1 w2 u' h1 h2
    exact hc.alone w1 w2 u' (hcur w1 u' h1).1 (hcur w2 u' h2).1

/-- The claim of a URL that is absent from the visit-state map. -/
theorem Sound_claim (c : Config) (w i : Nat) (u : String) (hc : c.Sound)
    (hw : (c.workers w).current = none)
    (habs : GoMap.get? c.stores.visitState u = none) :
    Config.Sound
      ⟨{ c.stores with
          queue := c.stores.queue.eraseIdx i
          visitState := GoMap.set c.stores.visitState u VISITING
          fetched := c.stores.fetched ++ [u] },
        Function.update c.workers w (.crawling u)⟩ := by
  have hnm : u ∉ GoMap.keys c.stores.visitState := (GoMap.get?_eq_none_iff _ _).mp habs
  have hcur : ∀ w' u', (Function.update c.workers w (Worker.crawling u) w').current = some u' →
      (w' = w ∧ u' = u) ∨ (w' ≠ w ∧ (c.workers w').current = some u' ∧ u' ≠ u) := by
    intro w' u' hu
    by_cases e : w' = w
    · subst e
      rw [Function.update_same] at hu
      simp only [Worker.current, Option.some.injEq] at hu
      exact Or.inl ⟨rfl, hu.symm⟩
    · rw [Function.update_noteq e] at hu
      refine Or.inr ⟨e, hu, ?_⟩
      intro e'
      subst e'
      have := hc.held w' u' hu
      rw [habs] at this
      cases this
  refine ⟨?_, ?_, ?_, ?_, ?_⟩
  · simp only
    rw [GoMap.keys_set, if_neg hnm, hc.fetchedEq]
  · exact GoMap.nodup_keys_set _ _ _ hc.visitKeys
  · intro u' st hg
    simp only at hg
    rw [GoMap.get?_set] at hg
    split at hg
    · cases hg; exact Or.inl rfl
    · exact hc.status u' st hg
  · intro w' u' hu
    simp only
    rcases hcur w' u' hu with ⟨_, rfl⟩ | ⟨_, hu', hne⟩
    · exact GoMap.get?_set_self _ _ _
    · rw [GoMap.get?_set_ne _ _ _ _ (fun e => hne e.symm)]
      exact hc.held w' u' hu'
  · intro w1 w2 u' h1 h2
    rcases hcur w1 u' h1 with ⟨e1, eu⟩ | ⟨_, hu1, hne1⟩
    · rcases hcur w2 u' h2 with ⟨e2, _⟩ | ⟨_, _, hne2⟩
      · rw [e1, e2]
      · exact absurd eu hne2
    · rcases hcur w2 u' h2 with ⟨_, e2⟩ | ⟨_, hu2, _⟩
      · exact absurd e2 hne1
      · exact hc.alone w1 w2 u' hu1 hu2

theorem Sound_start (rootURL : String) : (CreateSiteMap.start rootURL).Sound := by
  refine ⟨rfl, List.nodup_nil, ?_, ?_, ?_⟩
  · intro u st h
    simp [CreateSiteMap.start, CreateSiteMap.init, GoMap.get?] at h
  · intro w u h
    simp [CreateSiteMap.start, Worker.current] at h
  · intro w w' u h
    simp [CreateSiteMap.start, Worker.current] at h

theorem Sound_move (L : UrlPkg) (answers : String → (Nat → Response) → Prop) (c c' : Config)
    (hc : c.Sound) (hm : Move L answers c c') :
    c'.Sound := by
  cases hm with
  | claim w i u hw hq hseen =>
    have habs := (alreadySeen_absent _ u (hc.status u)).mp hseen
    exact Sound_claim c w i u hc (by rw [hw]; rfl) habs
  | skip w i u hw hq hseen =>
    exact Sound_quiet c _ w _ hc rfl rfl (Or.inl rfl)
  | fetch w u walk fuel net out hw _ hcr =>
    obtain ⟨h1, h2, _⟩ := crawl_visitState L net walk fuel 0 u 1 c.stores [] out hcr
    exact Sound_quiet c _ w _ hc h1 h2 (Or.inr (by rw [hw]; rfl))
  | giveUp w u links e hw =>
    exact Sound_mark c w u hc (by rw [hw]; rfl)
  | insert w u links walk temp info' tv' hw hg hi =>
    exact Sound_quiet c _ w _ hc rfl rfl (Or.inr (by rw [hw]; rfl))
  | mark w u hw =>
    exact Sound_mark c w u hc (by rw [hw]; rfl)
  | read w hw =>
    refine Sound_quiet c _ w _ hc rfl rfl (Or.inl ?_)
    cases terminateIfComplete.readToVisit c.stores <;> rfl
  | scan w n hw =>
    obtain ⟨h1, h2⟩ := scanAndRaise_visitState n c.stores
    exact Sound_quiet c _ w _ hc h1 h2 (Or.inl rfl)

theorem Sound_interleaved (L : UrlPkg) (answers : String → (Nat → Response) → Prop)
    (rootURL : String) (c : Config) (h : Interleaved L answers rootURL c) : c.Sound := by
  induction h with
  | start => exact Sound_start rootURL
  | move _ hm ih => exact Sound_move L answers _ _ ih hm

/-- What a move does to the visit-state map and the log: nothing, or it
claims an absent URL, or it marks a URL that was VISITING as VISITED. -/
theorem Move_visitState (L : UrlPkg) (answers : String → (Nat → Response) → Prop) (c c' : Config)
    (hc : c.Sound) (hm : Move L answers c c') :
    (c'.stores.visitState = c.stores.visitState ∧ c'.stores.fetched = c.stores.fetched) ∨
    (∃ u, GoMap.get? c.stores.visitState u = none ∧
      c'.stores.visitState = GoMap.set c.stores.visitState u VISITING ∧
      c'.stores.fetched = c.stores.fetched ++ [u]) ∨
    (∃ u, GoMap.get? c.stores.visitState u = some VISITING ∧
      c'.stores.visitState = GoMap.set c.stores.visitState u VISITED ∧
      c'.stores.fetched = c.stores.fetched) := by
  cases hm with
  | claim w i u hw hq hseen =>
    exact Or.inr (Or.inl ⟨u, (alreadySeen_absent _ u (hc.status u)).mp hseen, rfl, rfl⟩)
  | skip w i u hw hq hseen => exact Or.inl ⟨rfl, rfl⟩
  | fetch w u walk fuel net out hw _ hcr =>
    obtain ⟨h1, h2, _⟩ := crawl_visitState L net walk fuel 0 u 1 c.stores [] out hcr
    exact Or.inl ⟨h1, h2⟩
  | giveUp w u links e hw =>
    exact Or.inr (Or.inr ⟨u, hc.held w u (by rw [hw]; rfl), rfl, rfl⟩)
  | insert w u links walk temp info' tv' hw hg hi => exact Or.inl ⟨rfl, rfl⟩
  | mark w u hw =>
    exact Or.inr (Or.inr ⟨u, hc.held w u (by rw [hw]; rfl), rfl, rfl⟩)
  | read w hw => exact Or.inl ⟨rfl, rfl⟩
  | scan w n hw =>
    obtain ⟨h1, h2⟩ := scanAndRaise_visitState n c.stores
    exact Or.inl ⟨h1, h2⟩

/-! ### Whole iterations are sequences of moves -/

theorem terminate_moves (L : UrlPkg) (answers : String → (Nat → Response) → Prop)
    (rootURL : String) (st : Stores) (ws : Nat → Worker) (w : Nat)
    (h : Interleaved L answers rootURL ⟨st, Function.update ws w .terminating⟩) :
    Interleaved L answers rootURL
      ⟨terminateIfComplete st, Function.update ws w .receiving⟩ := by
  have h1 := Interleaved.move h (Move.read _ w (Function.update_same _ _ _))
  simp only [Function.update_idem] at h1
  rw [terminateIfComplete_parts]
  cases hr : terminateIfComplete.readToVisit st with
  | none =>
    rw [hr] at h1
    exact h1
  | some n =>
    rw [hr] at h1
    have h2 := Interleaved.move h1 (Move.scan _ w n (Function.update_same _ _ _))
    simp only [Function.update_idem] at h2
    exact h2

theorem step_moves (L : UrlPkg) (answers : String → (Nat → Response) → Prop)
    (rootURL : String) (s s' : Stores) (ws : Nat → Worker)
    (w : Nat) (hw : ws w = .receiving) (hI : Interleaved L answers rootURL ⟨s, ws⟩)
    (i : Nat) (u : String) (walk fuel : Nat) (net : Nat → Response) (hnet : answers u net)
    (hq : s.queue[i]? = some u)
    (hp : processQueue L walk fuel net u { s with queue := s.queue.eraseIdx i } = .ok s') :
    Interleaved L answers rootURL ⟨s', ws⟩ := by
  have hws : Function.update ws w Worker.receiving = ws := by
    rw [← hw]; exact Function.update_eq_self w ws
  unfold processQueue at hp
  split at hp
  · rename_i hseen
    cases hp
    have h1 := Interleaved.move hI (Move.skip _ w i u hw hq hseen)
    have h2 := terminate_moves L answers rootURL _ _ w h1
    rw [hws] at h2
    exact h2
  · rename_i hseen
    simp only [Bool.not_eq_true] at hseen
    have h1 := Interleaved.move hI (Move.claim _ w i u hw hq hseen)
    simp only at hp
    split at hp
    · cases hp
    · rename_i out hcr
      have h2 := Interleaved.move h1
        (Move.fetch _ w u walk fuel net out (Function.update_same _ _ _) hnet hcr)
      simp only [Function.update_idem] at h2
      split at hp
      · rename_i e he
        cases hp
        rw [he] at h2
        have h3 := Interleaved.move h2 (Move.giveUp _ w u out.links e (Function.update_same _ _ _))
        simp only [Function.update_idem] at h3
        have h4 := terminate_moves L answers rootURL _ _ w h3
        rw [hws] at h4
        exact h4
      · rename_i he
        rw [he] at h2
        split at hp
        · cases hp
        · rename_i temp hg
          split at hp
          · cases hp
          · rename_i info' tv' hi
            cases hp
            have h3 := Interleaved.move h2
              (Move.insert _ w u out.links walk temp info' tv' (Function.update_same _ _ _) hg hi)
            simp only [Function.update_idem] at h3
            have h4 := Interleaved.move h3 (Move.mark _ w u (Function.update_same _ _ _))
            simp only [Function.update_idem] at h4
            have h5 := terminate_moves L answers rootURL _ _ w h4
            rw [hws] at h5
            exact h5

/-- The states reachable by whole iterations are reached by moves, with every
worker back at the receive. -/
theorem reachable_interleaved (L : UrlPkg) (rootURL : String) (s : Stores)
    (h : Reachable L rootURL s) : Interleaved L anyAnswer rootURL ⟨s, fun _ => .receiving⟩ := by
  induction h with
  | init => exact Interleaved.start
  | step _ hs ih =>
    obtain ⟨i, u, walk, fuel, net, hq, hp⟩ := hs
    exact step_moves L anyAnswer rootURL _ _ _ 0 rfl ih i u walk fuel net trivial hq hp

/-- The states a run of whole iterations on a site reaches are reached by
moves on that site. -/
theorem runSteps_interleaved (L : UrlPkg) (rootURL : String) (walk fuel : Nat)
    (site : String → Nat → Response) (sched : List Nat) :
    ∀ (s s' : Stores), Interleaved L (servedBy site) rootURL ⟨s, fun _ => .receiving⟩ →
      runSteps L walk fuel site sched s = some s' →
      Interleaved L (servedBy site) rootURL ⟨s', fun _ => .receiving⟩ := by
  induction sched with
  | nil =>
    intro s s' hs h
    simp only [runSteps, Option.some.injEq] at h
    exact h ▸ hs
  | cons i rest ih =>
    intro s s' hs h
    simp only [runSteps] at h
    split at h
    · cases h
    · rename_i url hq
      split at h
      · cases h
      · rename_i t hp
        exact ih t s' (step_moves L (servedBy site) rootURL _ _ _ 0 rfl hs i url walk fuel
          (site url) rfl hq hp) h

theorem selfSiteHeld_interleaved : Interleaved oneHost (servedBy selfSite) "S" selfSiteHeld := by
  have h1 : Interleaved oneHost (servedBy selfSite) "S" _ :=
    Interleaved.move Interleaved.start
      (Move.claim (CreateSiteMap.start "S") 0 0 "S" rfl rfl (by decide))
  have h2 := Interleaved.move h1 (Move.fetch _ 0 "S" 10 6 (selfSite "S")
    ⟨{ info := { Sitemap := .mk "S" [], Parentmap := [("S", "ROOT")] }
       toVisit := [("S", true)]
       visitState := [("S", 1)]
       queue := []
       quit := 0
       fetched := ["S"] }, ["S"], none, [], 1⟩ (by simp only [Function.update_same]) rfl
    (by decide!))
  exact Interleaved.move h2 (Move.insert _ 0 "S" ["S"] 10 (some ⟨[], .mk "S" []⟩)
    ⟨.mk "S" [], [("S", "ROOT")]⟩ [("S", true)] (by simp only [Function.update_same])
    (by decide!) (by decide!))

/-- C3: with the workers interleaved move by move, no URL is handed to the
fetcher more than once.  In every configuration the workers can reach, in any
order and with any number of them inside an iteration: the log of the URLs
claimed has no repetition; the test of the first critical section finds a
received URL unseen exactly when the URL is absent from the visit-state map,
and the URLs in the log are exactly the URLs present in the map; a URL some
worker holds between its claim and its write of VISITED is VISITING in the
map, is held by no other worker, and is skipped by every worker that receives
it; and every move either leaves map and log alone, or claims an absent URL
(VISITING, logged), or turns a VISITING entry into VISITED, so that no move
removes an entry or changes a VISITED one. -/
theorem no_url_claimed_twice (L : UrlPkg) (answers : String → (Nat → Response) → Prop)
    (rootURL : String) (c : Config) (h : Interleaved L answers rootURL c) :
    c.stores.fetched.Nodup ∧
    (∀ u, alreadySeen c.stores.visitState u = false ↔ GoMap.get? c.stores.visitState u = none) ∧
    (∀ u, u ∈ c.stores.fetched ↔ GoMap.get? c.stores.visitState u ≠ none) ∧
    (∀ w u, (c.workers w).current = some u →
      GoMap.get? c.stores.visitState u = some VISITING ∧
      alreadySeen c.stores.visitState u = true ∧
      ∀ w', (c.workers w').current = some u → w' = w) ∧
    (∀ c', Move L answers c c' →
      ((c'.stores.visitState = c.stores.visitState ∧ c'.stores.fetched = c.stores.fetched) ∨
        (∃ u, GoMap.get? c.stores.visitState u = none ∧
          c'.stores.visitState = GoMap.set c.stores.visitState u VISITING ∧
          c'.stores.fetched = c.stores.fetched ++ [u]) ∨
        (∃ u, GoMap.get? c.stores.visitState u = some VISITING ∧
          c'.stores.visitState = GoMap.set c.stores.visitState u VISITED ∧
          c'.stores.fetched = c.stores.fetched)) ∧
      (∀ u, GoMap.get? c.stores.visitState u = some VISITED →
        GoMap.get? c'.stores.visitState u = some VISITED) ∧
      (∀ u, GoMap.get? c.stores.visitState u ≠ none →
        GoMap.get? c'.stores.visitState u ≠ none)) := by
  have hc := Sound_interleaved L answers rootURL c h
  refine ⟨?_, ?_, ?_, ?_, ?_⟩
  · rw [hc.fetchedEq]; exact hc.visitKeys
  · intro u
    exact alreadySeen_absent _ u (hc.status u)
  · intro u
    rw [hc.fetchedEq, ne_eq, GoMap.get?_eq_none_iff, not_not]
  · intro w u hu
    have hv := hc.held w u hu
    refine ⟨hv, ?_, fun w' hu' => hc.alone w' w u hu' hu⟩
    cases hseen : alreadySeen c.stores.visitState u with
    | true => rfl
    | false =>
      rw [(alreadySeen_absent _ u (hc.status u)).mp hseen] at hv
      cases hv
  · intro c' hm
    have ht := Move_visitState L answers c c' hc hm
    refine ⟨ht, ?_, ?_⟩
    · intro u hu
      rcases ht with ⟨e, _⟩ | ⟨u', hn, e, _⟩ | ⟨u', _, e, _⟩
      · rw [e]; exact hu
      · rw [e, GoMap.get?_set_ne]
        · exact hu
        · intro e'
          subst e'
          rw [hn] at hu
          cases hu
      · rw [e, GoMap.get?_set]
        split
        · rfl
        · exact hu
    · intro u hu
      rcases ht with ⟨e, _⟩ | ⟨u', _, e, _⟩ | ⟨u', _, e, _⟩
      · rw [e]; exact hu
      · rw [e, GoMap.get?_set]
        split
        · simp
        · exact hu
      · rw [e, GoMap.get?_set]
        split
        · simp
        · exact hu

/-- C3 on a seed that links to itself: the worker that claimed the seed has
sent it on the queue again and has not yet written VISITED; the seed is
VISITING, and a second worker that receives it now skips it. -/
theorem no_url_claimed_twice_witness :
    selfSiteHeld.workers 0 = .marking "S" ∧ selfSiteHeld.workers 1 = .receiving ∧
    selfSiteHeld.stores.queue[0]? = some "S" ∧
    selfSiteHeld.stores.fetched.Nodup ∧
    GoMap.get? selfSiteHeld.stores.visitState "S" = some VISITING ∧
    alreadySeen selfSiteHeld.stores.visitState "S" = true :=
  ⟨rfl, rfl, rfl,
    (no_url_claimed_twice oneHost (servedBy selfSite) "S" selfSiteHeld selfSiteHeld_interleaved).1,
    ((no_url_claimed_twice oneHost (servedBy selfSite) "S" selfSiteHeld selfSiteHeld_interleaved).2.2.2.1
      0 "S" rfl).1,
    ((no_url_claimed_twice oneHost (servedBy selfSite) "S" selfSiteHeld selfSiteHeld_interleaved).2.2.2.1
      0 "S" rfl).2.1⟩

/-! ## C12: the URLs the lookup finds -/

theorem finds_of_located {info : Info} {u : String} {ks : List String} (h : info.Chain u ks)
    (hl : (info.Sitemap.at? ks.reverse).isSome = true) : info.Finds u := by
  cases hq : info.Sitemap.at? ks.reverse with
  | none => rw [hq] at hl; cases hl
  | some n =>
    exact ⟨⟨ks.reverse, n⟩, ks.length + 1, hq,
      fun walk hw => getNode_of_chain h n hq walk (by omega)⟩

theorem located_of_finds {info : Info} {u : String} {ks : List String} (h : info.Chain u ks)
    (hf : info.Finds u) : (info.Sitemap.at? ks.reverse).isSome = true := by
  obtain ⟨r, w0, _, hg⟩ := hf
  obtain ⟨_, hn⟩ := getNode_chain_path h w0 r (hg w0 (le_refl _))
  rw [hn]
  rfl

/-- The rewrite of a redirect of `c` keeps the node at the end of the chain of
every other URL. -/
theorem located_rewrite {rootURL : String} {info : Info} {tv : List (String × Bool)}
    {fetched : List String} (hL : Linked rootURL info tv fetched)
    (c next : String) (walk : Nat) (info' : Info) (hcf : c ∉ fetched)
    (h : rewriteRedirect walk c next info = .ok info')
    (u : String) (ks : List String) (hne : u ≠ c) (hch : info.Chain u ks)
    (hl : (info.Sitemap.at? ks.reverse).isSome = true) :
    info'.Chain u ks ∧ (info'.Sitemap.at? ks.reverse).isSome = true := by
  rcases rewriteRedirect_cases walk c next info info' h with e | ⟨hPc, hto, r, hg, hv, e⟩
  · subst e
    exact ⟨hch, hl⟩
  · subst e
    have hmono : ∀ x, info.parentOf x ≠ "" →
        Info.parentOf ⟨Node.modifyAt
            (fun ls => GoMap.delete (GoMap.set ls next (Node.fresh next)) c) r.path info.Sitemap,
          GoMap.set info.Parentmap next (info.parentOf c)⟩ x = info.parentOf x := by
      intro x hx
      have := parentOf_set info next (info.parentOf c) x
      simp only [Info.parentOf] at this ⊢
      rw [this, if_neg]
      intro e
      subst e
      exact hx hto
    refine ⟨chain_mono hmono hch, ?_⟩
    have hut : u ∈ GoMap.keys tv := hL.entry u (chain_entry hch)
    have hnt : next ∉ GoMap.keys tv := by
      intro hn
      obtain ⟨kn, h1, -⟩ := hL.chain next hn
      exact chain_entry h1 hto
    cases hq : info.Sitemap.at? ks.reverse with
    | none => rw [hq] at hl; cases hl
    | some n =>
      refine modifyAt_exists _ _ _ r.node hv _ n hq ?_
      intro k q' c1 hkq hgk
      have hkm : k ∈ ks := by
        have : k ∈ ks.reverse := by rw [hkq]; simp
        simpa using this
      obtain ⟨-, hk2⟩ := chain_mem hch k hkm
      have hktv : k ∈ GoMap.keys tv ∧ k ≠ c := by
        rcases hk2 with hk2 | ⟨y, hy1, hy2, hy3⟩
        · rw [hk2]; exact ⟨hut, hne⟩
        · have hkf : k ∈ fetched := by
            rw [← hy1]; exact hL.parents y hy2 hy3
          exact ⟨hL.sub k hkf, fun e => hcf (e ▸ hkf)⟩
      have hnk : ¬ next = k := fun e => hnt (by rw [e]; exact hktv.1)
      rw [get?_rewrite, if_neg (fun e => hktv.2 e.symm), if_neg hnk]
      exact hgk

/-- The loop over the links of a page keeps the node at the end of every
chain. -/
theorem located_insertLinks (c : String) (temp : Option Ref) (links : List String)
    (info : Info) (tv : List (String × Bool)) (info' : Info) (tv' : List (String × Bool))
    (hv : ∀ r, temp = some r → info.Sitemap.at? r.path = some r.node)
    (h : insertLinks c temp links info tv = .ok (info', tv'))
    (u : String) (ks : List String) (hch : info.Chain u ks)
    (hl : (info.Sitemap.at? ks.reverse).isSome = true) :
    info'.Chain u ks ∧ (info'.Sitemap.at? ks.reverse).isSome = true := by
  refine ⟨chain_mono (fun x hx => ((insertLinks_parentOf c temp links _ _ _ _ h) x).1 hx) hch, ?_⟩
  cases temp with
  | none =>
    rw [insertLinks_none c links info tv info' tv' h]
    exact hl
  | some r =>
    refine insertLinks_sitemap c r.path r.node
      (fun root => (root.at? ks.reverse).isSome = true) ?_ links info tv info' tv' r.node hl
      (hv r rfl) h
    intro root l m hP hm _
    cases hq : root.at? ks.reverse with
    | none => rw [hq] at hP; cases hP
    | some n =>
      exact modifyAt_exists (addLink l) r.path root m hm _ n hq
        (fun k _ c1 _ hg => get?_addLink l _ k c1 hg)

/-- The shape of one iteration of `processQueue`, with the result of `crawl`
in view. -/
theorem processQueue_crawl_cases (L : UrlPkg) (walk fuel : Nat) (net : Nat → Response)
    (c : String) (s s' : Stores) (h : processQueue L walk fuel net c s = .ok s') :
    (alreadySeen s.visitState c = true ∧ s'.info = s.info ∧ s'.fetched = s.fetched) ∨
    (alreadySeen s.visitState c = false ∧ s'.fetched = s.fetched ++ [c] ∧ ∃ out,
      crawl L net walk fuel 0 c 1
        { s with visitState := GoMap.set s.visitState c VISITING
                 fetched := s.fetched ++ [c] } [] = .ok out ∧
      ((out.stores.info = s.info ∧ s'.info = s.info) ∨
       (∃ next, rewriteRedirect walk c next s.info = .ok out.stores.info ∧
          s'.info = out.stores.info) ∨
       (out.stores.info = s.info ∧ ∃ temp info' tv',
          s.info.GetNodeFromSitemap walk c = .ok temp ∧
          insertLinks c temp out.links s.info s.toVisit = .ok (info', tv') ∧
          s'.info = info'))) := by
  unfold processQueue at h
  split at h
  · rename_i hseen
    cases h
    exact Or.inl ⟨hseen, by simp, by simp⟩
  · rename_i hseen
    simp only [Bool.not_eq_true] at hseen
    simp only at h
    split at h
    · cases h
    · rename_i out hc
      have hcases := crawl_ok_cases L net walk fuel 0 c 1 _ [] out hc
      have hfe := (crawl_visitState L net walk fuel 0 c 1 _ [] out hc).2.1
      simp only at hfe
      split at h
      · rename_i e he
        cases h
        refine Or.inr ⟨hseen, by simp [hfe], out, hc, ?_⟩
        rcases hcases with hs | ⟨_, _, next, info', hrw, hs⟩
        · exact Or.inl ⟨by rw [hs], by simp [hs]⟩
        · refine Or.inr (Or.inl ⟨next, ?_, by simp⟩)
          rw [hs]
          exact hrw
      · rename_i he
        have hs : out.stores = { s with visitState := GoMap.set s.visitState c VISITING
                                        fetched := s.fetched ++ [c] } := by
          rcases hcases with hs | ⟨_, hne, _⟩
          · exact hs
          · exact absurd he hne
        split at h
        · cases h
        · rename_i temp hg
          split at h
          · cases h
          · rename_i info' tv' hi
            cases h
            refine Or.inr ⟨hseen, by simp [hfe], out, hc, Or.inr (Or.inr ⟨by rw [hs], ?_⟩)⟩
            rw [hs] at hg hi
            exact ⟨temp, info', tv', hg, hi, by simp⟩

theorem toVisit_processQueue (L : UrlPkg) (walk fuel : Nat) (net : Nat → Response)
    (c : String) (s s' : Stores) (hp : processQueue L walk fuel net c s = .ok s') :
    ∀ u, u ∈ GoMap.keys s.toVisit → u ∈ GoMap.keys s'.toVisit := by
  rcases processQueue_cases L walk fuel net c _ s' hp with ⟨-, h1⟩ | ⟨-, mid, h1, -, -, -, h2⟩
  · subst h1
    simp only [terminateIfComplete_toVisit]
    exact fun u hu => hu
  · subst h1
    simp only [terminateIfComplete_toVisit]
    rcases h2 with ⟨-, e2, -⟩ | ⟨next, info', -, -, e2, -⟩ | ⟨links, temp, info', tv', -, hi, -, e2, -⟩
    · rw [e2]; exact fun u hu => hu
    · rw [e2]; exact fun u hu => (GoMap.mem_keys_set _ _ _ _).2 (Or.inr hu)
    · rw [e2]
      exact fun u hu => ((insertLinks_toVisit c temp links _ _ _ _ hi).2 u).2 (Or.inl hu)

/-- A worker step on `c` keeps the lookup of `u` successful, unless `u` is `c`
itself, the step claims it, and its `crawl` changes the index or the tree. -/
theorem finds_processQueue (L : UrlPkg) (rootURL : String) (s : Stores)
    (h : Reachable L rootURL s) (i : Nat) (c : String) (walk fuel : Nat) (net : Nat → Response)
    (s' : Stores) (hq : s.queue[i]? = some c)
    (hp : processQueue L walk fuel net c { s with queue := s.queue.eraseIdx i } = .ok s')
    (hN : Named s'.toVisit) (u : String) (hf : s.info.Finds u)
    (hcond : u ≠ c ∨ alreadySeen s.visitState c = true ∨
      ∀ out, crawl L net walk fuel 0 c 1
        { s with queue := s.queue.eraseIdx i
                 visitState := GoMap.set s.visitState c VISITING
                 fetched := s.fetched ++ [c] } [] = .ok out → out.stores.info = s.info) :
    s'.info.Finds u := by
  have hr' : Reachable L rootURL s' := Reachable.step h ⟨i, c, walk, fuel, net, hq, hp⟩
  have hT := Tidy_reachable L rootURL s h
  have hNs : Named s.toVisit :=
    Named_sub hN (toVisit_processQueue L walk fuel net c { s with queue := s.queue.eraseIdx i } s' hp)
  have hL := Linked_reachable L rootURL s h hNs
  have hc : c ∈ GoMap.keys s.toVisit := hT.queueSub c (List.getElem?_mem hq)
  rcases processQueue_crawl_cases L walk fuel net c _ s' hp with
    ⟨-, e, -⟩ | ⟨hseen, hfe, out, hcr, hcase⟩
  · rw [e]; exact hf
  · simp only at hseen hfe
    have hcf : c ∉ s.fetched := by
      rw [hT.fetchedEq]
      exact (GoMap.get?_eq_none_iff _ _).1 ((alreadySeen_iff s hT c).1 hseen)
    by_cases hu : u ∈ GoMap.keys s.toVisit
    swap
    · refine found_unfetched L rootURL s' hr' hN u ?_
      rw [hfe]
      intro hm
      rcases List.mem_append.1 hm with hm | hm
      · exact hu (hL.sub u hm)
      · rw [List.mem_singleton] at hm
        exact hu (hm ▸ hc)
    obtain ⟨ks, hch, -⟩ := hL.chain u hu
    have hl := located_of_finds hch hf
    rcases hcase with ⟨-, e⟩ | ⟨next, hrw, e⟩ | ⟨-, temp, info', tv', hg, hi, e⟩
    · rw [e]; exact hf
    · by_cases huc : u = c
      · have hsame : out.stores.info = s.info := by
          rcases hcond with h1 | h1 | h1
          · exact absurd huc h1
          · rw [hseen] at h1; cases h1
          · exact h1 out hcr
        rw [e, hsame]
        exact hf
      · obtain ⟨h1, h2⟩ := located_rewrite hL c next walk _ hcf hrw u ks huc hch hl
        rw [e]
        exact finds_of_located h1 h2
    · obtain ⟨h1, h2⟩ := located_insertLinks c temp out.links s.info s.toVisit info' tv'
        (fun r hr => getNode_valid s.info walk c r (hr ▸ hg)) hi u ks hch hl
      rw [e]
      exact finds_of_located h1 h2

/-- Every URL recorded as the parent of another is found by the lookup. -/
theorem parents_found (L : UrlPkg) (rootURL : String) (s : Stores)
    (h : Reachable L rootURL s) :
    Named s.toVisit → ∀ k, s.info.parentOf k ≠ "" → s.info.parentOf k ≠ ROOT →
      s.info.Finds (s.info.parentOf k) := by
  induction h with
  | init =>
    intro _ k h1 h2
    exfalso
    simp only [CreateSiteMap.init, Info.parentOf, GoMap.set, GoMap.get?] at h1 h2
    by_cases e : rootURL = k
    · simp [e] at h2
    · simp [e] at h1
  | step hr hs ih =>
    rename_i s s'
    intro hN k h1 h2
    obtain ⟨i, c, walk, fuel, net, hq, hp⟩ := hs
    have hNs : Named s.toVisit :=
      Named_sub hN
        (toVisit_processQueue L walk fuel net c { s with queue := s.queue.eraseIdx i } s' hp)
    have ihs := ih hNs
    have hT := Tidy_reachable L rootURL s hr
    have hL := Linked_reachable L rootURL s hr hNs
    have hcf : alreadySeen s.visitState c = false → c ∉ s.fetched := by
      intro hseen
      rw [hT.fetchedEq]
      exact (GoMap.get?_eq_none_iff _ _).1 ((alreadySeen_iff s hT c).1 hseen)
    by_cases h0 : s.info.parentOf k = ""
    swap
    · have e : s'.info.parentOf k = s.info.parentOf k :=
        parentOf_processQueue L walk fuel net c { s with queue := s.queue.eraseIdx i } s' hp k h0
      rw [e] at h2 ⊢
      have hpf : s.info.parentOf k ∈ s.fetched := hL.parents k h0 h2
      refine finds_processQueue L rootURL s hr i c walk fuel net s' hq hp hN _ (ihs k h0 h2) ?_
      cases hseen : alreadySeen s.visitState c with
      | true => exact Or.inr (Or.inl rfl)
      | false => exact Or.inl (fun e' => hcf hseen (e' ▸ hpf))
    · rcases processQueue_crawl_cases L walk fuel net c _ s' hp with
        ⟨-, e, -⟩ | ⟨hseen, hfe, out, hcr, hcase⟩
      · exfalso
        rw [e] at h1
        exact h1 h0
      · simp only at hseen
        rcases hcase with ⟨-, e⟩ | ⟨next, hrw, e⟩ | ⟨hsame, temp, info', tv', hg, hi, e⟩
        · exfalso
          rw [e] at h1
          exact h1 h0
        · rcases rewriteRedirect_cases walk c next s.info _ hrw with e2 | ⟨hPc, hto, r, -, -, e2⟩
          · exfalso
            rw [e, e2] at h1
            exact h1 h0
          · have hpk : s'.info.parentOf k
                = if next = k then s.info.parentOf c else s.info.parentOf k := by
              rw [e, e2]
              have := parentOf_set s.info next (s.info.parentOf c) k
              simp only [Info.parentOf] at this ⊢
              exact this
            by_cases enk : next = k
            · rw [hpk, if_pos enk] at h2 ⊢
              have hpf : s.info.parentOf c ∈ s.fetched := hL.parents c hPc h2
              exact finds_processQueue L rootURL s hr i c walk fuel net s' hq hp hN _
                (ihs c hPc h2) (Or.inl (fun e' => hcf hseen (e' ▸ hpf)))
            · exfalso
              rw [hpk, if_neg enk] at h1
              exact h1 h0
        · have hpo := (insertLinks_parentOf c temp out.links _ _ _ _ hi) k
          by_cases hmem : k ∈ out.links
          · have hk : s'.info.parentOf k = c := by
              rw [e]; exact hpo.2.1 hmem h0
            rw [hk]
            have hfc : s.info.Finds c := found_unfetched L rootURL s hr hNs c (hcf hseen)
            refine finds_processQueue L rootURL s hr i c walk fuel net s' hq hp hN c hfc
              (Or.inr (Or.inr ?_))
            intro out' hcr'
            have : out' = out := by
              have hh := hcr'.symm.trans hcr
              simp only [Except.ok.injEq] at hh
              exact hh
            rw [this]
            exact hsame
          · exfalso
            rw [e, hpo.2.2 hmem] at h1
            exact h1 h0

/-- The lookup of the recorded parent made by the rewrite of a redirect
returns a node: the rewrite ends without a fault. -/
theorem rewriteRedirect_returns (L : UrlPkg) (rootURL : String) (s : Stores)
    (h : Reachable L rootURL s) (hN : Named s.toVisit) (raw next : String) :
    ∃ w0, ∀ walk, w0 ≤ walk → ∃ info', rewriteRedirect walk raw next s.info = .ok info' := by
  have hL := Linked_reachable L rootURL s h hN
  by_cases hguard : s.info.parentOf raw ≠ "" ∧ s.info.parentOf next = ""
  swap
  · refine ⟨0, fun walk _ => ⟨s.info, ?_⟩⟩
    unfold rewriteRedirect
    simp only
    rw [if_neg hguard]
  obtain ⟨hP, hto⟩ := hguard
  have hpar : ∀ x, Info.parentOf
      { s.info with Parentmap := GoMap.set s.info.Parentmap next (s.info.parentOf raw) } x
        = if next = x then s.info.parentOf raw else s.info.parentOf x :=
    fun x => parentOf_set s.info next (s.info.parentOf raw) x
  have hlook : ∃ r w0, ∀ walk, w0 ≤ walk → Info.GetNodeFromSitemap
      { s.info with Parentmap := GoMap.set s.info.Parentmap next (s.info.parentOf raw) } walk
      (s.info.parentOf raw) = .ok (some r) := by
    by_cases hroot : s.info.parentOf raw = ROOT
    · refine ⟨⟨[], s.info.Sitemap⟩, 1, ?_⟩
      intro walk hw
      obtain ⟨w, rfl⟩ : ∃ w, walk = w + 1 := ⟨walk - 1, by omega⟩
      refine getNode_stop_ok _ w _ ?_
      rw [hpar, hroot]
      by_cases e : next = ROOT
      · rw [if_pos e]
        exact Or.inr rfl
      · rw [if_neg e]
        left
        by_contra hne
        exact (hN ROOT (hL.entry ROOT hne)).2 rfl
    · have hf := parents_found L rootURL s h hN raw hP hroot
      obtain ⟨ks, hch, -⟩ := hL.chain _ (hL.sub _ (hL.parents raw hP hroot))
      have hl := located_of_finds hch hf
      have hmono : ∀ x, s.info.parentOf x ≠ "" → Info.parentOf
          { s.info with Parentmap := GoMap.set s.info.Parentmap next (s.info.parentOf raw) } x
            = s.info.parentOf x := by
        intro x hx
        rw [hpar, if_neg]
        intro e
        subst e
        exact hx hto
      have hch1 := chain_mono hmono hch
      cases hq : s.info.Sitemap.at? ks.reverse with
      | none => rw [hq] at hl; cases hl
      | some n =>
        exact ⟨⟨ks.reverse, n⟩, ks.length + 1,
          fun walk hw => getNode_of_chain hch1 n hq walk (by omega)⟩
  obtain ⟨r, w0, hg⟩ := hlook
  refine ⟨w0, fun walk hw => ?_⟩
  unfold rewriteRedirect
  simp only
  rw [if_pos ⟨hP, hto⟩, hg walk hw]
  exact ⟨_, rfl⟩

/-- C12 (amended): the lookup fails only for a URL whose node a redirect
rewrite deleted.  In every state reachable by worker steps in which no
discovered URL is the empty string or `ROOT`: `GetNodeFromSitemap(u)` returns
a node of the tree for every URL no worker has fetched yet and for every URL
recorded as the parent of another; the lookup of the recorded parent made by
the rewrite of a redirect returns a node, so the rewrite ends without a fault;
and a worker step on `c` keeps the lookup successful for every URL for which
it was, except for `c` itself when the step claims `c` and its `crawl` changes
the index or the tree, which is the rewrite of a redirect. -/
theorem lookup_finds_unless_rewritten (L : UrlPkg) (rootURL : String) (s : Stores)
    (h : Reachable L rootURL s) (hN : Named s.toVisit) :
    (∀ u, u ∉ s.fetched → s.info.Finds u) ∧
    (∀ k, s.info.parentOf k ≠ "" → s.info.parentOf k ≠ ROOT →
      s.info.Finds (s.info.parentOf k)) ∧
    (∀ rawURL nextRawURL, ∃ w0, ∀ walk, w0 ≤ walk →
      ∃ info', rewriteRedirect walk rawURL nextRawURL s.info = .ok info') ∧
    (∀ (i : Nat) (c : String) (walk fuel : Nat) (net : Nat → Response) (s' : Stores),
      s.queue[i]? = some c →
      processQueue L walk fuel net c { s with queue := s.queue.eraseIdx i } = .ok s' →
      Named s'.toVisit → ∀ u, s.info.Finds u →
      (u ≠ c ∨ alreadySeen s.visitState c = true ∨
        ∀ out, crawl L net walk fuel 0 c 1
          { s with queue := s.queue.eraseIdx i
                   visitState := GoMap.set s.visitState c VISITING
                   fetched := s.fetched ++ [c] } [] = .ok out → out.stores.info = s.info) →
      s'.info.Finds u) :=
  ⟨fun u hf => found_unfetched L rootURL s h hN u hf,
    parents_found L rootURL s h hN,
    rewriteRedirect_returns L rootURL s h hN,
    fun i c walk fuel net s' hq hp hN' u hf hcond =>
      finds_processQueue L rootURL s h i c walk fuel net s' hq hp hN' u hf hcond⟩

/-- C12 (amended) on `lateSite`, after the seed was fetched: the lookup finds
`S/a`, which waits in the queue, and the seed, the recorded parent of `S/r`;
the step that rewrites the redirect of `S/r` keeps the lookup of `S/a`
successful. -/
theorem lookup_finds_unless_rewritten_witness :
    lateSiteSeeded.info.Finds "S/a" ∧
    lateSiteSeeded.info.Finds (lateSiteSeeded.info.parentOf "S/r") ∧
    processQueue oneHost 10 6 (lateSite "S/r") "S/r"
      { lateSiteSeeded with queue := lateSiteSeeded.queue.eraseIdx 0 } = .ok lateSiteRewritten ∧
    lateSiteRewritten.info.Finds "S/a" :=
  have T := lookup_finds_unless_rewritten oneHost "S" lateSiteSeeded lateSiteSeeded_reachable
    (Named_of_check _ (by decide))
  ⟨T.1 "S/a" (by decide), T.2.1 "S/r" (by decide) (by decide), by decide!,
    T.2.2.2 0 "S/r" 10 6 (lateSite "S/r") lateSiteRewritten rfl (by decide!)
      (Named_of_check _ (by decide)) "S/a" (T.1 "S/a" (by decide)) (Or.inl (by decide))⟩

/-! ## C19: what does not depend on the order of processing -/

theorem rewriteRedirect_blank (walk : Nat) (raw next : String) :
    rewriteRedirect walk raw next blankStores.info = .ok blankStores.info := by
  unfold rewriteRedirect
  simp only
  rw [if_neg]
  rintro ⟨h, -⟩
  exact h rfl

/-- What `crawl` returns and sends does not depend on the stores it runs on:
the call on blank stores ends too, with the same links and error, and what it
sends is what the call on `s` adds to the queue and to the to-visit set. -/
theorem crawl_blank (L : UrlPkg) (net : Nat → Response) (walk : Nat) :
    ∀ (fuel n : Nat) (u : String) (d : Int) (s : Stores) (sl : List Int) (out : CrawlOut),
      crawl L net walk fuel n u d s sl = .ok out →
      ∃ out0, crawl L net 0 fuel n u d blankStores sl = .ok out0 ∧
        out0.links = out.links ∧ out0.err = out.err ∧
        out.stores.queue = s.queue ++ out0.stores.queue ∧
        (∀ v, v ∈ GoMap.keys out.stores.toVisit ↔
          v ∈ GoMap.keys s.toVisit ∨ v ∈ out0.stores.queue) ∧
        (out.err ≠ none → out.links = []) := by
  intro fuel
  induction fuel with
  | zero => intro n u d s sl out h; simp [crawl] at h
  | succ f ih =>
    intro n u d s sl out h
    simp only [crawl] at h ⊢
    split at h
    · rename_i hc
      rw [if_pos hc]
      cases h
      exact ⟨_, rfl, rfl, rfl, by simp [blankStores], by simp [blankStores], fun _ => rfl⟩
    · rename_i hc
      rw [if_neg hc]
      split at h
      · rename_i hp
        try rw [hp]
        cases h
        exact ⟨_, rfl, rfl, rfl, by simp [blankStores], by simp [blankStores], fun _ => rfl⟩
      · rename_i cur hp
        try rw [hp]
        try simp only
        split at h
        · rename_i h3
          rw [if_pos h3]
          split at h
          · rename_i hl
            try rw [hl]
            cases h
            exact ⟨_, rfl, rfl, rfl, by simp [blankStores], by simp [blankStores], fun _ => rfl⟩
          · rename_i parsed hl
            try rw [hl]
            try simp only
            split at h
            · rename_i hacc
              rw [if_pos hacc]
              split at h
              · cases h
              · rename_i info1 hr
                cases h
                have hb := rewriteRedirect_blank 0 u
                  (NormalizeURL (L.Str (resolveIfRelativePath L cur parsed)))
                rw [hb]
                refine ⟨_, rfl, rfl, rfl, by simp [blankStores], ?_, fun _ => rfl⟩
                intro v
                simp only [GoMap.mem_keys_set, blankStores, List.nil_append, List.mem_singleton]
                tauto
            · rename_i hacc
              rw [if_neg hacc]
              cases h
              exact ⟨_, rfl, rfl, rfl, by simp [blankStores], by simp [blankStores], fun _ => rfl⟩
        · rename_i h3
          rw [if_neg h3]
          split at h
          · rename_i h4
            rw [if_pos h4]
            split at h
            · rename_i h5
              rw [if_pos h5]
              exact ih _ _ _ _ _ out h
            · rename_i h5
              rw [if_neg h5]
              cases h
              exact ⟨_, rfl, rfl, rfl, by simp [blankStores], by simp [blankStores], fun _ => rfl⟩
          · rename_i h4
            rw [if_neg h4]
            split at h
            · rename_i e he
              try rw [he]
              cases h
              exact ⟨_, rfl, rfl, rfl, by simp [blankStores], by simp [blankStores], fun _ => rfl⟩
            · rename_i links he
              try rw [he]
              cases h
              exact ⟨_, rfl, rfl, rfl, by simp [blankStores], by simp [blankStores],
                fun hne => absurd rfl hne⟩

/-- What the call of `crawl` made by a worker on a deterministic site
discovers is what `Yields` says. -/
theorem yields_of_crawl (L : UrlPkg) (site : String → Nat → Response) (walk fuel : Nat)
    (u : String) (s : Stores) (out : CrawlOut)
    (h : crawl L (site u) walk fuel 0 u 1 s [] = .ok out) :
    ∃ q0, out.stores.queue = s.queue ++ q0 ∧
      (∀ v, v ∈ GoMap.keys out.stores.toVisit ↔ v ∈ GoMap.keys s.toVisit ∨ v ∈ q0) ∧
      (∀ v, v ∈ q0 → Yields L site u v) ∧
      (∀ l, l ∈ out.links → Yields L site u l) ∧
      (∀ v, Yields L site u v → v ∈ out.links ∨ v ∈ GoMap.keys out.stores.toVisit) ∧
      (out.err ≠ none → out.links = []) := by
  obtain ⟨out0, h0, hl, -, hq, htv, herr⟩ := crawl_blank L (site u) walk fuel 0 u 1 s [] out h
  have hd : discovers L site fuel u = some (out0.links ++ out0.stores.queue) := by
    unfold discovers
    rw [h0]
  refine ⟨out0.stores.queue, hq, htv, ?_, ?_, ?_, herr⟩
  · intro v hv
    exact ⟨fuel, _, hd, List.mem_append_right _ hv⟩
  · intro l hlm
    exact ⟨fuel, _, hd, List.mem_append_left _ (hl ▸ hlm)⟩
  · rintro v ⟨fuel', ds, hds, hv⟩
    unfold discovers at hds
    cases hc : crawl L (site u) 0 fuel' 0 u 1 blankStores [] with
    | error e => rw [hc] at hds; cases hds
    | ok out1 =>
      rw [hc] at hds
      simp only [Option.some.injEq] at hds
      have e := crawl_fuel L (site u) 0 0 fuel' fuel 0 u 1 blankStores [] out1 out0 hc h0
      subst e
      rw [← hds] at hv
      rcases List.mem_append.1 hv with hv | hv
      · exact Or.inl (hl ▸ hv)
      · exact Or.inr ((htv v).2 (Or.inr hv))

theorem mem_eraseIdx_of_ne (l : List String) (i : Nat) (u v : String) (h : l[i]? = some u)
    (hv : v ∈ l) (hne : v ≠ u) : v ∈ l.eraseIdx i := by
  rw [List.mem_eraseIdx_iff_getElem?]
  obtain ⟨j, hj⟩ := List.mem_iff_getElem?.1 hv
  refine ⟨j, ?_, hj⟩
  intro e
  subst e
  rw [h] at hj
  exact hne (Option.some.inj hj).symm

theorem scanAndRaise_stores (n : Nat) (s : Stores) :
    (terminateIfComplete.scanAndRaise n s).toVisit = s.toVisit ∧
    (terminateIfComplete.scanAndRaise n s).queue = s.queue := by
  unfold terminateIfComplete.scanAndRaise
  simp only
  split <;> exact ⟨rfl, rfl⟩

/-- A move of worker `w` keeps `Explored` when the new stores and the new
place of `w` fit together. -/
theorem Explored_of (L : UrlPkg) (site : String → Nat → Response) (rootURL : String)
    (c : Config) (hc : c.Explored L site rootURL) (s' : Stores) (w : Nat) (x : Worker)
    (htv : ∀ v, v ∈ GoMap.keys c.stores.toVisit → v ∈ GoMap.keys s'.toVisit)
    (hreached : ∀ v, v ∈ GoMap.keys s'.toVisit →
      v ∈ GoMap.keys c.stores.toVisit ∨ Closure L site rootURL v)
    (hqueue : ∀ v, v ∈ s'.queue → v ∈ GoMap.keys s'.toVisit)
    (hvisit : ∀ v, v ∈ GoMap.keys s'.visitState → v ∈ GoMap.keys s'.toVisit)
    (hpending : ∀ v, v ∈ GoMap.keys s'.toVisit → v ∈ s'.queue ∨ v ∈ GoMap.keys s'.visitState)
    (hvs : ∀ v, v ∈ GoMap.keys s'.visitState →
      v ∈ GoMap.keys c.stores.visitState ∨ x.current = some v)
    (hkeep : ∀ v, (c.workers w).current = some v →
      x.current = some v ∨ ∀ y, Yields L site v y → y ∈ GoMap.keys s'.toVisit)
    (hx1 : ∀ u, x = .crawling u → u ∈ GoMap.keys s'.toVisit)
    (hx2 : ∀ u links err, x = .crawled u links err →
      u ∈ GoMap.keys s'.toVisit ∧ (err ≠ none → links = []) ∧
      (∀ l, l ∈ links → Yields L site u l) ∧
      ∀ v, Yields L site u v → v ∈ links ∨ v ∈ GoMap.keys s'.toVisit)
    (hx3 : ∀ u, x = .marking u → ∀ v, Yields L site u v → v ∈ GoMap.keys s'.toVisit) :
    Config.Explored L site rootURL ⟨s', Function.update c.workers w x⟩ := by
  refine ⟨htv _ hc.seedIn, ?_, hqueue, hvisit, hpending, ?_, ?_, ?_, ?_⟩
  · intro v hv
    rcases hreached v hv with h | h
    · exact hc.reached v h
    · exact h
  · intro v hv
    simp only
    rcases hvs v hv with h | h
    · rcases hc.done v h with ⟨w', hw'⟩ | hd
      · by_cases e : w' = w
        · subst e
          rcases hkeep v hw' with hk | hk
          · exact Or.inl ⟨w', by rw [Function.update_same]; exact hk⟩
          · exact Or.inr hk
        · exact Or.inl ⟨w', by rw [Function.update_noteq e]; exact hw'⟩
      · exact Or.inr (fun y hy => htv y (hd y hy))
    · exact Or.inl ⟨w, by rw [Function.update_same]; exact h⟩
  · intro w' u hw'
    simp only at hw' ⊢
    by_cases e : w' = w
    · subst e
      rw [Function.update_same] at hw'
      exact hx1 u hw'
    · rw [Function.update_noteq e] at hw'
      exact htv u (hc.crawling w' u hw')
  · intro w' u links err hw'
    simp only at hw' ⊢
    by_cases e : w' = w
    · subst e
      rw [Function.update_same] at hw'
      exact hx2 u links err hw'
    · rw [Function.update_noteq e] at hw'
      obtain ⟨a, b, c1, d⟩ := hc.crawled w' u links err hw'
      refine ⟨htv u a, b, c1, fun v hv => ?_⟩
      rcases d v hv with h | h
      · exact Or.inl h
      · exact Or.inr (htv v h)
  · intro w' u hw' v hv
    simp only at hw' ⊢
    by_cases e : w' = w
    · subst e
      rw [Function.update_same] at hw'
      exact hx3 u hw' v hv
    · rw [Function.update_noteq e] at hw'
      exact htv v (hc.marking w' u hw' v hv)

theorem Explored_start (L : UrlPkg) (site : String → Nat → Response) (rootURL : String) :
    (CreateSiteMap.start rootURL).Explored L site rootURL := by
  have hk : ∀ u, u ∈ GoMap.keys (CreateSiteMap.start rootURL).stores.toVisit ↔ u = rootURL := by
    intro u
    simp [CreateSiteMap.start, CreateSiteMap.init, GoMap.keys, GoMap.set]
  refine ⟨(hk _).2 rfl, ?_, ?_, ?_, ?_, ?_, ?_, ?_, ?_⟩
  · intro u hu
    rw [(hk u).1 hu]
    exact Closure.seed
  · intro u hu
    rw [hk]
    simpa [CreateSiteMap.start, CreateSiteMap.init] using hu
  · intro u hu
    simp [CreateSiteMap.start, CreateSiteMap.init, GoMap.keys] at hu
  · intro u hu
    left
    rw [(hk u).1 hu]
    simp [CreateSiteMap.start, CreateSiteMap.init]
  · intro u hu
    simp [CreateSiteMap.start, CreateSiteMap.init, GoMap.keys] at hu
  · intro w u hw
    simp [CreateSiteMap.start] at hw
  · intro w u links err hw
    simp [CreateSiteMap.start] at hw
  · intro w u hw
    simp [CreateSiteMap.start] at hw

theorem Explored_move (L : UrlPkg) (site : String → Nat → Response) (rootURL : String)
    (c c' : Config) (hS : c.Sound) (hc : c.Explored L site rootURL)
    (hm : Move L (servedBy site) c c') : c'.Explored L site rootURL := by
  have hheld : ∀ w u, (c.workers w).current = some u → u ∈ GoMap.keys c.stores.visitState :=
    fun w u hu => GoMap.mem_keys_of_get? _ _ _ (hS.held w u hu)
  cases hm with
  | claim w i u hw hq hseen =>
    have huq : u ∈ c.stores.queue := List.getElem?_mem hq
    refine Explored_of L site rootURL c hc _ w _ (fun v hv => hv) (fun v hv => Or.inl hv)
      ?_ ?_ ?_ ?_ ?_ ?_ ?_ ?_
    · intro v hv
      exact hc.queueSub v (List.mem_of_mem_eraseIdx hv)
    · intro v hv
      simp only at hv
      rcases (GoMap.mem_keys_set _ _ _ _).1 hv with e | h
      · rw [e]; exact hc.queueSub u huq
      · exact hc.visitSub v h
    · intro v hv
      simp only
      by_cases e : v = u
      · exact Or.inr ((GoMap.mem_keys_set _ _ _ _).2 (Or.inl e))
      · rcases hc.pending v hv with h | h
        · exact Or.inl (mem_eraseIdx_of_ne _ i u v hq h e)
        · exact Or.inr ((GoMap.mem_keys_set _ _ _ _).2 (Or.inr h))
    · intro v hv
      simp only at hv
      rcases (GoMap.mem_keys_set _ _ _ _).1 hv with e | h
      · exact Or.inr (by rw [e]; rfl)
      · exact Or.inl h
    · intro v hv
      rw [hw] at hv
      cases hv
    · intro u' hu'
      cases hu'
      exact hc.queueSub u huq
    · intro u' links err hu'
      cases hu'
    · intro u' hu'
      cases hu'
  | skip w i u hw hq hseen =>
    have hin : u ∈ GoMap.keys c.stores.visitState := by
      unfold alreadySeen at hseen
      cases hg : GoMap.get? c.stores.visitState u with
      | none => rw [hg] at hseen; cases hseen
      | some st => exact GoMap.mem_keys_of_get? _ _ _ hg
    refine Explored_of L site rootURL c hc _ w _ (fun v hv => hv) (fun v hv => Or.inl hv)
      ?_ hc.visitSub ?_ (fun v hv => Or.inl hv) ?_ ?_ ?_ ?_
    · intro v hv
      exact hc.queueSub v (List.mem_of_mem_eraseIdx hv)
    · intro v hv
      simp only
      by_cases e : v = u
      · exact Or.inr (e ▸ hin)
      · rcases hc.pending v hv with h | h
        · exact Or.inl (mem_eraseIdx_of_ne _ i u v hq h e)
        · exact Or.inr h
    · intro v hv
      rw [hw] at hv
      cases hv
    · intro u' hu'
      cases hu'
    · intro u' links err hu'
      cases hu'
    · intro u' hu'
      cases hu'
  | fetch w u walk fuel net out hw hnet hcr =>
    have hnet' : net = site u := hnet
    subst hnet'
    obtain ⟨q0, hq, htv, hq0, hl, hy, herr⟩ := yields_of_crawl L site walk fuel u c.stores out hcr
    obtain ⟨hvs, -, -⟩ := crawl_visitState L (site u) walk fuel 0 u 1 c.stores [] out hcr
    have hu : u ∈ GoMap.keys c.stores.toVisit := hc.crawling w u hw
    refine Explored_of L site rootURL c hc _ w _ (fun v hv => (htv v).2 (Or.inl hv)) ?_
      ?_ ?_ ?_ ?_ ?_ ?_ ?_ ?_
    · intro v hv
      rcases (htv v).1 hv with h | h
      · exact Or.inl h
      · exact Or.inr (Closure.step (hc.reached u hu) (hq0 v h))
    · intro v hv
      rw [hq] at hv
      rcases List.mem_append.1 hv with h | h
      · exact (htv v).2 (Or.inl (hc.queueSub v h))
      · exact (htv v).2 (Or.inr h)
    · intro v hv
      rw [hvs] at hv
      exact (htv v).2 (Or.inl (hc.visitSub v hv))
    · intro v hv
      rw [hq, hvs]
      rcases (htv v).1 hv with h | h
      · rcases hc.pending v h with h' | h'
        · exact Or.inl (List.mem_append_left _ h')
        · exact Or.inr h'
      · exact Or.inl (List.mem_append_right _ h)
    · intro v hv
      rw [hvs] at hv
      exact Or.inl hv
    · intro v hv
      rw [hw] at hv
      exact Or.inl hv
    · intro u' hu'
      cases hu'
    · intro u' links err hu'
      cases hu'
      exact ⟨(htv u).2 (Or.inl hu), herr, hl, hy⟩
    · intro u' hu'
      cases hu'
  | giveUp w u links e hw =>
    obtain ⟨hu, hnil, -, hy⟩ := hc.crawled w u links (some e) hw
    have hl : links = [] := hnil (by simp)
    have hin : u ∈ GoMap.keys c.stores.visitState := hheld w u (by rw [hw]; rfl)
    refine Explored_of L site rootURL c hc _ w _ (fun v hv => hv) (fun v hv => Or.inl hv)
      hc.queueSub ?_ ?_ ?_ ?_ ?_ ?_ ?_
    · intro v hv
      simp only at hv
      rcases (GoMap.mem_keys_set _ _ _ _).1 hv with e' | h
      · rw [e']; exact hu
      · exact hc.visitSub v h
    · intro v hv
      simp only
      rcases hc.pending v hv with h | h
      · exact Or.inl h
      · exact Or.inr ((GoMap.mem_keys_set _ _ _ _).2 (Or.inr h))
    · intro v hv
      simp only at hv
      rcases (GoMap.mem_keys_set _ _ _ _).1 hv with e' | h
      · exact Or.inl (e' ▸ hin)
      · exact Or.inl h
    · intro v hv
      rw [hw] at hv
      simp only [Worker.current, Option.some.injEq] at hv
      subst hv
      right
      intro y hyy
      rcases hy y hyy with h | h
      · rw [hl] at h; cases h
      · exact h
    · intro u' hu'
      cases hu'
    · intro u' links' err hu'
      cases hu'
    · intro u' hu'
      cases hu'
  | insert w u links walk temp info' tv' hw hg hi =>
    obtain ⟨hu, -, hl, hy⟩ := hc.crawled w u links none hw
    have htv := (insertLinks_toVisit u temp links _ _ _ _ hi).2
    refine Explored_of L site rootURL c hc _ w _ (fun v hv => (htv v).2 (Or.inl hv)) ?_
      ?_ ?_ ?_ (fun v hv => Or.inl hv) ?_ ?_ ?_ ?_
    · intro v hv
      rcases (htv v).1 hv with h | h
      · exact Or.inl h
      · exact Or.inr (Closure.step (hc.reached u hu) (hl v h))
    · intro v hv
      simp only at hv
      rcases List.mem_append.1 hv with h | h
      · exact (htv v).2 (Or.inl (hc.queueSub v h))
      · exact (htv v).2 (Or.inr h)
    · intro v hv
      exact (htv v).2 (Or.inl (hc.visitSub v hv))
    · intro v hv
      simp only
      rcases (htv v).1 hv with h | h
      · rcases hc.pending v h with h' | h'
        · exact Or.inl (List.mem_append_left _ h')
        · exact Or.inr h'
      · exact Or.inl (List.mem_append_right _ h)
    · intro v hv
      rw [hw] at hv
      exact Or.inl hv
    · intro u' hu'
      cases hu'
    · intro u' links' err hu'
      cases hu'
    · intro u' hu' v hv
      cases hu'
      rcases hy v hv with h | h
      · exact (htv v).2 (Or.inr h)
      · exact (htv v).2 (Or.inl h)
  | mark w u hw =>
    have hin : u ∈ GoMap.keys c.stores.visitState := hheld w u (by rw [hw]; rfl)
    have hu : u ∈ GoMap.keys c.stores.toVisit := hc.visitSub u hin
    refine Explored_of L site rootURL c hc _ w _ (fun v hv => hv) (fun v hv => Or.inl hv)
      hc.queueSub ?_ ?_ ?_ ?_ ?_ ?_ ?_
    · intro v hv
      simp only at hv
      rcases (GoMap.mem_keys_set _ _ _ _).1 hv with e' | h
      · rw [e']; exact hu
      · exact hc.visitSub v h
    · intro v hv
      simp only
      rcases hc.pending v hv with h | h
      · exact Or.inl h
      · exact Or.inr ((GoMap.mem_keys_set _ _ _ _).2 (Or.inr h))
    · intro v hv
      simp only at hv
      rcases (GoMap.mem_keys_set _ _ _ _).1 hv with e' | h
      · exact Or.inl (e' ▸ hin)
      · exact Or.inl h
    · intro v hv
      rw [hw] at hv
      simp only [Worker.current, Option.some.injEq] at hv
      subst hv
      exact Or.inr (hc.marking w u hw)
    · intro u' hu'
      cases hu'
    · intro u' links' err hu'
      cases hu'
    · intro u' hu'
      cases hu'
  | read w hw =>
    refine Explored_of L site rootURL c hc _ w _ (fun v hv => hv) (fun v hv => Or.inl hv)
      hc.queueSub hc.visitSub hc.pending (fun v hv => Or.inl hv) ?_ ?_ ?_ ?_
    · intro v hv
      rw [hw] at hv
      cases hv
    · intro u' hu'
      cases hr : terminateIfComplete.readToVisit c.stores <;> rw [hr] at hu' <;> cases hu'
    · intro u' links' err hu'
      cases hr : terminateIfComplete.readToVisit c.stores <;> rw [hr] at hu' <;> cases hu'
    · intro u' hu'
      cases hr : terminateIfComplete.readToVisit c.stores <;> rw [hr] at hu' <;> cases hu'
  | scan w n hw =>
    obtain ⟨h1, h2⟩ := scanAndRaise_stores n c.stores
    obtain ⟨h3, -⟩ := scanAndRaise_visitState n c.stores
    refine Explored_of L site rootURL c hc _ w _ (fun v hv => by rw [h1]; exact hv)
      (fun v hv => Or.inl (by rw [h1] at hv; exact hv)) ?_ ?_ ?_ ?_ ?_ ?_ ?_ ?_
    · intro v hv
      rw [h1]; rw [h2] at hv
      exact hc.queueSub v hv
    · intro v hv
      rw [h1]; rw [h3] at hv
      exact hc.visitSub v hv
    · intro v hv
      rw [h2, h3]; rw [h1] at hv
      exact hc.pending v hv
    · intro v hv
      rw [h3] at hv
      exact Or.inl hv
    · intro v hv
      rw [hw] at hv
      cases hv
    · intro u' hu'
      cases hu'
    · intro u' links' err hu'
      cases hu'
    · intro u' hu'
      cases hu'

theorem Explored_interleaved (L : UrlPkg) (site : String → Nat → Response) (rootURL : String)
    (c : Config) (h : Interleaved L (servedBy site) rootURL c) : c.Explored L site rootURL := by
  induction h with
  | start => exact Explored_start L site rootURL
  | move hI hm ih =>
    exact Explored_move L site rootURL _ _ (Sound_interleaved L _ rootURL _ hI) ih hm

/-- At rest the to-visit set holds exactly the URLs reachable from the seed,
and all of them were fetched. -/
theorem atRest_closure (L : UrlPkg) (site : String → Nat → Response) (rootURL : String)
    (c : Config) (h : Interleaved L (servedBy site) rootURL c) (hr : c.atRest) :
    (∀ u, u ∈ GoMap.keys c.stores.toVisit ↔ Closure L site rootURL u) ∧
    (∀ u, u ∈ c.stores.fetched ↔ u ∈ GoMap.keys c.stores.toVisit) := by
  have hE := Explored_interleaved L site rootURL c h
  have hS := Sound_interleaved L _ rootURL c h
  have hvis : ∀ u, u ∈ GoMap.keys c.stores.toVisit → u ∈ GoMap.keys c.stores.visitState := by
    intro u hu
    rcases hE.pending u hu with h1 | h1
    · rw [hr.1] at h1; cases h1
    · exact h1
  refine ⟨fun u => ⟨hE.reached u, ?_⟩, fun u => ?_⟩
  · intro hcl
    induction hcl with
    | seed => exact hE.seedIn
    | step _ hy ih =>
      rcases hE.done _ (hvis _ ih) with ⟨w, hw⟩ | hd
      · rw [hr.2 w] at hw; cases hw
      · exact hd _ hy
  · rw [hS.fetchedEq]
    exact ⟨hE.visitSub u, hvis u⟩

/-- C19 (amended): what does not depend on the order of processing is the set
of URLs a crawl discovers and fetches, not the tree.  On a deterministic site,
take two crawls from the same seed, each by any number of workers interleaved
move by move in any order, that have both come to rest (nothing left to
receive, every worker waiting at the receive).  Then each has discovered
exactly the URLs reachable from the seed by the links of pages and by accepted
redirects; the two to-visit sets hold the same URLs; and each crawl has
fetched every one of them exactly once, so the two logs of fetched URLs are
permutations of each other. -/
theorem crawls_discover_same_urls (L : UrlPkg) (site : String → Nat → Response)
    (rootURL : String) (c1 c2 : Config)
    (h1 : Interleaved L (servedBy site) rootURL c1)
    (h2 : Interleaved L (servedBy site) rootURL c2)
    (r1 : c1.atRest) (r2 : c2.atRest) :
    (∀ u, u ∈ GoMap.keys c1.stores.toVisit ↔ Closure L site rootURL u) ∧
    (∀ u, u ∈ GoMap.keys c1.stores.toVisit ↔ u ∈ GoMap.keys c2.stores.toVisit) ∧
    (∀ u, u ∈ c1.stores.fetched ↔ u ∈ GoMap.keys c1.stores.toVisit) ∧
    c1.stores.fetched.Nodup ∧ c2.stores.fetched.Nodup ∧
    c1.stores.fetched.Perm c2.stores.fetched := by
  obtain ⟨a1, b1⟩ := atRest_closure L site rootURL c1 h1 r1
  obtain ⟨a2, b2⟩ := atRest_closure L site rootURL c2 h2 r2
  have hS1 := Sound_interleaved L _ rootURL c1 h1
  have hS2 := Sound_interleaved L _ rootURL c2 h2
  have n1 : c1.stores.fetched.Nodup := by rw [hS1.fetchedEq]; exact hS1.visitKeys
  have n2 : c2.stores.fetched.Nodup := by rw [hS2.fetchedEq]; exact hS2.visitKeys
  have hsame : ∀ u, u ∈ GoMap.keys c1.stores.toVisit ↔ u ∈ GoMap.keys c2.stores.toVisit :=
    fun u => (a1 u).trans (a2 u).symm
  refine ⟨a1, hsame, b1, n1, n2, ?_⟩
  rw [List.perm_ext_iff_of_nodup n1 n2]
  intro u
  rw [b1 u, b2 u]
  exact hsame u

/-- C19 (amended) on `forkSite`: the two crawls that receive `A` before `B` and
`B` before `A` end with the trees `forkTreeA` and `forkTreeB`, with the same
URLs in the to-visit set and with logs of fetched URLs that are permutations
of each other. -/
theorem crawls_discover_same_urls_witness :
    ∃ a b,
      runSteps oneHost 10 6 forkSite [0, 0, 0, 0, 0, 0, 0] (CreateSiteMap.init "S") = some a ∧
      runSteps oneHost 10 6 forkSite [0, 1, 0, 0, 0, 0, 0] (CreateSiteMap.init "S") = some b ∧
      a.info.Sitemap = forkTreeA ∧ b.info.Sitemap = forkTreeB ∧
      (∀ u, u ∈ GoMap.keys a.toVisit ↔ u ∈ GoMap.keys b.toVisit) ∧
      a.fetched.Perm b.fetched := by
  have hA : (runSteps oneHost 10 6 forkSite [0, 0, 0, 0, 0, 0, 0] (CreateSiteMap.init "S")).map
      (fun s => (s.queue, s.info.Sitemap)) = some ([], forkTreeA) := by decide!
  have hB : (runSteps oneHost 10 6 forkSite [0, 1, 0, 0, 0, 0, 0] (CreateSiteMap.init "S")).map
      (fun s => (s.queue, s.info.Sitemap)) = some ([], forkTreeB) := by decide!
  cases ha : runSteps oneHost 10 6 forkSite [0, 0, 0, 0, 0, 0, 0] (CreateSiteMap.init "S") with
  | none => rw [ha] at hA; cases hA
  | some a =>
    cases hb : runSteps oneHost 10 6 forkSite [0, 1, 0, 0, 0, 0, 0] (CreateSiteMap.init "S") with
    | none => rw [hb] at hB; cases hB
    | some b =>
      rw [ha] at hA
      rw [hb] at hB
      simp only [Option.map_some', Option.some.injEq, Prod.mk.injEq] at hA hB
      have iA := runSteps_interleaved oneHost "S" 10 6 forkSite _ _ a Interleaved.start ha
      have iB := runSteps_interleaved oneHost "S" 10 6 forkSite _ _ b Interleaved.start hb
      have T := crawls_discover_same_urls oneHost forkSite "S" ⟨a, fun _ => .receiving⟩
        ⟨b, fun _ => .receiving⟩ iA iB ⟨hA.1, fun _ => rfl⟩ ⟨hB.1, fun _ => rfl⟩
      exact ⟨a, b, rfl, rfl, hA.2, hB.2, T.2.1, T.2.2.2.2.2⟩

end Crawl
